import Mathlib

/-!
# Wellbore: well-to-grid coupling (src/lib/Wellbore.hpp)

A shallow embedding of the class `Wellbore<dim>` for `dim = 3`.

* `double` is read as an element of a linearly ordered field `F`, with exact
  arithmetic. This reading is faithful only where no division by zero and no
  logarithm of a non-positive number is evaluated, no result leaves the range of
  the doubles and no rounding error decides a comparison; the theorems below say
  so in their hypotheses wherever the value matters.
* Where the range of the doubles decides, the function is translated a second
  time over `Double F` (finite values, the two infinities and NaN; overflow goes
  to an infinity, underflow to zero): `new_Wellbore_double`,
  `compute_productivity_double`. Where the rounding of a sum decides, the
  marching loop is translated with rounded sums: `get_segment_length_rounded`.
* The functions of the C mathematics library the class calls (`std::sqrt`,
  `std::log`, `std::pow`, the constant `M_PI`) are a parameter `MathFns F`;
  `realMath` instantiates them with the real functions.
* `AssertThrow` becomes `Except.error`; reading a `std::vector` past its end
  (undefined behaviour in C++) becomes the error `out_of_range`.
* A cell iterator is a value of a type `C` with decidable equality.
-/

set_option linter.dupNamespace false
set_option linter.unusedVariables false
set_option linter.unusedSectionVars false

namespace Wellbore

/-! ## Data model -/

/-- The errors raised by `AssertThrow` in Wellbore.hpp, one constructor per
assertion, `out_of_range` for a read or write past the end of a vector, and
`out_of_fuel` for a loop of the model that was given too little fuel (the C++
loop would still be running). -/
inductive WellError
  | no_locations
  | nonpositive_radius
  | duplicate_locations
  | negative_productivity
  | need_to_locate
  | not_implemented
  | out_of_range
  | out_of_fuel
  deriving DecidableEq, Repr

/-- Modelled from the spec: the enumeration `Schedule::WellControlType` is
declared in Schedule.cc, which is not among the sources. Wellbore.hpp names the
enumerators `pressure_control` and `flow_control_total` and has a branch for
every other kind; `other_control` stands for any further enumerator. -/
inductive WellControlType
  | pressure_control
  | flow_control_total
  | other_control (tag : Nat)
  deriving DecidableEq, Repr

/-- Modelled from the spec: the record `Schedule::WellControl` is declared in
Schedule.cc, which is not among the sources; these are the three fields
Wellbore.hpp reads (`control.type`, `control.value`, `control.skin`). -/
structure WellControl (F : Type) where
  type : WellControlType
  value : F
  skin : F

/-- A `Tensor<1,3>` or `Point<3>`: three coordinates, `c0 = [0]`, `c1 = [1]`,
`c2 = [2]`. -/
structure Tensor1 (F : Type) where
  c0 : F
  c1 : F
  c2 : F

/-- The functions of the mathematics library used by the class. -/
structure MathFns (F : Type) where
  sqrt : F → F
  log : F → F
  pow : F → F → F
  pi : F

/-- The member variables of `Wellbore<3>` (the pointer to the dof handler is
replaced by the mesh passed to the operations that use it). -/
structure Wellbore (C F : Type) where
  locations : List (Tensor1 F)
  radius : F
  control : WellControl F
  cells : List C
  segment_length : List F
  segment_direction : List (Tensor1 F)
  productivities : List F

/-- What `update_productivity` reads from the mesh: the centre of a cell and
the quadrature point (one-point Gauss rule) of each of its faces. -/
structure Mesh (C F : Type) where
  center : C → Tensor1 F
  face_q_points : C → List (Tensor1 F)

/-- Reading `v[i]` from a vector. -/
def vec_read {α : Type} (v : List α) (i : Nat) : Except WellError α :=
  match v[i]? with
  | some a => .ok a
  | none => .error .out_of_range

section Generic

variable {C F : Type} [DecidableEq C] [LinearOrderedField F]

/-! ## find_cell -/

/-- The loop of `find_cell`, started at index `i` on the cells not yet
inspected: the index of the first cell equal to `cell`, or `-1`. -/
def find_cell_from (cell : C) : List C → Nat → Int
  | [], _ => -1
  | c :: cs, i => if cell = c then (i : Int) else find_cell_from cell cs (i + 1)

/-- Models `Wellbore::find_cell`. -/
def find_cell (st : Wellbore C F) (cell : C) : Int :=
  find_cell_from cell st.cells 0

/-! ## get_J_and_Q -/

/-- The summation loop of `get_J_and_Q`:
`for s: sum_productivities += productivities[s]`, starting from 0. -/
def sum_productivities (st : Wellbore C F) : F :=
  st.productivities.foldl (fun acc p => acc + p) 0

/-- Models `Wellbore::get_J_and_Q`. -/
def get_J_and_Q (st : Wellbore C F) (cell : C) : Except WellError (F × F) :=
  if ¬ (st.cells.length > 0) then .error .need_to_locate
  else
    let segment := find_cell st cell
    if segment = -1 then .ok (0, 0)
    else
      match st.control.type with
      | .pressure_control => do
          let p ← vec_read st.productivities segment.toNat
          pure (p, st.control.value * p)
      | .flow_control_total => do
          let sum := sum_productivities st
          let p ← vec_read st.productivities segment.toNat
          let normalized_flux := st.control.value * p / sum
          if sum > 0 then pure (0, normalized_flux) else pure (0, 0)
      | .other_control _ => .error .not_implemented

/-- Spec side (not from the source): the sum `S` of the productivity indices
over all bound cells, the productivity of the bound cell number `j` being entry
`j` of `productivities`. It is compared with `sum_productivities`, the sum the
code computes. -/
def spec_total_productivity (st : Wellbore C F) : F :=
  ((List.range st.cells.length).map (fun j => st.productivities.getD j 0)).sum

/-! ## get_cell_size, get_cell_sizes -/

/-- One pass of the face loop of `get_cell_size` for one coordinate: `mm` is
the pair `min_max[d]`, `q` the coordinate `q_point[d]` of the face point. -/
def min_max_update (mm : F × F) (q : F) : F × F :=
  let first := if q < mm.1 then q else mm.1
  let second := if q > mm.2 then q else mm.2
  (first, second)

/-- The extent `h[d]` computed by `get_cell_size` for one coordinate: `min_max[d]`
starts at the centre coordinate `c`, is swept over the face points `qs`, and
the result is `second - first`. -/
def coordinate_extent (c : F) (qs : List F) : F :=
  let mm := qs.foldl min_max_update (c, c)
  mm.2 - mm.1

/-- Models `Wellbore::get_cell_size`: the size `h` of one cell. -/
def get_cell_size (mesh : Mesh C F) (cell : C) : Tensor1 F :=
  let p := mesh.center cell
  let qs := mesh.face_q_points cell
  { c0 := coordinate_extent p.c0 (qs.map Tensor1.c0)
    c1 := coordinate_extent p.c1 (qs.map Tensor1.c1)
    c2 := coordinate_extent p.c2 (qs.map Tensor1.c2) }

/-- Models `Wellbore::get_cell_sizes`. The result vector `h` has as many
entries as the member `cells` (not as the argument `cells_`), zero-initialised;
entry `counter` is filled for the cell number `counter` of `cells_`, which is a
write past the end when `cells_` is the longer list. -/
def get_cell_sizes (mesh : Mesh C F) (st : Wellbore C F) (cells_ : List C) :
    Except WellError (List (Tensor1 F)) :=
  if cells_.length ≤ st.cells.length then
    .ok (cells_.map (get_cell_size mesh) ++
      List.replicate (st.cells.length - cells_.length) { c0 := 0, c1 := 0, c2 := 0 })
  else .error .out_of_range

/-! ## compute_productivity, update_productivity -/

/-- The local variable `r` of `compute_productivity` (the Peaceman radius). -/
def pieceman_radius (M : MathFns F) (k1 k2 dx1 dx2 : F) : F :=
  28 / 100 * M.sqrt (M.sqrt (k2 / k1) * dx1 * dx1 + M.sqrt (k1 / k2) * dx2 * dx2) /
    (M.pow (k2 / k1) (25 / 100) + M.pow (k1 / k2) (25 / 100))

/-- The denominator of `trans` in `compute_productivity`:
`std::log(r/radius) + control.skin`. -/
def log_term (M : MathFns F) (radius skin : F) (k1 k2 dx1 dx2 : F) : F :=
  M.log (pieceman_radius M k1 k2 dx1 dx2 / radius) + skin

/-- Models `Wellbore::compute_productivity`; `radius` and `skin` are the
members `radius` and `control.skin` it reads. The arithmetic is the exact one
of `F`; overflow, underflow and NaN are followed by
`compute_productivity_double`. -/
def compute_productivity (M : MathFns F) (radius skin : F) (k1 k2 dx1 dx2 length : F) :
    Except WellError F :=
  let r := pieceman_radius M k1 k2 dx1 dx2
  let trans := 2 * M.pi * M.sqrt (k1 * k2) * length / (M.log (r / radius) + skin)
  if trans ≥ 0 then .ok trans else .error .negative_productivity

/-- The Euclidean norm `Tensor<1,3>::norm()`. -/
def Tensor1.norm (M : MathFns F) (t : Tensor1 F) : F :=
  M.sqrt (t.c0 * t.c0 + t.c1 * t.c1 + t.c2 * t.c2)

/-- The body of the cell loop of `update_productivity` for the bound cell
`cell` with size `h`, accumulated length `l` and direction `d`: the value that
is pushed to `productivities`. -/
def cell_productivity (M : MathFns F) (mesh : Mesh C F)
    (get_permeability : Tensor1 F → Tensor1 F) (st : Wellbore C F)
    (cell : C) (h : Tensor1 F) (l : F) (d : Tensor1 F) : Except WellError F := do
  let perm := get_permeability (mesh.center cell)
  let p0 ← compute_productivity M st.radius st.control.skin
    perm.c1 perm.c2 h.c1 h.c2 (l * |d.c0|)
  let p1 ← compute_productivity M st.radius st.control.skin
    perm.c0 perm.c2 h.c0 h.c2 (l * |d.c1|)
  let p2 ← compute_productivity M st.radius st.control.skin
    perm.c0 perm.c1 h.c0 h.c1 (l * |d.c2|)
  pure (Tensor1.norm M { c0 := p0, c1 := p1, c2 := p2 })

/-- The cell loop of `update_productivity`: `n` iterations are left, `i` is the
loop index and `prods` the current content of `productivities`. -/
def update_productivity_loop (M : MathFns F) (mesh : Mesh C F)
    (get_permeability : Tensor1 F → Tensor1 F) (st : Wellbore C F)
    (h : List (Tensor1 F)) : Nat → Nat → List F → Except WellError (List F)
  | 0, _, prods => .ok prods
  | n + 1, i, prods => do
      let cell ← vec_read st.cells i
      let hi ← vec_read h i
      let l ← vec_read st.segment_length i
      let d ← vec_read st.segment_direction i
      let p ← cell_productivity M mesh get_permeability st cell hi l d
      update_productivity_loop M mesh get_permeability st h n (i + 1) (prods ++ [p])

/-- Models `Wellbore::update_productivity`. An exception leaves the function;
the state it leaves behind is not modelled. -/
def update_productivity (M : MathFns F) (mesh : Mesh C F)
    (get_permeability : Tensor1 F → Tensor1 F) (st : Wellbore C F) :
    Except WellError (Wellbore C F) := do
  let h ← get_cell_sizes mesh st st.cells
  let prods ← update_productivity_loop M mesh get_permeability st h
    st.cells.length 0 st.productivities
  pure { st with productivities := prods }

/-! ## Points and tensors -/

/-- The sum `a + b` of two tensors (or of a point and a tensor). -/
def Tensor1.add (a b : Tensor1 F) : Tensor1 F :=
  { c0 := a.c0 + b.c0, c1 := a.c1 + b.c1, c2 := a.c2 + b.c2 }

/-- The difference `a - b`. -/
def Tensor1.sub (a b : Tensor1 F) : Tensor1 F :=
  { c0 := a.c0 - b.c0, c1 := a.c1 - b.c1, c2 := a.c2 - b.c2 }

/-- The product `a * s` of a tensor and a number. -/
def Tensor1.scale (a : Tensor1 F) (s : F) : Tensor1 F :=
  { c0 := a.c0 * s, c1 := a.c1 * s, c2 := a.c2 * s }

/-- The quotient `a / s` of a tensor by a number. -/
def Tensor1.div (a : Tensor1 F) (s : F) : Tensor1 F :=
  { c0 := a.c0 / s, c1 := a.c1 / s, c2 := a.c2 / s }

/-- The function `scalar_product (a, b)`. -/
def scalar_product (a b : Tensor1 F) : F :=
  a.c0 * b.c0 + a.c1 * b.c1 + a.c2 * b.c2

/-- The member `Point::distance`: `a.distance (b)`. -/
def Tensor1.distance (M : MathFns F) (a b : Tensor1 F) : F :=
  M.sqrt ((a.c0 - b.c0) * (a.c0 - b.c0) + (a.c1 - b.c1) * (a.c1 - b.c1)
    + (a.c2 - b.c2) * (a.c2 - b.c2))

/-! ## The constructor -/

/-- The loop of the constructor that checks for duplicates: for `i = 1, 2, ...`
it asserts `(locations[i] - locations[i-1]).norm() > 0`. -/
def check_duplicates (M : MathFns F) : List (Tensor1 F) → Except WellError Unit
  | [] => .ok ()
  | [_] => .ok ()
  | x :: y :: rest =>
    if Tensor1.norm M (y.sub x) > 0 then check_duplicates M (y :: rest)
    else .error .duplicate_locations

/-- Models the constructor `Wellbore::Wellbore (locations_, radius_)`.
`control_default` is the default-constructed member `control`, of which the
constructor then sets the type and the value; the vectors start empty. The
arithmetic is the exact one of `F`; overflow, underflow and NaN are followed by
`new_Wellbore_double`. -/
def new_Wellbore (M : MathFns F) (control_default : WellControl F)
    (locations_ : List (Tensor1 F)) (radius_ : F) : Except WellError (Wellbore C F) :=
  if ¬ (locations_.length > 0) then .error .no_locations
  else if ¬ (radius_ > 0) then .error .nonpositive_radius
  else do
    check_duplicates M locations_
    pure { locations := locations_
           radius := radius_
           control := { control_default with type := .flow_control_total, value := 0 }
           cells := []
           segment_length := []
           segment_direction := []
           productivities := [] }

/-- The product `s * a` of a number and a tensor. -/
def Tensor1.smul (s : F) (a : Tensor1 F) : Tensor1 F :=
  { c0 := s * a.c0, c1 := s * a.c1, c2 := s * a.c2 }

/-! ## The mesh as seen by locate -/

/-- Modelled from the spec: the constants of the namespace `DefaultValues`,
declared in DefaultValues.cc, which is not among the sources. They are
parameters: `small_number`, `small_number_geometry`, and `cos_small_angle`,
the value of the expression `cos(DefaultValues::small_angle)`. -/
structure DefaultValues (F : Type) where
  small_number : F
  small_number_geometry : F
  cos_small_angle : F

/-- What `locate` reads from the `DoFHandler`, beyond what `Mesh` holds. Faces
and subfaces are numbered from 0; a cell of a three-dimensional mesh has
`GeometryInfo<3>::faces_per_cell = 6` faces.
* `active_cells`: the active cells in the order of iteration;
* `point_inside c p`: `c->point_inside(p)`; `diameter c`: `c->diameter()`;
* `active_cell_index c`: `c->active_cell_index()`;
* `at_boundary c f`: `c->at_boundary(f)`; `neighbor c f`: `c->neighbor(f)`;
* `neighbor_level_equal c f`: `c->neighbor(f)->level() == c->level()`;
* `neighbor_has_children c f`: `c->neighbor(f)->has_children()`;
* `neighbor_is_coarser c f`: `c->neighbor_is_coarser(f)`;
* `face_normal c f`: the normal vector at the Gauss point of face `f`;
* `face_n_children c f`: `c->face(f)->n_children()`;
* `neighbor_child_on_subface c f s`, `subface_normal c f s`: the child of the
  neighbour behind subface `s` of face `f` and the normal vector there. -/
structure DoFHandler (C F : Type) extends Mesh C F where
  active_cells : List C
  point_inside : C → Tensor1 F → Bool
  diameter : C → F
  active_cell_index : C → Nat
  at_boundary : C → Nat → Bool
  neighbor : C → Nat → C
  neighbor_level_equal : C → Nat → Bool
  neighbor_has_children : C → Nat → Bool
  neighbor_is_coarser : C → Nat → Bool
  face_normal : C → Nat → Tensor1 F
  face_n_children : C → Nat → Nat
  neighbor_child_on_subface : C → Nat → Nat → C
  subface_normal : C → Nat → Nat → Tensor1 F

/-! ## neighbor_is_farther, aligned_with_face, point_inside_cell -/

/-- Models `Wellbore::neighbor_is_farther`. -/
def neighbor_is_farther (M : MathFns F) (cell_to_wellbore neighbor_to_wellbore : Tensor1 F)
    (cell_index neighbor_index : Nat) (tolerance : F) : Bool :=
  let well_closer_to_cell : Bool :=
    decide (Tensor1.norm M cell_to_wellbore ≤ Tensor1.norm M neighbor_to_wellbore + tolerance)
  let neighbor_closer_to_cell : Bool :=
    decide (Tensor1.norm M cell_to_wellbore + tolerance ≥ Tensor1.norm M neighbor_to_wellbore)
  if well_closer_to_cell && !neighbor_closer_to_cell then true
  else if well_closer_to_cell && neighbor_closer_to_cell then
    if neighbor_index > cell_index then true else false
  else false

/-- Models `Wellbore::aligned_with_face`. The function `Math::normalize` is
declared in Math.hpp, which is not among the sources; it is the parameter
`normalize`. -/
def aligned_with_face (M : MathFns F) (P : DefaultValues F)
    (normalize : Tensor1 F → Tensor1 F) (cell_to_wellbore face_normal : Tensor1 F) : Bool :=
  let n := normalize cell_to_wellbore
  decide (|scalar_product n face_normal| / Tensor1.norm M n > P.cos_small_angle)

/-- Models `Wellbore::point_inside_cell`. -/
def point_inside_cell (P : DefaultValues F) (dh : DoFHandler C F) (cell : C)
    (p : Tensor1 F) : Bool :=
  let eps := P.small_number_geometry * dh.diameter cell
  dh.point_inside cell (p.add { c0 := eps, c1 := 0, c2 := 0 }) ||
  dh.point_inside cell (p.add { c0 := -eps, c1 := 0, c2 := 0 }) ||
  dh.point_inside cell (p.add { c0 := 0, c1 := eps, c2 := 0 }) ||
  dh.point_inside cell (p.add { c0 := 0, c1 := -eps, c2 := 0 }) ||
  dh.point_inside cell (p.add { c0 := 0, c1 := 0, c2 := eps }) ||
  dh.point_inside cell (p.add { c0 := 0, c1 := 0, c2 := -eps })

/-! ## get_segment_length -/

/-- One marching loop of `get_segment_length`:
`while (point_inside_cell (cell, p)) { if (start.distance (p) >
start.distance (end_point)) break; length += (p - pp).norm (); pp = p;
p = advance (p); }`, where `advance` adds or subtracts `t*step`. Each test of
the loop condition uses one unit of `fuel`; the result is the value of `length`
when the loop is left, or the error `out_of_fuel` when the fuel does not
suffice. -/
def march (M : MathFns F) (P : DefaultValues F) (dh : DoFHandler C F) (cell : C)
    (start end_point : Tensor1 F) (advance : Tensor1 F → Tensor1 F) :
    Nat → F → Tensor1 F → Tensor1 F → Except WellError F
  | 0, _, _, _ => .error .out_of_fuel
  | fuel + 1, length, p, pp =>
    if point_inside_cell P dh cell p then
      if Tensor1.distance M start p > Tensor1.distance M start end_point then .ok length
      else march M P dh cell start end_point advance fuel
        (length + Tensor1.norm M (p.sub pp)) (advance p) p
    else .ok length

/-- Models `Wellbore::get_segment_length`; `fuel` bounds the number of tests
of each of the two loop conditions. The arithmetic is the exact one of `F`; the
rounding of the marching points is followed by `get_segment_length_rounded`. -/
def get_segment_length (M : MathFns F) (P : DefaultValues F) (fuel : Nat)
    (dh : DoFHandler C F) (start : Tensor1 F) (cell : C) (tangent : Tensor1 F)
    (end_points : Tensor1 F × Tensor1 F) : Except WellError F := do
  let t := if |Tensor1.norm M tangent - 1| > P.small_number
    then tangent.div (Tensor1.norm M tangent) else tangent
  let d := Tensor1.norm M (end_points.2.sub end_points.1)
  let step := d * P.small_number_geometry
  let length ← march M P dh cell start end_points.2 (fun p => p.add (t.scale step))
    fuel 0 start start
  march M P dh cell start end_points.1 (fun p => p.sub (t.scale step))
    fuel length start start

/-! ## locate -/

section Locate

variable [FloorRing F]

/-- The loop over the subfaces of face `f` in `locate`: `skip` is the current
value of `skip_cell`; it is set when the subface is aligned with the well and
the child of the neighbour behind it is not farther. -/
def subface_loop (M : MathFns F) (P : DefaultValues F) (normalize : Tensor1 F → Tensor1 F)
    (dh : DoFHandler C F) (cell : C) (n d : Tensor1 F) (eps : F) (f : Nat) :
    List Nat → Bool → Bool
  | [], skip => skip
  | subface :: rest, skip =>
    let nf := dh.subface_normal cell f subface
    let neighbor_child := dh.neighbor_child_on_subface cell f subface
    let p1 := dh.center neighbor_child
    let face_aligned_with_well := aligned_with_face M P normalize n nf
    let well_closer_to_cell := neighbor_is_farther M n (p1.sub d)
      (dh.active_cell_index cell) (dh.active_cell_index neighbor_child) eps
    if face_aligned_with_well && !well_closer_to_cell then
      subface_loop M P normalize dh cell n d eps f rest true
    else subface_loop M P normalize dh cell n d eps f rest skip

/-- The loop over the faces in `locate`, which computes `skip_cell`: `skip` is
its current value. In the case of a neighbour of the same level without
children, or of a coarser neighbour, the loop is left as soon as `skip_cell`
is set. -/
def face_loop (M : MathFns F) (P : DefaultValues F) (normalize : Tensor1 F → Tensor1 F)
    (dh : DoFHandler C F) (cell : C) (n d : Tensor1 F) (eps : F) : List Nat → Bool → Bool
  | [], skip => skip
  | f :: rest, skip =>
    if !dh.at_boundary cell f then
      if (dh.neighbor_level_equal cell f && (dh.neighbor_has_children cell f == false))
          || dh.neighbor_is_coarser cell f then
        let nf := dh.face_normal cell f
        let p1 := dh.center (dh.neighbor cell f)
        let face_aligned_with_well := aligned_with_face M P normalize n nf
        let well_closer_to_cell := neighbor_is_farther M n (p1.sub d)
          (dh.active_cell_index cell) (dh.active_cell_index (dh.neighbor cell f)) eps
        if face_aligned_with_well && !well_closer_to_cell then true
        else face_loop M P normalize dh cell n d eps rest skip
      else if dh.neighbor_level_equal cell f && (dh.neighbor_has_children cell f == true) then
        face_loop M P normalize dh cell n d eps rest
          (subface_loop M P normalize dh cell n d eps f
            (List.range (dh.face_n_children cell f)) skip)
      else face_loop M P normalize dh cell n d eps rest skip
    else face_loop M P normalize dh cell n d eps rest skip

/-- The end of the body of the segment loop of `locate` (the lines after the
call of `get_segment_length`): the cell `cell`, met by a segment of tangent `a`
over the length `l`, is appended to the binding when `find_cell` does not find
it; otherwise `segment_length[cell_exists] += l` and
`segment_direction[l] = 0.5*(old_a + a)`, the index of the second assignment
being the length `l` converted to an integer. -/
def merge_binding (st : Wellbore C F) (cell : C) (l : F) (a : Tensor1 F) :
    Except WellError (Wellbore C F) :=
  let cell_exists := find_cell st cell
  if cell_exists = -1 then
    .ok { st with cells := st.cells ++ [cell]
                  segment_length := st.segment_length ++ [l]
                  segment_direction := st.segment_direction ++ [a] }
  else do
    let old_l ← vec_read st.segment_length cell_exists.toNat
    let lengths := st.segment_length.set cell_exists.toNat (old_l + l)
    let old_a ← vec_read st.segment_direction cell_exists.toNat
    if ⌊l⌋₊ < st.segment_direction.length then
      pure { st with segment_length := lengths
                     segment_direction :=
                       st.segment_direction.set ⌊l⌋₊ (Tensor1.smul (1 / 2) (old_a.add a)) }
    else .error .out_of_range

/-- The body of the segment loop of `locate` for the cell `cell` and the
segment from `x0` to `x1`. The state is the well together with the local
variable `start`, which keeps its value from one iteration to the next;
`continue` returns the state. -/
def locate_segment (M : MathFns F) (P : DefaultValues F) (normalize : Tensor1 F → Tensor1 F)
    (fuel : Nat) (dh : DoFHandler C F) (cell : C) (x0 x1 : Tensor1 F)
    (s : Wellbore C F × Tensor1 F) : Except WellError (Wellbore C F × Tensor1 F) :=
  let p0 := dh.center cell
  let segment_len := Tensor1.norm M (x1.sub x0)
  let a := (x1.sub x0).div segment_len
  let d := x0.add (a.scale (scalar_product (p0.sub x0) a))
  let n := d.sub p0
  if !point_inside_cell P dh cell d then .ok s
  else
    let td := scalar_product (p0.sub x0) a
    let t1 := segment_len
    let x0_inside := dh.point_inside cell x0
    let x1_inside := dh.point_inside cell x1
    if (decide (td < 0) || decide (td > t1)) && !(x0_inside || x1_inside) then .ok s
    else
      let start1 := if decide (td < 0) && x0_inside then x0 else s.2
      let start2 := if decide (td > t1) && x1_inside then x1 else start1
      let start := if decide (td ≥ 0) && decide (td ≤ t1) then d else start2
      let eps := P.small_number * dh.diameter cell
      let skip_cell := face_loop M P normalize dh cell n d eps (List.range 6) false
      if skip_cell then .ok (s.1, start)
      else do
        let l ← get_segment_length M P fuel dh start cell a (x0, x1)
        let st ← merge_binding s.1 cell l a
        pure (st, start)

/-- The segment loop of `locate` for one cell: `segments` are the pairs
`(locations[i-1], locations[i])` still to be visited. -/
def segment_loop (M : MathFns F) (P : DefaultValues F) (normalize : Tensor1 F → Tensor1 F)
    (fuel : Nat) (dh : DoFHandler C F) (cell : C) :
    List (Tensor1 F × Tensor1 F) → Wellbore C F × Tensor1 F →
      Except WellError (Wellbore C F × Tensor1 F)
  | [], s => .ok s
  | (x0, x1) :: rest, s => do
    let s' ← locate_segment M P normalize fuel dh cell x0 x1 s
    segment_loop M P normalize fuel dh cell rest s'

/-- The pairs `(locations[i-1], locations[i])` for `i = 1, 2, ...`. -/
def segments (locations : List (Tensor1 F)) : List (Tensor1 F × Tensor1 F) :=
  locations.zip locations.tail

/-- The case of a wellbore that is one point, for a cell that contains it: the
cell is bound with the vertical direction and with the third component of its
size as length. -/
def bind_point_cell (dh : DoFHandler C F) (st : Wellbore C F) (cell : C) :
    Except WellError (Wellbore C F) := do
  let st1 := { st with cells := st.cells ++ [cell]
                       segment_direction :=
                         st.segment_direction ++ [{ c0 := 0, c1 := 0, c2 := 1 }] }
  let h ← get_cell_sizes dh.toMesh st1 [cell]
  let h0 ← vec_read h 0
  pure { st1 with segment_length := st1.segment_length ++ [h0.c2] }

/-- The cell loop of `locate`: `cells_left` are the active cells still to be
visited. -/
def cell_loop (M : MathFns F) (P : DefaultValues F) (normalize : Tensor1 F → Tensor1 F)
    (fuel : Nat) (dh : DoFHandler C F) :
    List C → Wellbore C F × Tensor1 F → Except WellError (Wellbore C F × Tensor1 F)
  | [], s => .ok s
  | cell :: cells_left, s =>
    if cell ∈ s.1.cells then cell_loop M P normalize fuel dh cells_left s
    else
      match s.1.locations with
      | [location] =>
        if dh.point_inside cell location then do
          let st ← bind_point_cell dh s.1 cell
          pure (st, s.2)
        else cell_loop M P normalize fuel dh cells_left s
      | locations => do
        let s' ← segment_loop M P normalize fuel dh cell (segments locations) s
        cell_loop M P normalize fuel dh cells_left s'

/-- Models `Wellbore::locate`: `cells.clear()`, then the cell loop. The local
variable `start` is a default-constructed point, the origin. -/
def locate (M : MathFns F) (P : DefaultValues F) (normalize : Tensor1 F → Tensor1 F)
    (fuel : Nat) (dh : DoFHandler C F) (st : Wellbore C F) :
    Except WellError (Wellbore C F) := do
  let s ← cell_loop M P normalize fuel dh dh.active_cells
    ({ st with cells := [] }, { c0 := 0, c1 := 0, c2 := 0 })
  pure s.1

end Locate

/-! ## Names for local variables and conditions of locate and get_segment_length -/

/-- The local variable `a` of `locate`: the unit tangent of the segment from
`x0` to `x1`. -/
def segment_tangent (M : MathFns F) (x0 x1 : Tensor1 F) : Tensor1 F :=
  (x1.sub x0).div (Tensor1.norm M (x1.sub x0))

/-- The local variable `d` of `locate`: the point of the line through `x0` and
`x1` that is closest to the centre of the cell. -/
def closest_point (M : MathFns F) (dh : DoFHandler C F) (cell : C) (x0 x1 : Tensor1 F) :
    Tensor1 F :=
  x0.add ((segment_tangent M x0 x1).scale
    (scalar_product ((dh.center cell).sub x0) (segment_tangent M x0 x1)))

/-- The local variable `n` of `locate`: the vector from the centre of the cell
to the point `d`. -/
def cell_to_wellbore (M : MathFns F) (dh : DoFHandler C F) (cell : C) (x0 x1 : Tensor1 F) :
    Tensor1 F :=
  (closest_point M dh cell x0 x1).sub (dh.center cell)

/-- The local variable `td` of `locate`: the parameter of `d` along the
segment. -/
def closest_parameter (M : MathFns F) (dh : DoFHandler C F) (cell : C) (x0 x1 : Tensor1 F) :
    F :=
  scalar_product ((dh.center cell).sub x0) (segment_tangent M x0 x1)

/-- The condition under which a marching loop of `get_segment_length` enters
its body and adds to `length` at the point `p`: the loop condition
`point_inside_cell (cell, p)` holds and the `break` is not taken. -/
def march_accepts (M : MathFns F) (P : DefaultValues F) (dh : DoFHandler C F) (cell : C)
    (start end_point : Tensor1 F) (p : Tensor1 F) : Bool :=
  point_inside_cell P dh cell p &&
    !decide (Tensor1.distance M start p > Tensor1.distance M start end_point)

/-- The test `point_inside` of a cell that is the closed box with the corners
`lo` and `hi` (a mesh of such cells is what the concrete examples use). -/
def box_contains (lo hi : Tensor1 F) (p : Tensor1 F) : Bool :=
  decide (lo.c0 ≤ p.c0 ∧ p.c0 ≤ hi.c0 ∧ lo.c1 ≤ p.c1 ∧ p.c1 ≤ hi.c1 ∧
    lo.c2 ≤ p.c2 ∧ p.c2 ≤ hi.c2)

section MarchedLength

variable [FloorRing F]

/-- The sum of the whole numbers of steps of length `step` that fit into the
lengths `up` and `down`: the closed form of what `get_segment_length` returns
when marching is possible over `up` forwards and over `down` backwards (see
`get_segment_length_vertical`). -/
def marched_length (step up down : F) : F :=
  (⌊up / step⌋₊ : F) * step + (⌊down / step⌋₊ : F) * step

end MarchedLength

/-- The start point that `locate` hands to `get_segment_length`: the three
assignments `if (td < 0 && x0_inside) start = x0; if (td > t1 && x1_inside)
start = x1; if (td >= 0 && td <= t1) start = d;` applied to the value `start`
that the variable holds before. -/
def start_point (M : MathFns F) (dh : DoFHandler C F) (cell : C) (x0 x1 start : Tensor1 F) :
    Tensor1 F :=
  let td := closest_parameter M dh cell x0 x1
  let t1 := Tensor1.norm M (x1.sub x0)
  let start1 := if decide (td < 0) && dh.point_inside cell x0 then x0 else start
  let start2 := if decide (td > t1) && dh.point_inside cell x1 then x1 else start1
  if decide (td ≥ 0) && decide (td ≤ t1) then closest_point M dh cell x0 x1 else start2

/-- The divisions that `get_J_and_Q` evaluates, in the order of their
evaluation, each as the pair (numerator, denominator). The statements are
followed as in `get_J_and_Q`; the only division of the function is the one in
the initialiser of `normalized_flux`, which stands before the test
`sum_productivities > 0`. -/
def get_J_and_Q_divisions (st : Wellbore C F) (cell : C) : List (F × F) :=
  if ¬ (st.cells.length > 0) then []
  else
    let segment := find_cell st cell
    if segment = -1 then []
    else
      match st.control.type with
      | .pressure_control => []
      | .flow_control_total =>
          let sum := sum_productivities st
          match vec_read st.productivities segment.toNat with
          | .ok p => [(st.control.value * p, sum)]
          | .error _ => []
      | .other_control _ => []

/-- The local variable `step` of `get_segment_length`: the length of the
segment between the end points times `DefaultValues::small_number_geometry`. -/
def marching_step (M : MathFns F) (P : DefaultValues F) (end_points : Tensor1 F × Tensor1 F) :
    F :=
  Tensor1.norm M (end_points.2.sub end_points.1) * P.small_number_geometry

/-! ## Doubles and their range -/

/-- A value of the type `double` as far as its range goes: a finite number, an
infinity, or NaN. A finite value stands for the exact number: the rounding of a
result that stays within the range is not followed, only what becomes of a
result that leaves the range (overflow to an infinity, underflow to zero). The
sign of a zero is not followed either. -/
inductive Double (F : Type) where
  | finite (x : F)
  | pos_inf
  | neg_inf
  | nan

/-- A result of this magnitude or more rounds to an infinity: the largest
finite double is `2^1024 - 2^971`, and the midpoint between it and `2^1024`
rounds away from it. -/
def double_overflow_bound : F := 2 ^ 1024 - 2 ^ 970

/-- A result of this magnitude or less rounds to zero: the smallest positive
double is `2^(-1074)`, and the midpoint between it and zero rounds to zero. -/
def double_underflow_bound : F := 1 / 2 ^ 1075

/-- The double that the exact result `x` of an operation becomes. -/
def Double.round (x : F) : Double F :=
  if x ≥ double_overflow_bound then .pos_inf
  else if x ≤ -double_overflow_bound then .neg_inf
  else if |x| ≤ double_underflow_bound then .finite 0
  else .finite x

/-- Unary minus. -/
def Double.neg : Double F → Double F
  | .finite x => .finite (-x)
  | .pos_inf => .neg_inf
  | .neg_inf => .pos_inf
  | .nan => .nan

/-- The sum of two doubles. -/
def Double.add : Double F → Double F → Double F
  | .finite x, .finite y => Double.round (x + y)
  | .nan, _ => .nan
  | _, .nan => .nan
  | .pos_inf, .neg_inf => .nan
  | .neg_inf, .pos_inf => .nan
  | .pos_inf, _ => .pos_inf
  | _, .pos_inf => .pos_inf
  | .neg_inf, _ => .neg_inf
  | _, .neg_inf => .neg_inf

/-- The difference of two doubles. -/
def Double.sub (a b : Double F) : Double F :=
  a.add b.neg

/-- The product of two doubles; an infinity times zero is NaN. -/
def Double.mul : Double F → Double F → Double F
  | .finite x, .finite y => Double.round (x * y)
  | .nan, _ => .nan
  | _, .nan => .nan
  | .pos_inf, .finite y => if y > 0 then .pos_inf else if y < 0 then .neg_inf else .nan
  | .neg_inf, .finite y => if y > 0 then .neg_inf else if y < 0 then .pos_inf else .nan
  | .finite x, .pos_inf => if x > 0 then .pos_inf else if x < 0 then .neg_inf else .nan
  | .finite x, .neg_inf => if x > 0 then .neg_inf else if x < 0 then .pos_inf else .nan
  | .pos_inf, .pos_inf => .pos_inf
  | .neg_inf, .neg_inf => .pos_inf
  | .pos_inf, .neg_inf => .neg_inf
  | .neg_inf, .pos_inf => .neg_inf

/-- The quotient of two doubles. A nonzero finite number divided by zero is an
infinity, zero divided by zero is NaN, a finite number divided by an infinity
is zero. The zero divisor is taken as `+0`. -/
def Double.div : Double F → Double F → Double F
  | .finite x, .finite y =>
    if y = 0 then (if x > 0 then .pos_inf else if x < 0 then .neg_inf else .nan)
    else Double.round (x / y)
  | .nan, _ => .nan
  | _, .nan => .nan
  | .finite _, .pos_inf => .finite 0
  | .finite _, .neg_inf => .finite 0
  | .pos_inf, .finite y => if y ≥ 0 then .pos_inf else .neg_inf
  | .neg_inf, .finite y => if y ≥ 0 then .neg_inf else .pos_inf
  | .pos_inf, .pos_inf => .nan
  | .pos_inf, .neg_inf => .nan
  | .neg_inf, .pos_inf => .nan
  | .neg_inf, .neg_inf => .nan

/-- The function `std::sqrt` on doubles. -/
def Double.sqrt (M : MathFns F) : Double F → Double F
  | .finite x => if x < 0 then .nan else Double.round (M.sqrt x)
  | .pos_inf => .pos_inf
  | .neg_inf => .nan
  | .nan => .nan

/-- The function `std::log` on doubles. -/
def Double.log (M : MathFns F) : Double F → Double F
  | .finite x => if x < 0 then .nan else if x = 0 then .neg_inf else Double.round (M.log x)
  | .pos_inf => .pos_inf
  | .neg_inf => .nan
  | .nan => .nan

/-- The function `std::pow` on doubles, for a finite exponent `y > 0` that is
not an integer (the class uses the exponent 0.25 only). -/
def Double.pow (M : MathFns F) (x : Double F) (y : F) : Double F :=
  match x with
  | .finite x => if x < 0 then .nan else Double.round (M.pow x y)
  | .pos_inf => .pos_inf
  | .neg_inf => .pos_inf
  | .nan => .nan

/-- The comparison `x > 0` of a double; a comparison with NaN is false. -/
def Double.gt_zero : Double F → Bool
  | .finite x => decide (x > 0)
  | .pos_inf => true
  | .neg_inf => false
  | .nan => false

/-- The point or tensor with the finite coordinates of `p`. -/
def Tensor1.to_double (p : Tensor1 F) : Tensor1 (Double F) :=
  { c0 := .finite p.c0, c1 := .finite p.c1, c2 := .finite p.c2 }

/-- The difference `a - b` of two points with double coordinates. -/
def Double.point_sub (a b : Tensor1 (Double F)) : Tensor1 (Double F) :=
  { c0 := a.c0.sub b.c0, c1 := a.c1.sub b.c1, c2 := a.c2.sub b.c2 }

/-- The Euclidean norm `Tensor<1,3>::norm()` in doubles: the square root of the
sum of the squares of the coordinates. -/
def Double.norm (M : MathFns F) (t : Tensor1 (Double F)) : Double F :=
  Double.sqrt M (((t.c0.mul t.c0).add (t.c1.mul t.c1)).add (t.c2.mul t.c2))

/-- The loop of the constructor that checks for duplicates, as
`check_duplicates`, with the norm computed in doubles. -/
def check_duplicates_double (M : MathFns F) : List (Tensor1 (Double F)) → Except WellError Unit
  | [] => .ok ()
  | [_] => .ok ()
  | x :: y :: rest =>
    if (Double.norm M (Double.point_sub y x)).gt_zero then check_duplicates_double M (y :: rest)
    else .error .duplicate_locations

/-- Models the constructor `Wellbore::Wellbore (locations_, radius_)` as
`new_Wellbore` does, on doubles with their range: the coordinates and the radius
may be infinite or NaN, and the squares and sums of the duplicate check may
overflow or underflow. -/
def new_Wellbore_double (M : MathFns F) (control_default : WellControl (Double F))
    (locations_ : List (Tensor1 (Double F))) (radius_ : Double F) :
    Except WellError (Wellbore C (Double F)) :=
  if ¬ (locations_.length > 0) then .error .no_locations
  else if ¬ (radius_.gt_zero = true) then .error .nonpositive_radius
  else do
    check_duplicates_double M locations_
    pure { locations := locations_
           radius := radius_
           control := { control_default with type := .flow_control_total, value := .finite 0 }
           cells := []
           segment_length := []
           segment_direction := []
           productivities := [] }

/-- The exact result `x` of an operation is within the range of the doubles:
it is zero, or its magnitude neither underflows to zero nor overflows to an
infinity. -/
def in_double_range (x : F) : Prop :=
  x = 0 ∨ (double_underflow_bound < |x| ∧ |x| < double_overflow_bound)

/-! ## The rounding of the marching points -/

section Rounding

variable [FloorRing F]

/-- The double nearest to the number `x`, for `x` in the range of the normal
doubles: the doubles between `2^e` and `2^(e+1)` are the multiples of
`2^(e-52)`, and `x` is rounded to the nearest of them, a tie going to the even
multiple. -/
def round_to_double (x : F) : F :=
  if x = 0 then 0
  else
    let u : F := 2 ^ (Int.log 2 |x| - 52)
    let n : Int := ⌊x / u⌋
    let r : F := x / u - n
    if r < 1 / 2 then n * u
    else if r > 1 / 2 then (n + 1) * u
    else if n % 2 = 0 then n * u else (n + 1) * u

/-- A point whose coordinates are rounded to doubles. -/
def Tensor1.rounded (a : Tensor1 F) : Tensor1 F :=
  { c0 := round_to_double a.c0, c1 := round_to_double a.c1, c2 := round_to_double a.c2 }

/-- Models `Wellbore::get_segment_length` as `get_segment_length` does, except
that the results of `p + t*step` and `p - t*step` are rounded to doubles, as
they are when they are stored in `p`. The rounding of the other operations is
not followed. -/
def get_segment_length_rounded (M : MathFns F) (P : DefaultValues F) (fuel : Nat)
    (dh : DoFHandler C F) (start : Tensor1 F) (cell : C) (tangent : Tensor1 F)
    (end_points : Tensor1 F × Tensor1 F) : Except WellError F := do
  let t := if |Tensor1.norm M tangent - 1| > P.small_number
    then tangent.div (Tensor1.norm M tangent) else tangent
  let d := Tensor1.norm M (end_points.2.sub end_points.1)
  let step := d * P.small_number_geometry
  let length ← march M P dh cell start end_points.2 (fun p => (p.add (t.scale step)).rounded)
    fuel 0 start start
  march M P dh cell start end_points.1 (fun p => (p.sub (t.scale step)).rounded)
    fuel length start start

end Rounding

end Generic

/-- The mathematics library read as the exact real functions. -/
noncomputable def realMath : MathFns ℝ where
  sqrt := Real.sqrt
  log := Real.log
  pow := fun x y => x ^ y
  pi := Real.pi

/-- Spec side (not from the source): the equivalent radius of section 4.2,
`r_eq = 0.28 * sqrt( sqrt(k2/k1)*dx1^2 + sqrt(k1/k2)*dx2^2 ) /
  ( (k2/k1)^0.25 + (k1/k2)^0.25 )`. -/
noncomputable def spec_r_eq (k1 k2 dx1 dx2 : ℝ) : ℝ :=
  0.28 * Real.sqrt (Real.sqrt (k2 / k1) * dx1 ^ 2 + Real.sqrt (k1 / k2) * dx2 ^ 2) /
    ((k2 / k1) ^ (1 / 4 : ℝ) + (k1 / k2) ^ (1 / 4 : ℝ))

/-- Spec side (not from the source): the axis productivity of section 4.2,
`J = 2*pi*sqrt(k1*k2)*L / ( ln(r_eq / radius) + skin )`. -/
noncomputable def spec_J (radius skin k1 k2 dx1 dx2 L : ℝ) : ℝ :=
  2 * Real.pi * Real.sqrt (k1 * k2) * L /
    (Real.log (spec_r_eq k1 k2 dx1 dx2 / radius) + skin)

/-! ## Concrete well states -/

/-- A well bound to the cells 4 and 7, with productivities 3 and 1, under the
control `ctl`. -/
def two_cell_well (ctl : WellControl ℚ) : Wellbore Nat ℚ where
  locations := [{ c0 := 0, c1 := 0, c2 := 0 }, { c0 := 2, c1 := 0, c2 := 0 }]
  radius := 1 / 10
  control := ctl
  cells := [4, 7]
  segment_length := [1, 1]
  segment_direction := [{ c0 := 1, c1 := 0, c2 := 0 }, { c0 := 1, c1 := 0, c2 := 0 }]
  productivities := [3, 1]

/-- A well whose trajectory met no cell of the mesh: `locate` left `cells`
empty. -/
def well_outside_mesh : Wellbore Nat ℚ where
  locations := [{ c0 := 5, c1 := 5, c2 := 5 }]
  radius := 1 / 10
  control := { type := .flow_control_total, value := 0, skin := 0 }
  cells := []
  segment_length := []
  segment_direction := []
  productivities := []

/-- A rate well bound to the single cell 4 whose productivity is 0. -/
def zero_productivity_well : Wellbore Nat ℚ where
  locations := [{ c0 := 0, c1 := 0, c2 := 0 }]
  radius := 1 / 10
  control := { type := .flow_control_total, value := 5, skin := 0 }
  cells := [4]
  segment_length := [0]
  segment_direction := [{ c0 := 0, c1 := 0, c2 := 1 }]
  productivities := [0]

/-- The mesh of the scenario of section 8: a single cell, number 0, with centre
`(5, 5, 2.5)` and face points at distance 5, 5 and 2.5 from it, so that its
extents are 10 by 10 by 5. -/
noncomputable def scenario_mesh : Mesh Nat ℝ where
  center := fun _ => { c0 := 5, c1 := 5, c2 := 5 / 2 }
  face_q_points := fun _ =>
    [{ c0 := 0, c1 := 5, c2 := 5 / 2 }, { c0 := 10, c1 := 5, c2 := 5 / 2 },
     { c0 := 5, c1 := 0, c2 := 5 / 2 }, { c0 := 5, c1 := 10, c2 := 5 / 2 },
     { c0 := 5, c1 := 5, c2 := 0 }, { c0 := 5, c1 := 5, c2 := 5 }]

/-- The permeability of the scenario of section 8: 100 along every axis. -/
noncomputable def scenario_permeability : Tensor1 ℝ → Tensor1 ℝ :=
  fun _ => { c0 := 100, c1 := 100, c2 := 100 }

/-- The well of the scenario of section 8: radius 0.1, skin 0, a vertical
segment of length 5 in the cell 0, productivities not computed yet. -/
noncomputable def scenario_well : Wellbore Nat ℝ where
  locations := [{ c0 := 5, c1 := 5, c2 := 0 }, { c0 := 5, c1 := 5, c2 := 5 }]
  radius := 0.1
  control := { type := .pressure_control, value := 800, skin := 0 }
  cells := [0]
  segment_length := [5]
  segment_direction := [{ c0 := 0, c1 := 0, c2 := 1 }]
  productivities := []

/-- Modelled from the spec: `Math::normalize` is declared in Math.hpp, which is
not among the sources; it is read as the division of a vector by its norm.
Only the concrete examples use this reading. -/
noncomputable def Math_normalize (v : Tensor1 ℝ) : Tensor1 ℝ :=
  v.div (Tensor1.norm realMath v)

/-- Values for the constants of `DefaultValues` in the concrete examples. -/
noncomputable def scenario_defaults : DefaultValues ℝ where
  small_number := 1 / 1000000
  small_number_geometry := 1 / 1000000
  cos_small_angle := 999 / 1000

/-- The one-cell mesh of the scenario of section 8 as `locate` sees it: the
cell 0 is the box from `(0, 0, 0)` to `(10, 10, 5)`, of diameter 15, and its six
faces are at the boundary. -/
noncomputable def scenario_dof_handler : DoFHandler Nat ℝ where
  toMesh := scenario_mesh
  active_cells := [0]
  point_inside := fun _ p =>
    decide (0 ≤ p.c0 ∧ p.c0 ≤ 10 ∧ 0 ≤ p.c1 ∧ p.c1 ≤ 10 ∧ 0 ≤ p.c2 ∧ p.c2 ≤ 5)
  diameter := fun _ => 15
  active_cell_index := fun c => c
  at_boundary := fun _ _ => true
  neighbor := fun c _ => c
  neighbor_level_equal := fun _ _ => false
  neighbor_has_children := fun _ _ => false
  neighbor_is_coarser := fun _ _ => false
  face_normal := fun _ _ => { c0 := 0, c1 := 0, c2 := 0 }
  face_n_children := fun _ _ => 0
  neighbor_child_on_subface := fun c _ _ => c
  subface_normal := fun _ _ _ => { c0 := 0, c1 := 0, c2 := 0 }

/-- A freshly constructed well whose trajectory is the single point
`(5, 5, 2.5)`. -/
noncomputable def point_well : Wellbore Nat ℝ where
  locations := [{ c0 := 5, c1 := 5, c2 := 5 / 2 }]
  radius := 0.1
  control := { type := .flow_control_total, value := 0, skin := 0 }
  cells := []
  segment_length := []
  segment_direction := []
  productivities := []

/-- The well `point_well` after one call of `locate` on the one-cell mesh. -/
noncomputable def point_well_located : Wellbore Nat ℝ :=
  { point_well with cells := [0]
                    segment_length := [5]
                    segment_direction := [{ c0 := 0, c1 := 0, c2 := 1 }] }

/-- The well `point_well` after two calls of `locate` on the one-cell mesh. -/
noncomputable def point_well_located_twice : Wellbore Nat ℝ :=
  { point_well with cells := [0]
                    segment_length := [5, 5]
                    segment_direction :=
                      [{ c0 := 0, c1 := 0, c2 := 1 }, { c0 := 0, c1 := 0, c2 := 1 }] }

/-- A permeability field with the same value `k` along every axis and at every
point. -/
noncomputable def uniform_permeability (k : ℝ) : Tensor1 ℝ → Tensor1 ℝ :=
  fun _ => { c0 := k, c1 := k, c2 := k }

/-- The productivity index that `update_productivity` computes for the well of
the scenario of section 8 when the permeability is `k` everywhere. -/
noncomputable def scenario_productivity (k : ℝ) : ℝ :=
  Real.sqrt (0 * 0 + 0 * 0 + spec_J 0.1 0 k k 10 10 5 * spec_J 0.1 0 k k 10 10 5)

/-- A well with a bend during `locate`, on a mesh of unit cubes: the trajectory
goes from `(1/2, 1/2, 1/2)` along the first axis to `(3/2, 1/2, 1/2)` and then
along the second axis to `(3/2, 9/10, 1/2)`. The first segment has bound the
cell 4 (the cube from 0 to 1) and the cell 7 (the cube from 1 to 2 along the
first axis), each over the length `1/2`; the second segment is about to be
merged into the cell 7. -/
def bent_well : Wellbore Nat ℚ where
  locations := [{ c0 := 1 / 2, c1 := 1 / 2, c2 := 1 / 2 }, { c0 := 3 / 2, c1 := 1 / 2, c2 := 1 / 2 },
    { c0 := 3 / 2, c1 := 9 / 10, c2 := 1 / 2 }]
  radius := 1 / 10
  control := { type := .flow_control_total, value := 0, skin := 0 }
  cells := [4, 7]
  segment_length := [1 / 2, 1 / 2]
  segment_direction := [{ c0 := 1, c1 := 0, c2 := 0 }, { c0 := 1, c1 := 0, c2 := 0 }]
  productivities := []

/-- The numbering of the faces of a box cell: the outward unit normal of face
0 to 5 is `-x`, `+x`, `-y`, `+y`, `-z`, `+z`. -/
noncomputable def box_face_normal (f : Nat) : Tensor1 ℝ :=
  match f with
  | 0 => { c0 := -1, c1 := 0, c2 := 0 }
  | 1 => { c0 := 1, c1 := 0, c2 := 0 }
  | 2 => { c0 := 0, c1 := -1, c2 := 0 }
  | 3 => { c0 := 0, c1 := 1, c2 := 0 }
  | 4 => { c0 := 0, c1 := 0, c2 := -1 }
  | _ => { c0 := 0, c1 := 0, c2 := 1 }

/-- The lower corner of the cell `c` of `two_box_dof_handler`. -/
noncomputable def two_box_lo (c : Nat) : Tensor1 ℝ :=
  { c0 := if c = 0 then 0 else 8, c1 := 0, c2 := 0 }

/-- The upper corner of the cell `c` of `two_box_dof_handler`. -/
noncomputable def two_box_hi (c : Nat) : Tensor1 ℝ :=
  { c0 := if c = 0 then 8 else 16, c1 := 8, c2 := 8 }

/-- A mesh of two cubes of size 8 side by side along the first axis: the cell 0
from `(0, 0, 0)` to `(8, 8, 8)` and the cell 1 from `(8, 0, 0)` to `(16, 8, 8)`,
of the same level and without children. They share the face `x = 8` (face 1 of
the cell 0, face 0 of the cell 1); all other faces are at the boundary. The
active cell index of a cell is its number. -/
noncomputable def two_box_dof_handler : DoFHandler Nat ℝ where
  center := fun c => { c0 := if c = 0 then 4 else 12, c1 := 4, c2 := 4 }
  face_q_points := fun c =>
    [{ c0 := if c = 0 then 0 else 8, c1 := 4, c2 := 4 },
     { c0 := if c = 0 then 8 else 16, c1 := 4, c2 := 4 },
     { c0 := if c = 0 then 4 else 12, c1 := 0, c2 := 4 },
     { c0 := if c = 0 then 4 else 12, c1 := 8, c2 := 4 },
     { c0 := if c = 0 then 4 else 12, c1 := 4, c2 := 0 },
     { c0 := if c = 0 then 4 else 12, c1 := 4, c2 := 8 }]
  active_cells := [0, 1]
  point_inside := fun c p => box_contains (two_box_lo c) (two_box_hi c) p
  diameter := fun _ => 8 * Real.sqrt 3
  active_cell_index := fun c => c
  at_boundary := fun c f => !(decide (c = 0 ∧ f = 1) || decide (c = 1 ∧ f = 0))
  neighbor := fun c _ => 1 - c
  neighbor_level_equal := fun _ _ => true
  neighbor_has_children := fun _ _ => false
  neighbor_is_coarser := fun _ _ => false
  face_normal := fun _ f => box_face_normal f
  face_n_children := fun _ _ => 0
  neighbor_child_on_subface := fun c _ _ => c
  subface_normal := fun _ f _ => box_face_normal f

/-- A freshly constructed well with one segment along the third axis, from
`(8, y, 0)` to `(8, y, 8)`: it lies in the face shared by the two cells of
`two_box_dof_handler`, through the centre of that face when `y = 4`. -/
noncomputable def face_well (y : ℝ) : Wellbore Nat ℝ where
  locations := [{ c0 := 8, c1 := y, c2 := 0 }, { c0 := 8, c1 := y, c2 := 8 }]
  radius := 0.1
  control := { type := .flow_control_total, value := 0, skin := 0 }
  cells := []
  segment_length := []
  segment_direction := []
  productivities := []

/-- The well `face_well 4` after `locate` on the two-cell mesh: only the cell 0
is bound. -/
noncomputable def face_well_centred_located : Wellbore Nat ℝ :=
  { face_well 4 with cells := [0]
                     segment_length := [8]
                     segment_direction := [{ c0 := 0, c1 := 0, c2 := 1 }] }

/-- The well `face_well 7` after `locate` on the two-cell mesh: both cells are
bound, each with the whole length of the segment. -/
noncomputable def face_well_offset_located : Wellbore Nat ℝ :=
  { face_well 7 with cells := [0, 1]
                     segment_length := [8, 8]
                     segment_direction :=
                       [{ c0 := 0, c1 := 0, c2 := 1 }, { c0 := 0, c1 := 0, c2 := 1 }] }

/-- A column of `N` cubes of size `s` stacked along the third axis: the cell `k`
is the box from `(0, 0, k*s)` to `(s, s, (k+1)*s)`; all cells have the same
level and no children. The face 4 of a cell leads to the cell below and the
face 5 to the cell above; the other faces, the face 4 of the cell 0 and the
face 5 of the cell `N - 1` are at the boundary. The active cell index of a cell
is its number. -/
noncomputable def column_dof_handler (N : Nat) (s : ℝ) : DoFHandler Nat ℝ where
  center := fun k => { c0 := s / 2, c1 := s / 2, c2 := (k + 1 / 2) * s }
  face_q_points := fun k =>
    [{ c0 := 0, c1 := s / 2, c2 := (k + 1 / 2) * s },
     { c0 := s, c1 := s / 2, c2 := (k + 1 / 2) * s },
     { c0 := s / 2, c1 := 0, c2 := (k + 1 / 2) * s },
     { c0 := s / 2, c1 := s, c2 := (k + 1 / 2) * s },
     { c0 := s / 2, c1 := s / 2, c2 := k * s },
     { c0 := s / 2, c1 := s / 2, c2 := (k + 1) * s }]
  active_cells := List.range N
  point_inside := fun k p =>
    box_contains (⟨0, 0, k * s⟩ : Tensor1 ℝ) (⟨s, s, (k + 1) * s⟩ : Tensor1 ℝ) p
  diameter := fun _ => s * Real.sqrt 3
  active_cell_index := fun k => k
  at_boundary := fun k f => !(decide (f = 4 ∧ 0 < k) || decide (f = 5 ∧ k + 1 < N))
  neighbor := fun k f => if f = 4 then k - 1 else k + 1
  neighbor_level_equal := fun _ _ => true
  neighbor_has_children := fun _ _ => false
  neighbor_is_coarser := fun _ _ => false
  face_normal := fun _ f => box_face_normal f
  face_n_children := fun _ _ => 0
  neighbor_child_on_subface := fun k _ _ => k
  subface_normal := fun _ f _ => box_face_normal f

/-- The length that `locate` finds in the cell `k` of the column for the well
along the third axis from height 0 to height `N*s` (see
`column_locate_segment`). -/
noncomputable def column_cell_length (P : DefaultValues ℝ) (N : Nat) (s : ℝ) (k : Nat) : ℝ :=
  marched_length ((N * s - 0) * P.small_number_geometry)
    (min ((k + 1) * s + P.small_number_geometry * (s * Real.sqrt 3) - (k + 1 / 2) * s)
      (N * s - (k + 1 / 2) * s))
    (min ((k + 1 / 2) * s - k * s + P.small_number_geometry * (s * Real.sqrt 3))
      ((k + 1 / 2) * s - 0))

/-- A freshly constructed well with two control points strictly inside the
cube from `(0, 0, 0)` to `(8, 8, 8)`, near one of its edges: from
`(7.6, 7.95, 4)` to `(7.9, 7.55, 4)`, of length `1/2`. -/
noncomputable def corner_well : Wellbore Nat ℝ where
  locations := [{ c0 := 38 / 5, c1 := 159 / 20, c2 := 4 }, { c0 := 79 / 10, c1 := 151 / 20, c2 := 4 }]
  radius := 0.1
  control := { type := .flow_control_total, value := 0, skin := 0 }
  cells := []
  segment_length := []
  segment_direction := []
  productivities := []

/-- A freshly constructed well along the third axis through the middle of the
single cube of size 8 of the column with `N = 1`: from `(4, 4, 0)` to
`(4, 4, 8)`. -/
noncomputable def column_well : Wellbore Nat ℝ where
  locations := [{ c0 := 4, c1 := 4, c2 := 0 }, { c0 := 4, c1 := 4, c2 := ((1 : Nat) : ℝ) * 8 }]
  radius := 0.1
  control := { type := .flow_control_total, value := 0, skin := 0 }
  cells := []
  segment_length := []
  segment_direction := []
  productivities := []

/-- A freshly constructed well with one segment along the third axis from
`(20, 20, 0)` to `(20, 20, 5)`, beside the one-cell mesh of the scenario (the
box from `(0, 0, 0)` to `(10, 10, 5)`). -/
noncomputable def far_well : Wellbore Nat ℝ where
  locations := [{ c0 := 20, c1 := 20, c2 := 0 }, { c0 := 20, c1 := 20, c2 := 5 }]
  radius := 0.1
  control := { type := .flow_control_total, value := 0, skin := 0 }
  cells := []
  segment_length := []
  segment_direction := []
  productivities := []

/-- A mesh of one cube of size 8 that does not contain the origin: the cell 0
is the box from `(8, 0, 0)` to `(16, 8, 8)`, with centre `(12, 4, 4)`; its six
faces are at the boundary. -/
noncomputable def offset_cube_dof_handler : DoFHandler Nat ℝ where
  center := fun _ => { c0 := 12, c1 := 4, c2 := 4 }
  face_q_points := fun _ =>
    [{ c0 := 8, c1 := 4, c2 := 4 }, { c0 := 16, c1 := 4, c2 := 4 },
     { c0 := 12, c1 := 0, c2 := 4 }, { c0 := 12, c1 := 8, c2 := 4 },
     { c0 := 12, c1 := 4, c2 := 0 }, { c0 := 12, c1 := 4, c2 := 8 }]
  active_cells := [0]
  point_inside := fun _ p =>
    box_contains (⟨8, 0, 0⟩ : Tensor1 ℝ) (⟨16, 8, 8⟩ : Tensor1 ℝ) p
  diameter := fun _ => 8 * Real.sqrt 3
  active_cell_index := fun c => c
  at_boundary := fun _ _ => true
  neighbor := fun c _ => c
  neighbor_level_equal := fun _ _ => false
  neighbor_has_children := fun _ _ => false
  neighbor_is_coarser := fun _ _ => false
  face_normal := fun _ f => box_face_normal f
  face_n_children := fun _ _ => 0
  neighbor_child_on_subface := fun c _ _ => c
  subface_normal := fun _ f _ => box_face_normal f

/-- A freshly constructed well with one segment of length 1 in the plane
`z = 4`, from `(16.000001, 7.000007, 4)`, just outside the face `x = 16` of the
cube of `offset_cube_dof_handler`, to `(15.400001, 7.800007, 4)` inside the
cube; its unit tangent is `(-3/5, 4/5, 0)`. -/
noncomputable def edge_well : Wellbore Nat ℝ where
  locations := [{ c0 := 16000001 / 1000000, c1 := 7000007 / 1000000, c2 := 4 },
    { c0 := 15400001 / 1000000, c1 := 7800007 / 1000000, c2 := 4 }]
  radius := 0.1
  control := { type := .flow_control_total, value := 0, skin := 0 }
  cells := []
  segment_length := []
  segment_direction := []
  productivities := []

/-- A freshly constructed well whose trajectory is the single point
`(8, 4, 4)`, the centre of the face shared by the two cells of
`two_box_dof_handler`. -/
noncomputable def face_point_well : Wellbore Nat ℝ where
  locations := [{ c0 := 8, c1 := 4, c2 := 4 }]
  radius := 0.1
  control := { type := .flow_control_total, value := 0, skin := 0 }
  cells := []
  segment_length := []
  segment_direction := []
  productivities := []

/-- The well of the scenario of section 8 under total-rate control with the
value 8. -/
noncomputable def scenario_rate_well : Wellbore Nat ℝ :=
  { scenario_well with control := { type := .flow_control_total, value := 8, skin := 0 } }

/-- A mesh of one cell, number 0: the box from `(0, 0, 1995)` to
`(10, 10, 2005)`, of diameter 15, with its six faces at the boundary. -/
noncomputable def deep_cell_dof_handler : DoFHandler Nat ℝ where
  center := fun _ => { c0 := 5, c1 := 5, c2 := 2000 }
  face_q_points := fun _ =>
    [{ c0 := 0, c1 := 5, c2 := 2000 }, { c0 := 10, c1 := 5, c2 := 2000 },
     { c0 := 5, c1 := 0, c2 := 2000 }, { c0 := 5, c1 := 10, c2 := 2000 },
     { c0 := 5, c1 := 5, c2 := 1995 }, { c0 := 5, c1 := 5, c2 := 2005 }]
  active_cells := [0]
  point_inside := fun _ p =>
    box_contains (⟨0, 0, 1995⟩ : Tensor1 ℝ) ⟨10, 10, 2005⟩ p
  diameter := fun _ => 15
  active_cell_index := fun c => c
  at_boundary := fun _ _ => true
  neighbor := fun c _ => c
  neighbor_level_equal := fun _ _ => false
  neighbor_has_children := fun _ _ => false
  neighbor_is_coarser := fun _ _ => false
  face_normal := fun _ _ => { c0 := 0, c1 := 0, c2 := 0 }
  face_n_children := fun _ _ => 0
  neighbor_child_on_subface := fun c _ _ => c
  subface_normal := fun _ _ _ => { c0 := 0, c1 := 0, c2 := 0 }

/-- A well with a short segment far from the origin: from `(5, 5, 2000)` to
`(5, 5, 2000 + 1e-7)`, as the constructor leaves it. -/
noncomputable def deep_well : Wellbore Nat ℝ where
  locations := [{ c0 := 5, c1 := 5, c2 := 2000 }, { c0 := 5, c1 := 5, c2 := 2000 + 1 / 10 ^ 7 }]
  radius := 0.1
  control := { type := .flow_control_total, value := 0, skin := 0 }
  cells := []
  segment_length := []
  segment_direction := []
  productivities := []

/-- Spec side: the coordinates of the points `p` and `q` differ by amounts of
moderate size: each difference is zero or has a magnitude between `2^(-500)` and
`2^500`, so that neither the differences nor their squares leave the range of
the doubles. -/
def moderate_differences (p q : Tensor1 ℝ) : Prop :=
  (q.c0 - p.c0 = 0 ∨ (1 / 2 ^ 500 ≤ |q.c0 - p.c0| ∧ |q.c0 - p.c0| ≤ 2 ^ 500)) ∧
  (q.c1 - p.c1 = 0 ∨ (1 / 2 ^ 500 ≤ |q.c1 - p.c1| ∧ |q.c1 - p.c1| ≤ 2 ^ 500)) ∧
  (q.c2 - p.c2 = 0 ∨ (1 / 2 ^ 500 ≤ |q.c2 - p.c2| ∧ |q.c2 - p.c2| ≤ 2 ^ 500))

/-! # Theorems -/

section GenericTheorems

variable {C F : Type} [DecidableEq C] [LinearOrderedField F]

/-! ## Reading vectors, find_cell -/

theorem vec_read_of_getElem? {α : Type} {v : List α} {i : Nat} {a : α}
    (h : v[i]? = some a) : vec_read v i = .ok a := by
  simp [vec_read, h]

theorem vec_read_eq_ok {α : Type} {v : List α} {i : Nat} {a : α}
    (h : vec_read v i = .ok a) : v[i]? = some a := by
  unfold vec_read at h
  cases hv : v[i]? with
  | none => rw [hv] at h; cases h
  | some b => rw [hv] at h; cases h; rfl

theorem find_cell_from_not_mem (cell : C) (cells : List C) (k : Nat)
    (h : cell ∉ cells) : find_cell_from cell cells k = -1 := by
  induction cells generalizing k with
  | nil => rfl
  | cons c cs ih =>
    have hne : cell ≠ c := fun e => h (e ▸ List.mem_cons_self _ _)
    have hcs : cell ∉ cs := fun m => h (List.mem_cons_of_mem _ m)
    simp [find_cell_from, hne, ih (k + 1) hcs]

theorem find_cell_from_nodup (cell : C) (cells : List C) (k i : Nat)
    (hnodup : cells.Nodup) (hcell : cells[i]? = some cell) :
    find_cell_from cell cells k = ((k + i : Nat) : Int) := by
  induction cells generalizing k i with
  | nil => simp at hcell
  | cons c cs ih =>
    rw [List.nodup_cons] at hnodup
    cases i with
    | zero =>
      simp at hcell
      simp [find_cell_from, hcell]
    | succ j =>
      simp at hcell
      have hmem : cell ∈ cs := List.mem_iff_getElem?.2 ⟨j, hcell⟩
      have hne : cell ≠ c := fun e => hnodup.1 (e ▸ hmem)
      simp only [find_cell_from, hne, if_false]
      rw [ih (k + 1) j hnodup.2 hcell]
      congr 1
      omega

theorem find_cell_bound (st : Wellbore C F) (cell : C) (i : Nat)
    (hnodup : st.cells.Nodup) (hcell : st.cells[i]? = some cell) :
    find_cell st cell = (i : Int) := by
  unfold find_cell
  rw [find_cell_from_nodup cell st.cells 0 i hnodup hcell]
  simp

theorem cells_length_pos_of_bound (st : Wellbore C F) (cell : C) (i : Nat)
    (hcell : st.cells[i]? = some cell) : st.cells.length > 0 := by
  have := (List.getElem?_eq_some.1 hcell).1
  omega

theorem foldl_add_eq_sum (l : List F) (a : F) :
    l.foldl (fun acc p => acc + p) a = a + l.sum := by
  induction l generalizing a with
  | nil => simp
  | cons x xs ih => simp [List.foldl_cons, ih, add_assoc]

theorem sum_productivities_eq_sum (st : Wellbore C F) :
    sum_productivities st = st.productivities.sum := by
  simp [sum_productivities, foldl_add_eq_sum]

/-- What `get_J_and_Q` returns for a bound cell under total-rate control, in
terms of the sum the code computes. -/
theorem get_J_and_Q_flow_control_total (st : Wellbore C F) (cell : C) (i : Nat) (prod_i : F)
    (htype : st.control.type = .flow_control_total)
    (hnodup : st.cells.Nodup) (hcell : st.cells[i]? = some cell)
    (hprod : st.productivities[i]? = some prod_i) :
    get_J_and_Q st cell =
      if st.productivities.sum > 0
      then .ok (0, st.control.value * prod_i / st.productivities.sum)
      else .ok (0, 0) := by
  have hpos := cells_length_pos_of_bound st cell i hcell
  have hfind := find_cell_bound st cell i hnodup hcell
  have hne : ¬ ((i : Int) = -1) := by omega
  unfold get_J_and_Q
  simp only [hpos, not_true_eq_false, if_false, hfind, hne, htype, Int.toNat_ofNat,
    vec_read_of_getElem? hprod, sum_productivities_eq_sum]
  split <;> rfl

/-! ## Control allocation (C1 to C5) -/

/-- C1: under bottomhole-pressure control with value `p`, for a well state in
which the productivity of the bound cell number `i` has been computed,
`get_J_and_Q` returns exactly the pair `(productivity_i, p * productivity_i)`;
hence `Q = p * J` for the pair returned. -/
theorem get_J_and_Q_pressure_control (st : Wellbore C F) (cell : C) (i : Nat) (p prod_i : F)
    (htype : st.control.type = .pressure_control) (hval : st.control.value = p)
    (hnodup : st.cells.Nodup) (hcell : st.cells[i]? = some cell)
    (hprod : st.productivities[i]? = some prod_i) :
    get_J_and_Q st cell = .ok (prod_i, p * prod_i) ∧
      ∀ J Q, get_J_and_Q st cell = .ok (J, Q) → Q = p * J := by
  have hpos := cells_length_pos_of_bound st cell i hcell
  have hfind := find_cell_bound st cell i hnodup hcell
  have hne : ¬ ((i : Int) = -1) := by omega
  have hres : get_J_and_Q st cell = .ok (prod_i, p * prod_i) := by
    unfold get_J_and_Q
    simp only [hpos, not_true_eq_false, if_false, hfind, hne, htype, Int.toNat_ofNat,
      vec_read_of_getElem? hprod, hval]
    rfl
  refine ⟨hres, ?_⟩
  intro J Q h
  rw [hres] at h
  cases h
  rfl

theorem get_J_and_Q_pressure_control_witness :
    get_J_and_Q (two_cell_well { type := .pressure_control, value := 2, skin := 0 }) 7
      = .ok (1, 2 * 1) :=
  (get_J_and_Q_pressure_control
    (two_cell_well { type := .pressure_control, value := 2, skin := 0 }) 7 1 2 1
    rfl rfl (by decide) rfl rfl).1

theorem spec_total_productivity_eq_sum (st : Wellbore C F)
    (hlen : st.productivities.length = st.cells.length) :
    spec_total_productivity st = st.productivities.sum := by
  unfold spec_total_productivity
  congr 1
  rw [← hlen]
  apply List.ext_getElem
  · simp
  · intro n h₁ h₂
    simp [List.getD_eq_getElem?_getD, List.getElem?_eq_getElem h₂]

/-- Total-rate control when the vector of productivities has exactly one
entry per bound cell, as after a single call of `update_productivity` on a new
well: with `S > 0` the sum over the bound cells, `get_J_and_Q` returns `J = 0`
and `Q = q * productivity_i / S` for the bound cell number `i`. Without the
hypothesis on the lengths the divisor is the sum of the whole vector. -/
theorem get_J_and_Q_total_rate (st : Wellbore C F) (cell : C) (i : Nat) (q prod_i : F)
    (htype : st.control.type = .flow_control_total) (hval : st.control.value = q)
    (hnodup : st.cells.Nodup)
    (hlen : st.productivities.length = st.cells.length)
    (hcell : st.cells[i]? = some cell)
    (hprod : st.productivities[i]? = some prod_i)
    (hS : spec_total_productivity st > 0) :
    get_J_and_Q st cell = .ok (0, q * prod_i / spec_total_productivity st) := by
  rw [spec_total_productivity_eq_sum st hlen] at hS ⊢
  rw [get_J_and_Q_flow_control_total st cell i prod_i htype hnodup hcell hprod, if_pos hS, hval]

theorem get_J_and_Q_total_rate_witness :
    get_J_and_Q (two_cell_well { type := .flow_control_total, value := 8, skin := 0 }) 4
      = .ok (0, 8 * 3 / spec_total_productivity
          (two_cell_well { type := .flow_control_total, value := 8, skin := 0 })) :=
  get_J_and_Q_total_rate
    (two_cell_well { type := .flow_control_total, value := 8, skin := 0 }) 4 0 8 3
    rfl rfl (by decide) rfl rfl rfl (by norm_num [spec_total_productivity, two_cell_well, List.range, List.range.loop])

/-- Total-rate control when the vector of productivities has exactly one
non-negative entry per bound cell, as after a single call of
`update_productivity` on a new well, and a nonzero total `S`: the values `Q`
that `get_J_and_Q` returns for the bound cells add up to `q`, and a well bound
to a single cell puts the whole rate `q` into that cell. Without the hypothesis
on the lengths this fails. -/
theorem total_rate_allocation_sums_to_rate (st : Wellbore C F) (q : F)
    (htype : st.control.type = .flow_control_total) (hval : st.control.value = q)
    (hnodup : st.cells.Nodup)
    (hlen : st.productivities.length = st.cells.length)
    (hnonneg : ∀ p ∈ st.productivities, 0 ≤ p)
    (hS : spec_total_productivity st ≠ 0) :
    (∃ Qs : List F,
        st.cells.map (get_J_and_Q st) = Qs.map (fun Q => Except.ok (0, Q)) ∧ Qs.sum = q) ∧
      (∀ c, st.cells = [c] → get_J_and_Q st c = .ok (0, q)) := by
  rw [spec_total_productivity_eq_sum st hlen] at hS
  have hSpos : st.productivities.sum > 0 :=
    lt_of_le_of_ne (List.sum_nonneg hnonneg) (Ne.symm hS)
  have hall : st.cells.map (get_J_and_Q st) =
      (st.productivities.map (fun p => q * p / st.productivities.sum)).map
        (fun Q => Except.ok (0, Q)) := by
    apply List.ext_getElem
    · simp [hlen]
    · intro n h₁ h₂
      have hn : n < st.cells.length := by simpa using h₁
      have hp : n < st.productivities.length := by omega
      simp only [List.getElem_map]
      rw [get_J_and_Q_flow_control_total st st.cells[n] n st.productivities[n] htype hnodup
        (List.getElem?_eq_getElem hn) (List.getElem?_eq_getElem hp), if_pos hSpos, hval]
  have hsum : (st.productivities.map (fun p => q * p / st.productivities.sum)).sum = q := by
    have hfun : (fun p => q * p / st.productivities.sum)
        = fun p => (q / st.productivities.sum) * id p := by
      funext p
      simp only [id]
      ring
    rw [hfun, List.sum_map_mul_left, List.map_id]
    field_simp
  refine ⟨⟨_, hall, hsum⟩, ?_⟩
  intro c hc
  rw [hc] at hall
  cases hps : st.productivities with
  | nil => rw [hps, hc] at hlen; simp at hlen
  | cons p ps =>
    cases ps with
    | cons p' ps' => rw [hps, hc] at hlen; simp at hlen
    | nil =>
      rw [hps] at hall hsum
      simp only [List.map_cons, List.map_nil, List.cons.injEq, and_true] at hall
      simp only [List.map_cons, List.map_nil, List.sum_cons, List.sum_nil, add_zero] at hsum
      rw [hall]
      simp only [List.sum_cons, List.sum_nil, add_zero]
      rw [hsum]

theorem total_rate_allocation_sums_to_rate_witness :
    ∃ Qs : List ℚ,
      (two_cell_well { type := .flow_control_total, value := 8, skin := 0 }).cells.map
        (get_J_and_Q (two_cell_well { type := .flow_control_total, value := 8, skin := 0 }))
        = Qs.map (fun Q => Except.ok (0, Q)) ∧ Qs.sum = 8 :=
  (total_rate_allocation_sums_to_rate
    (two_cell_well { type := .flow_control_total, value := 8, skin := 0 }) 8
    rfl rfl (by decide) rfl
    (by intro p hp; simp [two_cell_well] at hp; rcases hp with h | h <;> rw [h] <;> norm_num)
    (by norm_num [spec_total_productivity, two_cell_well, List.range, List.range.loop])).1

/-- C4: under total-rate control, with one productivity index per bound cell,
when their sum `S` over the bound cells is 0, `get_J_and_Q` returns `(0, 0)` for
every bound cell, whatever the control value. -/
theorem get_J_and_Q_total_rate_zero_sum (st : Wellbore C F) (cell : C) (i : Nat)
    (htype : st.control.type = .flow_control_total)
    (hnodup : st.cells.Nodup)
    (hlen : st.productivities.length = st.cells.length)
    (hcell : st.cells[i]? = some cell)
    (hS : spec_total_productivity st = 0) :
    get_J_and_Q st cell = .ok (0, 0) := by
  rw [spec_total_productivity_eq_sum st hlen] at hS
  have hi : i < st.productivities.length := by
    have := (List.getElem?_eq_some.1 hcell).1
    omega
  rw [get_J_and_Q_flow_control_total st cell i st.productivities[i] htype hnodup hcell
    (List.getElem?_eq_getElem hi), hS]
  simp

theorem get_J_and_Q_total_rate_zero_sum_witness :
    get_J_and_Q zero_productivity_well 4 = .ok (0, 0) :=
  get_J_and_Q_total_rate_zero_sum zero_productivity_well 4 0 rfl (by decide) rfl rfl
    (by norm_num [spec_total_productivity, zero_productivity_well, List.range, List.range.loop])

/-- C5 as stated fails: for a well with zero bound cells, `get_J_and_Q` raises
"Need to locate wells first" for a cell that is not bound, instead of returning
`(0, 0)`. -/
theorem get_J_and_Q_unbound_no_cells_fails :
    (3 : Nat) ∉ well_outside_mesh.cells ∧
      get_J_and_Q well_outside_mesh 3 = .error .need_to_locate ∧
      get_J_and_Q well_outside_mesh 3 ≠ .ok (0, 0) := by
  refine ⟨by decide, rfl, ?_⟩
  intro h
  have h2 : get_J_and_Q well_outside_mesh 3 = .error .need_to_locate := rfl
  rw [h2] at h
  cases h

/-- C5 amended: for every well state with at least one bound cell, whatever
its control kind, and every cell that is not bound to the well, `get_J_and_Q`
returns `(0, 0)` and does not fail. -/
theorem get_J_and_Q_unbound (st : Wellbore C F) (cell : C)
    (hpos : st.cells.length > 0) (hunbound : cell ∉ st.cells) :
    get_J_and_Q st cell = .ok (0, 0) := by
  unfold get_J_and_Q
  simp [hpos, find_cell, find_cell_from_not_mem cell st.cells 0 hunbound]

theorem get_J_and_Q_unbound_witness :
    get_J_and_Q (two_cell_well { type := .other_control 0, value := 8, skin := 0 }) 5
      = .ok (0, 0) :=
  get_J_and_Q_unbound (two_cell_well { type := .other_control 0, value := 8, skin := 0 }) 5
    (by decide) (by decide)

end GenericTheorems

/-! ## The Peaceman formula (C6, C9, C10) -/

section RealTheorems

open Real

theorem pieceman_radius_real (k1 k2 dx1 dx2 : ℝ) :
    pieceman_radius realMath k1 k2 dx1 dx2 = spec_r_eq k1 k2 dx1 dx2 := by
  have h1 : √(k2 / k1) * dx1 * dx1 + √(k1 / k2) * dx2 * dx2
      = √(k2 / k1) * dx1 ^ 2 + √(k1 / k2) * dx2 ^ 2 := by ring
  have h2 : (25 / 100 : ℝ) = 1 / 4 := by norm_num
  have h3 : (28 / 100 : ℝ) = 0.28 := by norm_num
  simp only [pieceman_radius, spec_r_eq, realMath, h1, h2, h3]

theorem compute_productivity_real (radius skin k1 k2 dx1 dx2 L : ℝ) :
    compute_productivity realMath radius skin k1 k2 dx1 dx2 L =
      if 0 ≤ spec_J radius skin k1 k2 dx1 dx2 L
      then .ok (spec_J radius skin k1 k2 dx1 dx2 L)
      else .error .negative_productivity := by
  simp only [compute_productivity, pieceman_radius_real, spec_J, ge_iff_le]
  rfl

theorem spec_r_eq_isotropic (k dx1 dx2 : ℝ) (hk : 0 < k) :
    spec_r_eq k k dx1 dx2 = 0.14 * √(dx1 ^ 2 + dx2 ^ 2) := by
  have hkk : k / k = 1 := div_self hk.ne'
  simp only [spec_r_eq, hkk, Real.sqrt_one, Real.one_rpow, one_mul]
  ring

theorem spec_r_eq_isotropic_square (k dx : ℝ) (hk : 0 < k) (hdx : 0 ≤ dx) :
    spec_r_eq k k dx dx = 0.14 * √2 * dx := by
  rw [spec_r_eq_isotropic k dx dx hk]
  have h : dx ^ 2 + dx ^ 2 = 2 * dx ^ 2 := by ring
  rw [h, Real.sqrt_mul (by norm_num : (0 : ℝ) ≤ 2), Real.sqrt_sq hdx]
  ring

/-- The log term of the scenario of section 8 (radius 0.1, skin 0, extents
10 by 10, permeabilities 100) is positive. -/
theorem scenario_log_term_pos :
    0 < Real.log (spec_r_eq 100 100 10 10 / 0.1) + 0 := by
  rw [spec_r_eq_isotropic_square 100 10 (by norm_num) (by norm_num), add_zero]
  apply Real.log_pos
  have h2 : (1 : ℝ) ≤ √2 := Real.one_le_sqrt.2 (by norm_num)
  have h3 : (0.14 : ℝ) * √2 * 10 / 0.1 = 14 * √2 := by ring
  rw [h3]
  linarith

theorem scenario_spec_J_pos : 0 < spec_J 0.1 0 100 100 10 10 5 := by
  unfold spec_J
  apply div_pos _ scenario_log_term_pos
  have h : (0 : ℝ) < √(100 * 100) := Real.sqrt_pos.2 (by norm_num)
  have hpi := Real.pi_pos
  positivity

theorem scenario_isotropic_log_term_pos :
    0 < Real.log (0.14 * √2 * 10 / 0.1) + 0 := by
  have h := scenario_log_term_pos
  rwa [spec_r_eq_isotropic_square 100 10 (by norm_num) (by norm_num)] at h

end RealTheorems

section SymmetryTheorems

variable {F : Type} [LinearOrderedField F]

theorem pieceman_radius_swap (M : MathFns F) (k1 k2 dx1 dx2 : F) :
    pieceman_radius M k1 k2 dx1 dx2 = pieceman_radius M k2 k1 dx2 dx1 := by
  unfold pieceman_radius
  rw [add_comm (M.sqrt (k2 / k1) * dx1 * dx1), add_comm (M.pow (k2 / k1) (25 / 100))]

/-- C9: swapping the two orthogonal axes, permeabilities and extents together,
leaves the result of `compute_productivity` unchanged: the same value, or the
same failure. It holds for every reading of the mathematics library and needs
no assumption on the arguments. -/
theorem compute_productivity_swap (M : MathFns F) (radius skin k1 k2 dx1 dx2 L : F) :
    compute_productivity M radius skin k1 k2 dx1 dx2 L
      = compute_productivity M radius skin k2 k1 dx2 dx1 L := by
  unfold compute_productivity
  rw [pieceman_radius_swap M k1 k2 dx1 dx2, mul_comm k1 k2]

end SymmetryTheorems

/-! ## update_productivity (C7, C8) -/

section UpdateTheorems

variable {C F : Type} [DecidableEq C] [LinearOrderedField F]

theorem cell_productivity_eq_ok (M : MathFns F) (mesh : Mesh C F)
    (get_permeability : Tensor1 F → Tensor1 F) (st : Wellbore C F)
    (cell : C) (h : Tensor1 F) (l : F) (d : Tensor1 F) (p : F) :
    cell_productivity M mesh get_permeability st cell h l d = .ok p ↔
      ∃ p0 p1 p2,
        compute_productivity M st.radius st.control.skin
          (get_permeability (mesh.center cell)).c1 (get_permeability (mesh.center cell)).c2
          h.c1 h.c2 (l * |d.c0|) = .ok p0 ∧
        compute_productivity M st.radius st.control.skin
          (get_permeability (mesh.center cell)).c0 (get_permeability (mesh.center cell)).c2
          h.c0 h.c2 (l * |d.c1|) = .ok p1 ∧
        compute_productivity M st.radius st.control.skin
          (get_permeability (mesh.center cell)).c0 (get_permeability (mesh.center cell)).c1
          h.c0 h.c1 (l * |d.c2|) = .ok p2 ∧
        p = M.sqrt (p0 * p0 + p1 * p1 + p2 * p2) := by
  unfold cell_productivity
  simp only [bind, Except.bind, pure, Except.pure, Tensor1.norm]
  constructor
  · intro hok
    split at hok
    · cases hok
    · rename_i p0 h0
      split at hok
      · cases hok
      · rename_i p1 h1
        split at hok
        · cases hok
        · rename_i p2 h2
          cases hok
          exact ⟨p0, p1, p2, h0, h1, h2, rfl⟩
  · rintro ⟨p0, p1, p2, h0, h1, h2, hp⟩
    rw [h0, h1, h2, hp]

theorem get_cell_sizes_self (mesh : Mesh C F) (st : Wellbore C F) :
    get_cell_sizes mesh st st.cells = .ok (st.cells.map (get_cell_size mesh)) := by
  simp [get_cell_sizes]

theorem update_productivity_loop_ok (M : MathFns F) (mesh : Mesh C F)
    (get_permeability : Tensor1 F → Tensor1 F) (st : Wellbore C F) (h : List (Tensor1 F))
    (n i : Nat) (prods out : List F)
    (hok : update_productivity_loop M mesh get_permeability st h n i prods = .ok out) :
    ∃ Js : List F, out = prods ++ Js ∧ Js.length = n ∧
      ∀ j, j < n → ∃ cell hi l d p,
        st.cells[i + j]? = some cell ∧ h[i + j]? = some hi ∧
        st.segment_length[i + j]? = some l ∧ st.segment_direction[i + j]? = some d ∧
        cell_productivity M mesh get_permeability st cell hi l d = .ok p ∧
        Js[j]? = some p := by
  induction n generalizing i prods with
  | zero =>
    simp only [update_productivity_loop] at hok
    cases hok
    exact ⟨[], by simp, rfl, fun j hj => absurd hj (Nat.not_lt_zero j)⟩
  | succ n ih =>
    unfold update_productivity_loop at hok
    simp only [bind, Except.bind] at hok
    split at hok
    · cases hok
    · rename_i cell hcell
      split at hok
      · cases hok
      · rename_i hi hhi
        split at hok
        · cases hok
        · rename_i l hl
          split at hok
          · cases hok
          · rename_i d hd
            split at hok
            · cases hok
            · rename_i p hp
              obtain ⟨Js, hout, hlen, hall⟩ := ih (i + 1) (prods ++ [p]) hok
              refine ⟨p :: Js, by simp [hout], by simp [hlen], ?_⟩
              intro j hj
              cases j with
              | zero =>
                exact ⟨cell, hi, l, d, p, vec_read_eq_ok hcell, vec_read_eq_ok hhi,
                  vec_read_eq_ok hl, vec_read_eq_ok hd, hp, by simp⟩
              | succ k =>
                obtain ⟨c', hi', l', d', p', h1, h2, h3, h4, h5, h6⟩ := hall k (by omega)
                have e : i + (k + 1) = i + 1 + k := by omega
                rw [e]
                exact ⟨c', hi', l', d', p', h1, h2, h3, h4, h5, by simpa using h6⟩

theorem update_productivity_loop_returns (M : MathFns F) (mesh : Mesh C F)
    (get_permeability : Tensor1 F → Tensor1 F) (st : Wellbore C F) (h : List (Tensor1 F))
    (n i : Nat) (prods : List F)
    (hall : ∀ j, j < n → ∃ cell hi l d p,
        st.cells[i + j]? = some cell ∧ h[i + j]? = some hi ∧
        st.segment_length[i + j]? = some l ∧ st.segment_direction[i + j]? = some d ∧
        cell_productivity M mesh get_permeability st cell hi l d = .ok p) :
    ∃ out, update_productivity_loop M mesh get_permeability st h n i prods = .ok out := by
  induction n generalizing i prods with
  | zero => exact ⟨prods, rfl⟩
  | succ n ih =>
    obtain ⟨cell, hi, l, d, p, h1, h2, h3, h4, h5⟩ := hall 0 (by omega)
    simp only [Nat.add_zero] at h1 h2 h3 h4
    have hrest : ∀ j, j < n → ∃ cell hi l d p,
        st.cells[i + 1 + j]? = some cell ∧ h[i + 1 + j]? = some hi ∧
        st.segment_length[i + 1 + j]? = some l ∧ st.segment_direction[i + 1 + j]? = some d ∧
        cell_productivity M mesh get_permeability st cell hi l d = .ok p := by
      intro j hj
      have e : i + 1 + j = i + (j + 1) := by omega
      rw [e]
      exact hall (j + 1) (by omega)
    obtain ⟨out, hout⟩ := ih (i + 1) (prods ++ [p]) hrest
    refine ⟨out, ?_⟩
    unfold update_productivity_loop
    simp only [bind, Except.bind, vec_read_of_getElem? h1, vec_read_of_getElem? h2,
      vec_read_of_getElem? h3, vec_read_of_getElem? h4, h5]
    exact hout

/-- What a successful `update_productivity` has done for the bound cell
number `i`. -/
theorem update_productivity_ok_cell (M : MathFns F) (mesh : Mesh C F)
    (get_permeability : Tensor1 F → Tensor1 F) (st st' : Wellbore C F)
    (hok : update_productivity M mesh get_permeability st = .ok st')
    (i : Nat) (cell : C) (l : F) (d : Tensor1 F)
    (hcell : st.cells[i]? = some cell) (hl : st.segment_length[i]? = some l)
    (hd : st.segment_direction[i]? = some d) :
    st'.productivities.length = st.productivities.length + st.cells.length ∧
    ∃ Jx Jy Jz,
      compute_productivity M st.radius st.control.skin
        (get_permeability (mesh.center cell)).c1 (get_permeability (mesh.center cell)).c2
        (get_cell_size mesh cell).c1 (get_cell_size mesh cell).c2 (l * |d.c0|) = .ok Jx ∧
      compute_productivity M st.radius st.control.skin
        (get_permeability (mesh.center cell)).c0 (get_permeability (mesh.center cell)).c2
        (get_cell_size mesh cell).c0 (get_cell_size mesh cell).c2 (l * |d.c1|) = .ok Jy ∧
      compute_productivity M st.radius st.control.skin
        (get_permeability (mesh.center cell)).c0 (get_permeability (mesh.center cell)).c1
        (get_cell_size mesh cell).c0 (get_cell_size mesh cell).c1 (l * |d.c2|) = .ok Jz ∧
      st'.productivities[st.productivities.length + i]?
        = some (M.sqrt (Jx * Jx + Jy * Jy + Jz * Jz)) := by
  unfold update_productivity at hok
  rw [get_cell_sizes_self] at hok
  simp only [bind, Except.bind, pure, Except.pure] at hok
  split at hok
  · cases hok
  · rename_i out hloop
    cases hok
    obtain ⟨Js, hout, hlen, hall⟩ :=
      update_productivity_loop_ok M mesh get_permeability st _ _ 0 _ out hloop
    have hi : i < st.cells.length := (List.getElem?_eq_some.1 hcell).1
    obtain ⟨c', h', l', d', p, h1, h2, h3, h4, h5, h6⟩ := hall i hi
    simp only [Nat.zero_add] at h1 h2 h3 h4
    rw [hcell] at h1
    rw [hl] at h3
    rw [hd] at h4
    cases h1
    cases h3
    cases h4
    rw [List.getElem?_map, hcell] at h2
    cases h2
    obtain ⟨Jx, Jy, Jz, hx, hy, hz, hp⟩ :=
      (cell_productivity_eq_ok M mesh get_permeability st cell _ l d p).1 h5
    refine ⟨by simp [hout, hlen], Jx, Jy, Jz, hx, hy, hz, ?_⟩
    simp only [hout]
    rw [List.getElem?_append_right (by omega)]
    simpa [hp] using h6

/-- C8: when `update_productivity` returns, it has appended one value per
bound cell to `productivities`, and the value for the bound cell number `i`
with size `h`, permeability `k` at the cell centre, accumulated length `l` and
direction `d` is `sqrt(Jx^2 + Jy^2 + Jz^2)`, where
`Jx = compute_productivity(k[1], k[2], h[1], h[2], l*|d[0]|)`,
`Jy = compute_productivity(k[0], k[2], h[0], h[2], l*|d[1]|)` and
`Jz = compute_productivity(k[0], k[1], h[0], h[1], l*|d[2]|)`: each axis uses
the two permeabilities and extents orthogonal to it. It returns whenever the
length and direction of every bound cell are present and these three calls
succeed for every bound cell. -/
theorem update_productivity_stores (M : MathFns F) (mesh : Mesh C F)
    (get_permeability : Tensor1 F → Tensor1 F) (st : Wellbore C F) :
    (∀ st', update_productivity M mesh get_permeability st = .ok st' →
      st'.productivities.length = st.productivities.length + st.cells.length ∧
      ∀ i, i < st.cells.length → ∃ cell l d Jx Jy Jz,
        st.cells[i]? = some cell ∧ st.segment_length[i]? = some l ∧
        st.segment_direction[i]? = some d ∧
        compute_productivity M st.radius st.control.skin
          (get_permeability (mesh.center cell)).c1 (get_permeability (mesh.center cell)).c2
          (get_cell_size mesh cell).c1 (get_cell_size mesh cell).c2 (l * |d.c0|) = .ok Jx ∧
        compute_productivity M st.radius st.control.skin
          (get_permeability (mesh.center cell)).c0 (get_permeability (mesh.center cell)).c2
          (get_cell_size mesh cell).c0 (get_cell_size mesh cell).c2 (l * |d.c1|) = .ok Jy ∧
        compute_productivity M st.radius st.control.skin
          (get_permeability (mesh.center cell)).c0 (get_permeability (mesh.center cell)).c1
          (get_cell_size mesh cell).c0 (get_cell_size mesh cell).c1 (l * |d.c2|) = .ok Jz ∧
        st'.productivities[st.productivities.length + i]?
          = some (M.sqrt (Jx * Jx + Jy * Jy + Jz * Jz))) ∧
    ((∀ i, i < st.cells.length → ∃ cell l d Jx Jy Jz,
        st.cells[i]? = some cell ∧ st.segment_length[i]? = some l ∧
        st.segment_direction[i]? = some d ∧
        compute_productivity M st.radius st.control.skin
          (get_permeability (mesh.center cell)).c1 (get_permeability (mesh.center cell)).c2
          (get_cell_size mesh cell).c1 (get_cell_size mesh cell).c2 (l * |d.c0|) = .ok Jx ∧
        compute_productivity M st.radius st.control.skin
          (get_permeability (mesh.center cell)).c0 (get_permeability (mesh.center cell)).c2
          (get_cell_size mesh cell).c0 (get_cell_size mesh cell).c2 (l * |d.c1|) = .ok Jy ∧
        compute_productivity M st.radius st.control.skin
          (get_permeability (mesh.center cell)).c0 (get_permeability (mesh.center cell)).c1
          (get_cell_size mesh cell).c0 (get_cell_size mesh cell).c1 (l * |d.c2|) = .ok Jz) →
      ∃ st', update_productivity M mesh get_permeability st = .ok st') := by
  constructor
  · intro st' hok
    constructor
    · cases hc : st.cells with
      | nil =>
        unfold update_productivity at hok
        rw [get_cell_sizes_self] at hok
        simp only [hc, List.length_nil, update_productivity_loop, bind, Except.bind, pure,
          Except.pure] at hok
        cases hok
        simp
      | cons c cs =>
        have h0 : st.cells[0]? = some c := by simp [hc]
        have hlen : 0 < st.cells.length := (List.getElem?_eq_some.1 h0).1
        unfold update_productivity at hok
        rw [get_cell_sizes_self] at hok
        simp only [bind, Except.bind, pure, Except.pure] at hok
        split at hok
        · cases hok
        · rename_i out hloop
          cases hok
          obtain ⟨Js, hout, hJs, -⟩ :=
            update_productivity_loop_ok M mesh get_permeability st _ _ 0 _ out hloop
          simp [hout, hJs, hc]
    · intro i hi
      have hcell : st.cells[i]? = some st.cells[i] := List.getElem?_eq_getElem hi
      -- the loop has read the length and the direction of cell i
      have hreads : ∃ l d, st.segment_length[i]? = some l ∧
          st.segment_direction[i]? = some d := by
        unfold update_productivity at hok
        rw [get_cell_sizes_self] at hok
        simp only [bind, Except.bind, pure, Except.pure] at hok
        split at hok
        · cases hok
        · rename_i out hloop
          obtain ⟨Js, -, -, hall⟩ :=
            update_productivity_loop_ok M mesh get_permeability st _ _ 0 _ out hloop
          obtain ⟨c', h', l', d', p, h1, h2, h3, h4, h5, h6⟩ := hall i hi
          simp only [Nat.zero_add] at h3 h4
          exact ⟨l', d', h3, h4⟩
      obtain ⟨l, d, hl, hd⟩ := hreads
      obtain ⟨-, Jx, Jy, Jz, hx, hy, hz, hst⟩ :=
        update_productivity_ok_cell M mesh get_permeability st st' hok i _ l d hcell hl hd
      exact ⟨_, l, d, Jx, Jy, Jz, hcell, hl, hd, hx, hy, hz, hst⟩
  · intro hall
    have hloop : ∃ out, update_productivity_loop M mesh get_permeability st
        (st.cells.map (get_cell_size mesh)) st.cells.length 0 st.productivities = .ok out := by
      apply update_productivity_loop_returns
      intro j hj
      obtain ⟨cell, l, d, Jx, Jy, Jz, hcell, hl, hd, hx, hy, hz⟩ := hall j hj
      refine ⟨cell, get_cell_size mesh cell, l, d, M.sqrt (Jx * Jx + Jy * Jy + Jz * Jz), ?_⟩
      simp only [Nat.zero_add]
      refine ⟨hcell, by rw [List.getElem?_map, hcell]; rfl, hl, hd, ?_⟩
      exact (cell_productivity_eq_ok M mesh get_permeability st cell _ l d _).2
        ⟨Jx, Jy, Jz, hx, hy, hz, rfl⟩
    obtain ⟨out, hout⟩ := hloop
    refine ⟨{ st with productivities := out }, ?_⟩
    unfold update_productivity
    rw [get_cell_sizes_self]
    simp only [bind, Except.bind, pure, Except.pure, hout]

end UpdateTheorems

/-! ## Failure of compute_productivity (C7) -/

section FailureTheorems

open Real

end FailureTheorems

/-! ## The scenario of section 8 through update_productivity -/

section ScenarioTheorems

open Real

theorem scenario_cell_size :
    get_cell_size scenario_mesh 0 = { c0 := 10, c1 := 10, c2 := 5 } := by
  simp only [get_cell_size, scenario_mesh, coordinate_extent, min_max_update, List.map,
    List.foldl]
  norm_num

theorem scenario_axis_calls :
    compute_productivity realMath scenario_well.radius scenario_well.control.skin
        (scenario_permeability (scenario_mesh.center 0)).c1
        (scenario_permeability (scenario_mesh.center 0)).c2
        (get_cell_size scenario_mesh 0).c1 (get_cell_size scenario_mesh 0).c2
        (5 * |(0 : ℝ)|) = .ok 0 ∧
      compute_productivity realMath scenario_well.radius scenario_well.control.skin
        (scenario_permeability (scenario_mesh.center 0)).c0
        (scenario_permeability (scenario_mesh.center 0)).c2
        (get_cell_size scenario_mesh 0).c0 (get_cell_size scenario_mesh 0).c2
        (5 * |(0 : ℝ)|) = .ok 0 ∧
      compute_productivity realMath scenario_well.radius scenario_well.control.skin
        (scenario_permeability (scenario_mesh.center 0)).c0
        (scenario_permeability (scenario_mesh.center 0)).c1
        (get_cell_size scenario_mesh 0).c0 (get_cell_size scenario_mesh 0).c1
        (5 * |(1 : ℝ)|) = .ok (spec_J 0.1 0 100 100 10 10 5) := by
  refine ⟨by simp [compute_productivity], by simp [compute_productivity], ?_⟩
  rw [scenario_cell_size]
  simp only [scenario_well, scenario_permeability, abs_one, mul_one]
  rw [compute_productivity_real, if_pos (le_of_lt scenario_spec_J_pos)]

theorem update_productivity_stores_witness :
    ∃ st', update_productivity realMath scenario_mesh scenario_permeability scenario_well
        = .ok st' ∧
      st'.productivities[0]? = some (√(0 * 0 + 0 * 0 +
        spec_J 0.1 0 100 100 10 10 5 * spec_J 0.1 0 100 100 10 10 5)) := by
  have hthm := update_productivity_stores realMath scenario_mesh scenario_permeability
    scenario_well
  obtain ⟨st', hst'⟩ := hthm.2 (by
    intro i hi
    have hi0 : i = 0 := by
      simp only [scenario_well, List.length_singleton] at hi
      omega
    subst hi0
    exact ⟨0, 5, { c0 := 0, c1 := 0, c2 := 1 }, 0, 0, spec_J 0.1 0 100 100 10 10 5,
      rfl, rfl, rfl, scenario_axis_calls.1, scenario_axis_calls.2.1, scenario_axis_calls.2.2⟩)
  refine ⟨st', hst', ?_⟩
  obtain ⟨cell, l, d, Jx, Jy, Jz, hcell, hl, hd, hx, hy, hz, hstored⟩ :=
    (hthm.1 st' hst').2 0 (by simp [scenario_well])
  have hcell0 : cell = 0 := by
    simp only [scenario_well] at hcell
    simpa using hcell.symm
  have hl5 : l = 5 := by
    simp only [scenario_well] at hl
    simpa using hl.symm
  have hd1 : d = { c0 := 0, c1 := 0, c2 := 1 } := by
    simp only [scenario_well] at hd
    simpa using hd.symm
  subst hcell0 hl5 hd1
  rw [scenario_axis_calls.1] at hx
  rw [scenario_axis_calls.2.1] at hy
  rw [scenario_axis_calls.2.2] at hz
  cases hx
  cases hy
  cases hz
  simpa [scenario_well] using hstored

end ScenarioTheorems

/-! ## Positivity of the productivity in exact arithmetic -/

section PositivityTheorems

open Real

theorem scenario_code_log_term_pos : 0 < log_term realMath 0.1 0 100 100 10 10 := by
  unfold log_term
  rw [pieceman_radius_real]
  exact scenario_log_term_pos

/-- In exact real arithmetic: for `k1, k2 > 0`, `L >= 0` and a positive log
term `ln(r/radius) + skin`, `compute_productivity` does not fail and returns a
real number that is non-negative, and strictly positive when `L > 0`. The range
of the doubles is followed by `compute_productivity_double`. -/
theorem compute_productivity_nonneg (radius skin k1 k2 dx1 dx2 L : ℝ)
    (hk1 : 0 < k1) (hk2 : 0 < k2) (hL : 0 ≤ L)
    (hlog : 0 < log_term realMath radius skin k1 k2 dx1 dx2) :
    ∃ v, compute_productivity realMath radius skin k1 k2 dx1 dx2 L = .ok v ∧
      0 ≤ v ∧ (0 < L → 0 < v) := by
  have hs : (0 : ℝ) < √(k1 * k2) := Real.sqrt_pos.2 (mul_pos hk1 hk2)
  have hpi := Real.pi_pos
  have hnum : 0 ≤ 2 * π * √(k1 * k2) * L := by positivity
  have hval : 0 ≤ 2 * π * √(k1 * k2) * L /
      (Real.log (pieceman_radius realMath k1 k2 dx1 dx2 / radius) + skin) :=
    div_nonneg hnum hlog.le
  refine ⟨_, if_pos hval, hval, ?_⟩
  intro hLpos
  have hnum' : 0 < 2 * π * √(k1 * k2) * L := by positivity
  exact div_pos hnum' hlog

/-- The scenario of section 8: the log term is positive and the productivity
is a positive real number. -/
theorem compute_productivity_nonneg_witness :
    0 < log_term realMath 0.1 0 100 100 10 10 ∧
      ∃ v, compute_productivity realMath 0.1 0 100 100 10 10 5 = .ok v ∧
        0 ≤ v ∧ ((0 : ℝ) < 5 → 0 < v) :=
  ⟨scenario_code_log_term_pos,
    compute_productivity_nonneg 0.1 0 100 100 10 10 5 (by norm_num) (by norm_num)
      (by norm_num) scenario_code_log_term_pos⟩

end PositivityTheorems

/-! ## The constructor in exact arithmetic -/

section ConstructorTheorems

open Real

variable {C : Type} [DecidableEq C]

theorem Tensor1.eq_iff {F : Type} (a b : Tensor1 F) :
    a = b ↔ a.c0 = b.c0 ∧ a.c1 = b.c1 ∧ a.c2 = b.c2 := by
  cases a
  cases b
  simp

theorem sum_squares_eq_zero (a b c : ℝ) (h : a * a + b * b + c * c = 0) :
    a = 0 ∧ b = 0 ∧ c = 0 := by
  have ha := mul_self_nonneg a
  have hb := mul_self_nonneg b
  have hc := mul_self_nonneg c
  refine ⟨?_, ?_, ?_⟩
  · exact mul_self_eq_zero.1 (by linarith)
  · exact mul_self_eq_zero.1 (by linarith)
  · exact mul_self_eq_zero.1 (by linarith)

theorem norm_sub_pos_iff (x y : Tensor1 ℝ) :
    Tensor1.norm realMath (y.sub x) > 0 ↔ x ≠ y := by
  simp only [Tensor1.norm, Tensor1.sub, realMath, gt_iff_lt, Real.sqrt_pos, ne_eq,
    Tensor1.eq_iff]
  constructor
  · intro h hxy
    obtain ⟨h0, h1, h2⟩ := hxy
    simp [h0, h1, h2] at h
  · intro h
    by_contra hle
    have hnn : 0 ≤ (y.c0 - x.c0) * (y.c0 - x.c0) + (y.c1 - x.c1) * (y.c1 - x.c1)
        + (y.c2 - x.c2) * (y.c2 - x.c2) :=
      add_nonneg (add_nonneg (mul_self_nonneg _) (mul_self_nonneg _)) (mul_self_nonneg _)
    obtain ⟨h0, h1, h2⟩ := sum_squares_eq_zero _ _ _ (le_antisymm (not_lt.1 hle) hnn)
    exact h ⟨by linarith, by linarith, by linarith⟩

/-- The duplicate check fails exactly when two consecutive points coincide. -/
theorem check_duplicates_real (locs : List (Tensor1 ℝ)) :
    (check_duplicates realMath locs = .error .duplicate_locations ∧
        ∃ i, ∃ h : i + 1 < locs.length, locs[i] = locs[i + 1]) ∨
      (check_duplicates realMath locs = .ok () ∧
        ¬ ∃ i, ∃ h : i + 1 < locs.length, locs[i] = locs[i + 1]) := by
  induction locs with
  | nil => right; simp [check_duplicates]
  | cons x rest ih =>
    cases rest with
    | nil => right; simp [check_duplicates]
    | cons y rest =>
      unfold check_duplicates
      by_cases hxy : x = y
      · have hnot : ¬ Tensor1.norm realMath (y.sub x) > 0 := by
          rw [norm_sub_pos_iff]
          simpa using hxy
        left
        rw [if_neg hnot]
        exact ⟨rfl, 0, by simp, by simpa using hxy⟩
      · have hpos : Tensor1.norm realMath (y.sub x) > 0 := (norm_sub_pos_iff x y).2 hxy
        rw [if_pos hpos]
        rcases ih with ⟨he, i, hi, hii⟩ | ⟨hok, hno⟩
        · left
          exact ⟨he, i + 1, by simpa using hi, by simpa using hii⟩
        · right
          refine ⟨hok, ?_⟩
          rintro ⟨i, hi, he⟩
          cases i with
          | zero => exact hxy (by simpa using he)
          | succ j => exact hno ⟨j, by simpa using hi, by simpa using he⟩

/-- In exact real arithmetic: constructing a `Wellbore` from a list of control
points and a radius fails if and only if the list is empty, or the radius is
not strictly positive, or two consecutive control points coincide; otherwise it
succeeds and keeps the points and the radius unchanged. The range of the
doubles is followed by `new_Wellbore_double`. -/
theorem new_Wellbore_fails_iff (control_default : WellControl ℝ)
    (locs : List (Tensor1 ℝ)) (radius : ℝ) :
    ((∃ e, (new_Wellbore realMath control_default locs radius
          : Except WellError (Wellbore C ℝ)) = .error e) ↔
        (locs = [] ∨ ¬ (0 < radius) ∨
          ∃ i, ∃ h : i + 1 < locs.length, locs[i] = locs[i + 1])) ∧
      (¬ (locs = [] ∨ ¬ (0 < radius) ∨
          ∃ i, ∃ h : i + 1 < locs.length, locs[i] = locs[i + 1]) →
        ∃ st : Wellbore C ℝ, new_Wellbore realMath control_default locs radius = .ok st ∧
          st.locations = locs ∧ st.radius = radius) := by
  unfold new_Wellbore
  by_cases hl : locs = []
  · subst hl
    simp
  · have hlen : locs.length > 0 := List.length_pos.2 hl
    by_cases hr : 0 < radius
    · rcases check_duplicates_real locs with ⟨he, hd⟩ | ⟨hok, hd⟩
      · simp only [hlen, not_true_eq_false, if_false, gt_iff_lt, hr, he, hl, false_or,
          hd, iff_true, not_true_eq_false, false_implies, and_true]
        exact ⟨WellError.duplicate_locations, rfl⟩
      · simp only [hlen, not_true_eq_false, if_false, gt_iff_lt, hr, hok, hl, false_or,
          hd, iff_false, not_false_eq_true, true_implies]
        refine ⟨?_, _, rfl, rfl, rfl⟩
        rintro ⟨e, he⟩
        cases he
    · simp only [hlen, not_true_eq_false, if_false, gt_iff_lt, hr, not_false_eq_true, if_true,
        hl, false_or, true_or, iff_true, not_true_eq_false, false_implies, and_true]
      exact ⟨_, rfl⟩

end ConstructorTheorems

/-! ## locate: the bound cells are pairwise distinct (C18) -/

section LocateTheorems

variable {C F : Type} [DecidableEq C] [LinearOrderedField F] [FloorRing F]

theorem find_cell_from_nonneg_of_mem (cell : C) (cells : List C) (k : Nat)
    (h : cell ∈ cells) : 0 ≤ find_cell_from cell cells k := by
  induction cells generalizing k with
  | nil => simp at h
  | cons c cs ih =>
    unfold find_cell_from
    by_cases hc : cell = c
    · simp [hc]
    · rw [if_neg hc]
      rcases List.mem_cons.1 h with h1 | h1
      · exact absurd h1 hc
      · exact ih (k + 1) h1

theorem find_cell_eq_neg_one_iff (st : Wellbore C F) (cell : C) :
    find_cell st cell = -1 ↔ cell ∉ st.cells := by
  constructor
  · intro h hmem
    have := find_cell_from_nonneg_of_mem cell st.cells 0 hmem
    unfold find_cell at h
    omega
  · intro h
    exact find_cell_from_not_mem cell st.cells 0 h

theorem find_cell_from_lt_length (cell : C) (cells : List C) (k : Nat)
    (h : cell ∈ cells) : find_cell_from cell cells k < (k + cells.length : Nat) := by
  induction cells generalizing k with
  | nil => simp at h
  | cons c cs ih =>
    unfold find_cell_from
    by_cases hc : cell = c
    · simp [hc]
    · rw [if_neg hc]
      rcases List.mem_cons.1 h with h1 | h1
      · exact absurd h1 hc
      · have := ih (k + 1) h1
        simp only [List.length_cons]
        omega

/-- What `merge_binding` does to the list of bound cells: it appends the cell
when it is not bound, and leaves the list as it is otherwise. -/
theorem merge_binding_cells (st st' : Wellbore C F) (cell : C) (l : F) (a : Tensor1 F)
    (h : merge_binding st cell l a = .ok st') :
    st'.cells = if cell ∈ st.cells then st.cells else st.cells ++ [cell] := by
  unfold merge_binding at h
  by_cases hmem : cell ∈ st.cells
  · have hne : ¬ find_cell st cell = -1 := fun e => (find_cell_eq_neg_one_iff st cell).1 e hmem
    simp only [hne, if_false, bind, Except.bind, pure, Except.pure] at h
    rw [if_pos hmem]
    split at h
    · cases h
    · split at h
      · cases h
      · split at h
        · cases h
          rfl
        · cases h
  · have he : find_cell st cell = -1 := (find_cell_eq_neg_one_iff st cell).2 hmem
    simp only [he, if_true] at h
    cases h
    rw [if_neg hmem]

theorem merge_binding_nodup (st st' : Wellbore C F) (cell : C) (l : F) (a : Tensor1 F)
    (hnd : st.cells.Nodup) (h : merge_binding st cell l a = .ok st') : st'.cells.Nodup := by
  rw [merge_binding_cells st st' cell l a h]
  by_cases hmem : cell ∈ st.cells
  · rw [if_pos hmem]
    exact hnd
  · rw [if_neg hmem]
    exact List.Nodup.append hnd (List.nodup_singleton cell) (by simpa using hmem)

/-- The list of bound cells after one pass of the body of the segment loop:
unchanged, or with the cell added by `merge_binding`. -/
theorem locate_segment_cells (M : MathFns F) (P : DefaultValues F)
    (normalize : Tensor1 F → Tensor1 F) (fuel : Nat) (dh : DoFHandler C F) (cell : C)
    (x0 x1 : Tensor1 F) (s s' : Wellbore C F × Tensor1 F)
    (h : locate_segment M P normalize fuel dh cell x0 x1 s = .ok s') :
    s'.1.cells = s.1.cells ∨ (cell ∉ s.1.cells ∧ s'.1.cells = s.1.cells ++ [cell]) := by
  unfold locate_segment at h
  simp only [bind, Except.bind, pure, Except.pure] at h
  split at h
  · cases h
    exact Or.inl rfl
  · split at h
    · cases h
      exact Or.inl rfl
    · split at h
      · cases h
        exact Or.inl rfl
      · split at h
        · cases h
        · split at h
          · cases h
          · rename_i l hl st hm
            cases h
            have hc := merge_binding_cells _ _ _ _ _ hm
            by_cases hmem : cell ∈ s.1.cells
            · rw [if_pos hmem] at hc
              exact Or.inl hc
            · rw [if_neg hmem] at hc
              exact Or.inr ⟨hmem, hc⟩

theorem locate_segment_nodup (M : MathFns F) (P : DefaultValues F)
    (normalize : Tensor1 F → Tensor1 F) (fuel : Nat) (dh : DoFHandler C F) (cell : C)
    (x0 x1 : Tensor1 F) (s s' : Wellbore C F × Tensor1 F) (hnd : s.1.cells.Nodup)
    (h : locate_segment M P normalize fuel dh cell x0 x1 s = .ok s') : s'.1.cells.Nodup := by
  rcases locate_segment_cells M P normalize fuel dh cell x0 x1 s s' h with e | ⟨hmem, e⟩
  · rw [e]
    exact hnd
  · rw [e]
    exact List.Nodup.append hnd (List.nodup_singleton cell) (by simpa using hmem)

theorem segment_loop_nodup (M : MathFns F) (P : DefaultValues F)
    (normalize : Tensor1 F → Tensor1 F) (fuel : Nat) (dh : DoFHandler C F) (cell : C)
    (segs : List (Tensor1 F × Tensor1 F)) (s s' : Wellbore C F × Tensor1 F)
    (hnd : s.1.cells.Nodup)
    (h : segment_loop M P normalize fuel dh cell segs s = .ok s') : s'.1.cells.Nodup := by
  induction segs generalizing s with
  | nil =>
    simp only [segment_loop] at h
    cases h
    exact hnd
  | cons seg rest ih =>
    obtain ⟨x0, x1⟩ := seg
    simp only [segment_loop, bind, Except.bind] at h
    split at h
    · cases h
    · rename_i s1 hs1
      exact ih s1 (locate_segment_nodup M P normalize fuel dh cell x0 x1 s s1 hnd hs1) h

theorem bind_point_cell_eq (dh : DoFHandler C F) (st : Wellbore C F) (cell : C) :
    bind_point_cell dh st cell = .ok
      { st with cells := st.cells ++ [cell]
                segment_direction := st.segment_direction ++ [{ c0 := 0, c1 := 0, c2 := 1 }]
                segment_length := st.segment_length ++ [(get_cell_size dh.toMesh cell).c2] } := by
  unfold bind_point_cell get_cell_sizes
  simp [bind, Except.bind, pure, Except.pure, vec_read]

theorem cell_loop_nodup (M : MathFns F) (P : DefaultValues F)
    (normalize : Tensor1 F → Tensor1 F) (fuel : Nat) (dh : DoFHandler C F)
    (cells_left : List C) (s s' : Wellbore C F × Tensor1 F) (hnd : s.1.cells.Nodup)
    (h : cell_loop M P normalize fuel dh cells_left s = .ok s') : s'.1.cells.Nodup := by
  induction cells_left generalizing s with
  | nil =>
    simp only [cell_loop] at h
    cases h
    exact hnd
  | cons cell rest ih =>
    unfold cell_loop at h
    by_cases hmem : cell ∈ s.1.cells
    · rw [if_pos hmem] at h
      exact ih s hnd h
    · rw [if_neg hmem] at h
      split at h
      · rename_i location hloc
        split at h
        · rw [bind_point_cell_eq] at h
          simp only [bind, Except.bind, pure, Except.pure] at h
          cases h
          exact List.Nodup.append hnd (List.nodup_singleton cell) (by simpa using hmem)
        · exact ih s hnd h
      · simp only [bind, Except.bind] at h
        split at h
        · cases h
        · rename_i s1 hs1
          exact ih s1 (segment_loop_nodup M P normalize fuel dh cell _ s s1 hnd hs1) h

/-- C18: after `locate`, for every mesh and every trajectory, each cell
appears at most once in the list of bound cells of the well. -/
theorem locate_cells_nodup (M : MathFns F) (P : DefaultValues F)
    (normalize : Tensor1 F → Tensor1 F) (fuel : Nat) (dh : DoFHandler C F)
    (st st' : Wellbore C F) (h : locate M P normalize fuel dh st = .ok st') :
    st'.cells.Nodup := by
  unfold locate at h
  simp only [bind, Except.bind, pure, Except.pure] at h
  split at h
  · cases h
  · rename_i s hs
    cases h
    exact cell_loop_nodup M P normalize fuel dh _ _ s List.nodup_nil hs

end LocateTheorems

/-! ## locate for a wellbore that is one point (C13) -/

section SinglePointTheorems

variable {C F : Type} [DecidableEq C] [LinearOrderedField F] [FloorRing F]

theorem cell_loop_single_point (M : MathFns F) (P : DefaultValues F)
    (normalize : Tensor1 F → Tensor1 F) (fuel : Nat) (dh : DoFHandler C F)
    (cells_left : List C) (s : Wellbore C F × Tensor1 F) (x : Tensor1 F)
    (hloc : s.1.locations = [x]) (hcells : s.1.cells = []) :
    cell_loop M P normalize fuel dh cells_left s =
      match cells_left.find? (fun c => dh.point_inside c x) with
      | some c => .ok
          ({ s.1 with cells := [c]
                      segment_direction :=
                        s.1.segment_direction ++ [{ c0 := 0, c1 := 0, c2 := 1 }]
                      segment_length :=
                        s.1.segment_length ++ [(get_cell_size dh.toMesh c).c2] }, s.2)
      | none => .ok s := by
  induction cells_left with
  | nil => simp [cell_loop]
  | cons cell rest ih =>
    unfold cell_loop
    simp only [hcells, List.not_mem_nil, if_false, hloc, List.find?_cons]
    cases hin : dh.point_inside cell x with
    | true =>
      simp only [if_true, bind_point_cell_eq, bind, Except.bind, pure, Except.pure,
        hcells, List.nil_append, hloc]
    | false =>
      simp only [Bool.false_eq_true, if_false]
      simpa only [hloc] using ih

/-- The sweep of `get_cell_size` over the face points, started at the pair
`(a, b)`: the first component ends as the smallest and the second as the
largest of the start value and the coordinates met. -/
theorem foldl_min_max_update (qs : List F) (a b : F) :
    (qs.foldl min_max_update (a, b)).1 ≤ a ∧ b ≤ (qs.foldl min_max_update (a, b)).2 ∧
      ((qs.foldl min_max_update (a, b)).1 = a ∨ (qs.foldl min_max_update (a, b)).1 ∈ qs) ∧
      ((qs.foldl min_max_update (a, b)).2 = b ∨ (qs.foldl min_max_update (a, b)).2 ∈ qs) ∧
      ∀ q ∈ qs, (qs.foldl min_max_update (a, b)).1 ≤ q ∧ q ≤ (qs.foldl min_max_update (a, b)).2 := by
  induction qs generalizing a b with
  | nil => simp
  | cons q qs ih =>
    simp only [List.foldl_cons, min_max_update, List.mem_cons]
    obtain ⟨h1, h2, h3, h4, h5⟩ := ih (if q < a then q else a) (if q > b then q else b)
    have ha : (if q < a then q else a) ≤ a ∧ (if q < a then q else a) ≤ q := by
      split
      · exact ⟨by linarith, le_refl _⟩
      · exact ⟨le_refl _, by linarith⟩
    have hb : b ≤ (if q > b then q else b) ∧ q ≤ (if q > b then q else b) := by
      split
      · exact ⟨by linarith, le_refl _⟩
      · exact ⟨le_refl _, by linarith⟩
    refine ⟨le_trans h1 ha.1, le_trans hb.1 h2, ?_, ?_, ?_⟩
    · rcases h3 with h | h
      · rw [h]
        split
        · exact Or.inr (Or.inl rfl)
        · exact Or.inl rfl
      · exact Or.inr (Or.inr h)
    · rcases h4 with h | h
      · rw [h]
        split
        · exact Or.inr (Or.inl rfl)
        · exact Or.inl rfl
      · exact Or.inr (Or.inr h)
    · intro z hz
      rcases hz with hz | hz
      · rw [hz]
        exact ⟨le_trans h1 ha.2, le_trans hb.2 h2⟩
      · exact h5 z hz

/-- The extent that `get_cell_size` computes for one coordinate is the largest
minus the smallest of the coordinates of the cell centre and of the face
points. -/
theorem coordinate_extent_eq (c : F) (qs : List F) :
    ∃ lo hi, lo ∈ c :: qs ∧ hi ∈ c :: qs ∧ (∀ z ∈ c :: qs, lo ≤ z ∧ z ≤ hi) ∧
      coordinate_extent c qs = hi - lo := by
  obtain ⟨h1, h2, h3, h4, h5⟩ := foldl_min_max_update qs c c
  refine ⟨(qs.foldl min_max_update (c, c)).1, (qs.foldl min_max_update (c, c)).2, ?_, ?_, ?_, rfl⟩
  · simpa [List.mem_cons] using h3
  · simpa [List.mem_cons] using h4
  · intro z hz
    rcases List.mem_cons.1 hz with hz | hz
    · rw [hz]
      exact ⟨h1, h2⟩
    · exact h5 z hz

/-- C13: for a trajectory that is the single point `x`, `locate` returns and
binds at most one cell. When some active cell contains `x`, exactly one cell
is bound; it is an active cell that contains `x`, and the direction `(0,0,1)`
and the length `zhi - zlo` are appended to the vectors of directions and
lengths, where `zlo` and `zhi` are the smallest and the largest third
coordinate among the centre and the face points of that cell: the length is the
extent of the cell along the third axis. On a well whose vectors are empty, as
after construction, these are then the only entries. When no active cell
contains `x`, nothing is bound and the vectors are unchanged. -/
theorem locate_single_point (M : MathFns F) (P : DefaultValues F)
    (normalize : Tensor1 F → Tensor1 F) (fuel : Nat) (dh : DoFHandler C F)
    (st : Wellbore C F) (x : Tensor1 F) (hloc : st.locations = [x]) :
    ∃ st', locate M P normalize fuel dh st = .ok st' ∧ st'.cells.length ≤ 1 ∧
      ((∃ c ∈ dh.active_cells, dh.point_inside c x = true) →
        ∃ c zlo zhi, c ∈ dh.active_cells ∧ dh.point_inside c x = true ∧ st'.cells = [c] ∧
          zlo ∈ (dh.center c).c2 :: (dh.face_q_points c).map Tensor1.c2 ∧
          zhi ∈ (dh.center c).c2 :: (dh.face_q_points c).map Tensor1.c2 ∧
          (∀ z ∈ (dh.center c).c2 :: (dh.face_q_points c).map Tensor1.c2, zlo ≤ z ∧ z ≤ zhi) ∧
          st'.segment_direction = st.segment_direction ++ [{ c0 := 0, c1 := 0, c2 := 1 }] ∧
          st'.segment_length = st.segment_length ++ [zhi - zlo] ∧
          (st.segment_direction = [] → st.segment_length = [] →
            st'.segment_direction = [{ c0 := 0, c1 := 0, c2 := 1 }] ∧
              st'.segment_length = [zhi - zlo])) ∧
      ((∀ c ∈ dh.active_cells, dh.point_inside c x = false) →
        st'.cells = [] ∧ st'.segment_direction = st.segment_direction ∧
          st'.segment_length = st.segment_length) := by
  unfold locate
  rw [cell_loop_single_point M P normalize fuel dh dh.active_cells _ x hloc rfl]
  cases hfind : dh.active_cells.find? (fun c => dh.point_inside c x) with
  | none =>
    refine ⟨_, rfl, by simp, ?_, fun _ => ⟨rfl, rfl, rfl⟩⟩
    rintro ⟨c, hc, hin⟩
    have := List.find?_eq_none.1 hfind c hc
    simp [hin] at this
  | some c =>
    have hin : dh.point_inside c x = true := by
      have := List.find?_some hfind
      simpa using this
    have hmem : c ∈ dh.active_cells := List.mem_of_find?_eq_some hfind
    refine ⟨_, rfl, by simp, ?_, ?_⟩
    · intro _
      obtain ⟨zlo, zhi, hlo, hhi, hall, hext⟩ :=
        coordinate_extent_eq (dh.center c).c2 ((dh.face_q_points c).map Tensor1.c2)
      have hsize : (get_cell_size dh.toMesh c).c2 = zhi - zlo := hext
      refine ⟨c, zlo, zhi, hmem, hin, rfl, hlo, hhi, hall, rfl, ?_, ?_⟩
      · simp only [bind, Except.bind, pure, Except.pure, hsize]
      · intro hd hl
        simp [hsize, hd, hl]
    · intro hall
      have := hall c hmem
      rw [hin] at this
      cases this

end SinglePointTheorems

/-! ## locate on the one-cell mesh: first and second call (C13, C18, C19) -/

section PointWellTheorems

open Real

theorem scenario_point_inside :
    scenario_dof_handler.point_inside 0 { c0 := 5, c1 := 5, c2 := 5 / 2 } = true := by
  simp only [scenario_dof_handler, decide_eq_true_eq]
  norm_num

theorem locate_point_well (fuel : Nat) :
    locate realMath scenario_defaults Math_normalize fuel scenario_dof_handler point_well
      = .ok point_well_located := by
  unfold locate
  rw [cell_loop_single_point realMath scenario_defaults Math_normalize fuel scenario_dof_handler
    _ _ { c0 := 5, c1 := 5, c2 := 5 / 2 } rfl rfl]
  have hcells : scenario_dof_handler.active_cells = [0] := rfl
  have hsize : (get_cell_size scenario_dof_handler.toMesh 0).c2 = 5 := by
    have h : scenario_dof_handler.toMesh = scenario_mesh := rfl
    rw [h, scenario_cell_size]
  simp only [hcells, List.find?_cons, scenario_point_inside, hsize, bind, Except.bind, pure,
    Except.pure]
  rfl

theorem locate_point_well_again (fuel : Nat) :
    locate realMath scenario_defaults Math_normalize fuel scenario_dof_handler
      point_well_located = .ok point_well_located_twice := by
  unfold locate
  rw [cell_loop_single_point realMath scenario_defaults Math_normalize fuel scenario_dof_handler
    _ _ { c0 := 5, c1 := 5, c2 := 5 / 2 } rfl rfl]
  have hcells : scenario_dof_handler.active_cells = [0] := rfl
  have hsize : (get_cell_size scenario_dof_handler.toMesh 0).c2 = 5 := by
    have h : scenario_dof_handler.toMesh = scenario_mesh := rfl
    rw [h, scenario_cell_size]
  simp only [hcells, List.find?_cons, scenario_point_inside, hsize, bind, Except.bind, pure,
    Except.pure]
  rfl

/-- The well of the single point `(5, 5, 5/2)` in the one-cell mesh of the
scenario, freshly constructed: `locate` binds the cell 0 with the direction
`(0, 0, 1)` and the length 5, the extent of the cell along the third axis. -/
theorem locate_single_point_witness :
    ∃ st', locate realMath scenario_defaults Math_normalize 0 scenario_dof_handler point_well
        = .ok st' ∧ st'.cells = [0] ∧
      st'.segment_direction = [{ c0 := 0, c1 := 0, c2 := 1 }] ∧ st'.segment_length = [5] := by
  obtain ⟨st', h, -, hsome, -⟩ :=
    locate_single_point realMath scenario_defaults Math_normalize 0 scenario_dof_handler
      point_well { c0 := 5, c1 := 5, c2 := 5 / 2 } rfl
  obtain ⟨c, zlo, zhi, hc, -, hcells, hlo, hhi, hall, -, -, hfresh⟩ :=
    hsome ⟨0, by simp [scenario_dof_handler], scenario_point_inside⟩
  have hc0 : c = 0 := by simpa [scenario_dof_handler] using hc
  subst hc0
  obtain ⟨hd, hl⟩ := hfresh rfl rfl
  have hzs : (scenario_dof_handler.center 0).c2
        :: (scenario_dof_handler.face_q_points 0).map Tensor1.c2
      = [5 / 2, 5 / 2, 5 / 2, 5 / 2, 5 / 2, 0, 5] := by
    simp [scenario_dof_handler, scenario_mesh]
  rw [hzs] at hlo hhi hall
  have h0 := hall 0 (by simp)
  have h5 := hall 5 (by simp)
  have elo : zlo = 0 := by
    simp only [List.mem_cons, List.mem_singleton, List.not_mem_nil, or_false] at hlo
    rcases hlo with h | h | h | h | h | h | h <;> linarith [h0.1]
  have ehi : zhi = 5 := by
    simp only [List.mem_cons, List.mem_singleton, List.not_mem_nil, or_false] at hhi
    rcases hhi with h | h | h | h | h | h | h <;> linarith [h5.2]
  refine ⟨st', h, hcells, hd, ?_⟩
  rw [hl, elo, ehi]
  norm_num

theorem locate_cells_nodup_witness : point_well_located.cells.Nodup :=
  locate_cells_nodup realMath scenario_defaults Math_normalize 0 scenario_dof_handler
    point_well point_well_located (locate_point_well 0)

/-- C19 fails on the code: `locate` clears `cells` only. On the one-cell mesh,
the first call on a fresh single-point well yields one bound cell, one length
and one direction; the second call on the result yields one bound cell but two
lengths and two directions, which is not what a single call on a fresh well
yields. -/
theorem locate_twice_keeps_entries :
    locate realMath scenario_defaults Math_normalize 0 scenario_dof_handler point_well
        = .ok point_well_located ∧
      locate realMath scenario_defaults Math_normalize 0 scenario_dof_handler
        point_well_located = .ok point_well_located_twice ∧
      point_well_located_twice.cells.length = 1 ∧
      point_well_located_twice.segment_length.length = 2 ∧
      point_well_located_twice.segment_direction.length = 2 ∧
      point_well_located_twice ≠ point_well_located := by
  refine ⟨locate_point_well 0, locate_point_well_again 0, rfl, rfl, rfl, ?_⟩
  intro h
  have := congrArg (fun st => st.segment_length.length) h
  simp [point_well_located_twice, point_well_located] at this

end PointWellTheorems

/-! ## update_productivity called twice (C20) -/

section RepeatedUpdateTheorems

open Real

theorem scenario_spec_J_eq (k : ℝ) (hk : 0 < k) :
    spec_J 0.1 0 k k 10 10 5 = k * (2 * π * 5 / (Real.log (0.14 * √2 * 10 / 0.1) + 0)) := by
  unfold spec_J
  rw [spec_r_eq_isotropic_square k 10 hk (by norm_num), Real.sqrt_mul_self hk.le]
  ring

theorem scenario_spec_J_pos_of_pos (k : ℝ) (hk : 0 < k) : 0 < spec_J 0.1 0 k k 10 10 5 := by
  rw [scenario_spec_J_eq k hk]
  have hpi := Real.pi_pos
  have hlog := scenario_isotropic_log_term_pos
  have hc : 0 < 2 * π * 5 / (Real.log (0.14 * √2 * 10 / 0.1) + 0) := by positivity
  positivity

theorem scenario_productivity_eq (k : ℝ) (hk : 0 < k) :
    scenario_productivity k = spec_J 0.1 0 k k 10 10 5 := by
  unfold scenario_productivity
  have h : (0 : ℝ) * 0 + 0 * 0 + spec_J 0.1 0 k k 10 10 5 * spec_J 0.1 0 k k 10 10 5
      = spec_J 0.1 0 k k 10 10 5 * spec_J 0.1 0 k k 10 10 5 := by ring
  rw [h, Real.sqrt_mul_self (scenario_spec_J_pos_of_pos k hk).le]

/-- One call of `update_productivity` on the well of the scenario, whatever
its vector of productivities holds, appends the productivity index computed
with the current permeability. -/
theorem scenario_update_productivity (k : ℝ) (hk : 0 < k) (prods : List ℝ) :
    update_productivity realMath scenario_mesh (uniform_permeability k)
        { scenario_well with productivities := prods }
      = .ok { scenario_well with productivities := prods ++ [scenario_productivity k] } := by
  have hx : compute_productivity realMath (0.1 : ℝ) 0 k k 10 5 (5 * |(0 : ℝ)|) = .ok 0 := by
    simp [compute_productivity]
  have hz : compute_productivity realMath (0.1 : ℝ) 0 k k 10 10 (5 * |(1 : ℝ)|)
      = .ok (spec_J 0.1 0 k k 10 10 5) := by
    rw [abs_one, mul_one, compute_productivity_real,
      if_pos (scenario_spec_J_pos_of_pos k hk).le]
  unfold update_productivity
  rw [get_cell_sizes_self]
  simp only [bind, Except.bind, pure, Except.pure, scenario_well, List.map, List.length_cons,
    List.length_nil, update_productivity_loop, vec_read, List.getElem?_cons_zero,
    cell_productivity, scenario_cell_size, uniform_permeability, hx, hz, Tensor1.norm,
    Nat.zero_add, scenario_productivity]
  rfl

/-- C20 fails on the code: `update_productivity` appends to `productivities`
and never clears it. For the well of the scenario (one bound cell), a first
call with permeability 100 and a second call with permeability 400 leave two
productivity indices for the one bound cell, and `get_J_and_Q` then returns
the first of them, the value of the earlier computation, not the value just
computed. -/
theorem update_productivity_twice_keeps_stale_value :
    update_productivity realMath scenario_mesh (uniform_permeability 100) scenario_well
        = .ok { scenario_well with productivities := [scenario_productivity 100] } ∧
      update_productivity realMath scenario_mesh (uniform_permeability 400)
          { scenario_well with productivities := [scenario_productivity 100] }
        = .ok { scenario_well with
                  productivities := [scenario_productivity 100, scenario_productivity 400] } ∧
      scenario_well.cells.length = 1 ∧
      get_J_and_Q { scenario_well with
          productivities := [scenario_productivity 100, scenario_productivity 400] } 0
        = .ok (scenario_productivity 100, 800 * scenario_productivity 100) ∧
      scenario_productivity 100 < scenario_productivity 400 := by
  refine ⟨scenario_update_productivity 100 (by norm_num) [],
    scenario_update_productivity 400 (by norm_num) [scenario_productivity 100], rfl, ?_, ?_⟩
  · simp [get_J_and_Q, scenario_well, find_cell, find_cell_from, vec_read, bind, Except.bind,
      pure, Except.pure]
  · rw [scenario_productivity_eq 100 (by norm_num), scenario_productivity_eq 400 (by norm_num),
      scenario_spec_J_eq 100 (by norm_num), scenario_spec_J_eq 400 (by norm_num)]
    have hpi := Real.pi_pos
    have hlog := scenario_isotropic_log_term_pos
    have hc : 0 < 2 * π * 5 / (Real.log (0.14 * √2 * 10 / 0.1) + 0) := by positivity
    nlinarith

end RepeatedUpdateTheorems

/-! ## Merging a second segment into a bound cell (C17) -/

section MergeTheorems

/-- C17 fails on the code: the averaged direction is written to
`segment_direction[l]`, the index being the length `l`, not the position of the
cell. Merging a segment of tangent `(0,1,0)` and in-cell length `2/5` into the
cell 7, bound at position 1 with direction `(1,0,0)`, adds the length at
position 1, leaves the direction of the cell 7 as it was, and overwrites the
direction of the cell 4 at position 0. -/
theorem merge_binding_overwrites_other_cell :
    merge_binding bent_well 7 (2 / 5) { c0 := 0, c1 := 1, c2 := 0 } = .ok
      { bent_well with
          segment_length := [1 / 2, 1 / 2 + 2 / 5]
          segment_direction :=
            [{ c0 := 1 / 2 * (1 + 0), c1 := 1 / 2 * (0 + 1), c2 := 1 / 2 * (0 + 0) },
             { c0 := 1, c1 := 0, c2 := 0 }] } := by
  have hfloor : ⌊(2 / 5 : ℚ)⌋₊ = 0 := by
    rw [Nat.floor_eq_zero]
    norm_num
  have hfind : find_cell bent_well 7 = 1 := by
    simp [find_cell, find_cell_from, bent_well]
  unfold merge_binding
  simp only [hfind, hfloor, bind, Except.bind, pure, Except.pure]
  simp [bent_well, vec_read, Tensor1.smul, Tensor1.add]

end MergeTheorems

/-! ## The marching loops of get_segment_length -/

section MarchTheorems

variable {C F : Type} [DecidableEq C] [LinearOrderedField F]

/-- A marching loop whose body is entered at the first `m` points and not at
the next one returns, with `m + 1` units of fuel or more, the sum of the `m`
increments: the first is the distance from `pp` to `p`, the others have the
common length `s` of one step. -/
theorem march_run (M : MathFns F) (P : DefaultValues F) (dh : DoFHandler C F) (cell : C)
    (start end_point : Tensor1 F) (advance : Tensor1 F → Tensor1 F) (s : F)
    (hs : ∀ q, Tensor1.norm M ((advance q).sub q) = s) :
    ∀ (m fuel : Nat) (length : F) (p pp : Tensor1 F), m + 1 ≤ fuel →
      (∀ j, j < m → march_accepts M P dh cell start end_point (advance^[j] p) = true) →
      march_accepts M P dh cell start end_point (advance^[m] p) = false →
      march M P dh cell start end_point advance fuel length p pp =
        .ok (if m = 0 then length
             else length + Tensor1.norm M (p.sub pp) + ((m - 1 : Nat) : F) * s) := by
  intro m
  induction m with
  | zero =>
    intro fuel length p pp hfuel _ hrej
    obtain ⟨fuel', rfl⟩ : ∃ f, fuel = f + 1 := ⟨fuel - 1, by omega⟩
    simp only [Function.iterate_zero, id_eq, march_accepts, Bool.and_eq_false_imp,
      Bool.not_eq_false', decide_eq_true_eq] at hrej
    unfold march
    by_cases hin : point_inside_cell P dh cell p = true
    · rw [if_pos hin, if_pos (hrej hin)]
      simp
    · rw [if_neg hin]
      simp
  | succ m ih =>
    intro fuel length p pp hfuel hacc hrej
    obtain ⟨fuel', rfl⟩ : ∃ f, fuel = f + 1 := ⟨fuel - 1, by omega⟩
    have h0 := hacc 0 (by omega)
    simp only [Function.iterate_zero, id_eq, march_accepts, Bool.and_eq_true,
      Bool.not_eq_true', decide_eq_false_iff_not] at h0
    unfold march
    rw [if_pos h0.1, if_neg h0.2]
    rw [ih fuel' _ (advance p) p (by omega)
      (fun j hj => by
        have := hacc (j + 1) (by omega)
        rwa [Function.iterate_succ_apply] at this)
      (by rwa [Function.iterate_succ_apply] at hrej)]
    congr 1
    by_cases hm : m = 0
    · subst hm
      simp
    · rw [if_neg hm, if_neg (by omega), hs p]
      have : ((m + 1 - 1 : Nat) : F) = ((m - 1 : Nat) : F) + 1 := by
        have hm1 : m + 1 - 1 = (m - 1) + 1 := by omega
        rw [hm1]
        push_cast
        ring
      rw [this]
      ring

end MarchTheorems

section MarchThresholdTheorems

variable {C F : Type} [DecidableEq C] [LinearOrderedField F] [FloorRing F]

/-- A marching loop whose body is entered exactly at the points number `j`
with `j * step <= B` returns, with enough fuel, the first increment plus
`floor (B / step)` steps of length `s`. -/
theorem march_threshold (M : MathFns F) (P : DefaultValues F) (dh : DoFHandler C F) (cell : C)
    (start end_point : Tensor1 F) (advance : Tensor1 F → Tensor1 F) (s step B : F)
    (hs : ∀ q, Tensor1.norm M ((advance q).sub q) = s)
    (hstep : 0 < step) (hB : 0 ≤ B) (fuel : Nat) (length : F) (p pp : Tensor1 F)
    (hacc : ∀ j : Nat, march_accepts M P dh cell start end_point (advance^[j] p)
      = decide ((j : F) * step ≤ B))
    (hfuel : ⌊B / step⌋₊ + 2 ≤ fuel) :
    march M P dh cell start end_point advance fuel length p pp =
      .ok (length + Tensor1.norm M (p.sub pp) + (⌊B / step⌋₊ : F) * s) := by
  have hiff : ∀ j : Nat, (j : F) * step ≤ B ↔ j ≤ ⌊B / step⌋₊ := by
    intro j
    rw [Nat.le_floor_iff (div_nonneg hB hstep.le), le_div_iff₀ hstep]
  have h := march_run M P dh cell start end_point advance s hs (⌊B / step⌋₊ + 1) fuel length
    p pp (by omega)
    (fun j hj => by
      rw [hacc j, decide_eq_true_eq, hiff]
      omega)
    (by
      rw [hacc, decide_eq_false_iff_not, hiff]
      omega)
  rw [h, if_neg (by omega)]
  simp

end MarchThresholdTheorems

/-! ## Marching along the third axis through a cell that is a box -/

section VerticalMarchTheorems

open Real

variable {C : Type} [DecidableEq C]

/-- For a cell that is a box and a point whose first two coordinates lie in
the box, `point_inside_cell` tests the third coordinate against the box
enlarged by the tolerance. -/
theorem point_inside_cell_box_vertical (P : DefaultValues ℝ) (dh : DoFHandler C ℝ) (cell : C)
    (lo hi : Tensor1 ℝ) (hbox : ∀ p, dh.point_inside cell p = box_contains lo hi p)
    (x y z : ℝ) (hx : lo.c0 ≤ x ∧ x ≤ hi.c0) (hy : lo.c1 ≤ y ∧ y ≤ hi.c1)
    (heps0 : 0 ≤ P.small_number_geometry * dh.diameter cell)
    (heps : 2 * (P.small_number_geometry * dh.diameter cell) ≤ hi.c2 - lo.c2) :
    point_inside_cell P dh cell { c0 := x, c1 := y, c2 := z } =
      decide (lo.c2 - P.small_number_geometry * dh.diameter cell ≤ z ∧
        z ≤ hi.c2 + P.small_number_geometry * dh.diameter cell) := by
  rw [Bool.eq_iff_iff]
  simp only [point_inside_cell, hbox, box_contains, Tensor1.add, Bool.or_eq_true,
    decide_eq_true_eq, add_zero]
  constructor
  · rintro (((((h | h) | h) | h) | h) | h) <;> constructor <;> linarith [h.1, h.2.1, h.2.2.1,
      h.2.2.2.1, h.2.2.2.2.1, h.2.2.2.2.2]
  · rintro ⟨h1, h2⟩
    by_cases hz : z ≤ hi.c2 - P.small_number_geometry * dh.diameter cell
    · left; right
      exact ⟨hx.1, hx.2, hy.1, hy.2, by linarith, by linarith⟩
    · right
      exact ⟨hx.1, hx.2, hy.1, hy.2, by linarith, by linarith⟩

end VerticalMarchTheorems

section VerticalMarchTheorems2

open Real

variable {C : Type} [DecidableEq C]

theorem norm_vertical (z : ℝ) :
    Tensor1.norm realMath { c0 := 0, c1 := 0, c2 := z } = |z| := by
  simp only [Tensor1.norm, realMath, mul_zero, zero_add]
  exact Real.sqrt_mul_self_eq_abs z

theorem distance_vertical (x y z z' : ℝ) :
    Tensor1.distance realMath { c0 := x, c1 := y, c2 := z } { c0 := x, c1 := y, c2 := z' }
      = |z - z'| := by
  simp only [Tensor1.distance, realMath, sub_self, mul_zero, zero_add]
  exact Real.sqrt_mul_self_eq_abs (z - z')

theorem iterate_add_vertical (step x y z : ℝ) (j : Nat) :
    (fun p : Tensor1 ℝ => p.add ((⟨0, 0, 1⟩ : Tensor1 ℝ).scale step))^[j]
      { c0 := x, c1 := y, c2 := z } = { c0 := x, c1 := y, c2 := z + j * step } := by
  induction j with
  | zero => simp
  | succ j ih =>
    rw [Function.iterate_succ_apply', ih]
    simp only [Tensor1.add, Tensor1.scale, zero_mul, add_zero, one_mul, Tensor1.mk.injEq,
      true_and]
    push_cast
    ring

theorem iterate_sub_vertical (step x y z : ℝ) (j : Nat) :
    (fun p : Tensor1 ℝ => p.sub ((⟨0, 0, 1⟩ : Tensor1 ℝ).scale step))^[j]
      { c0 := x, c1 := y, c2 := z } = { c0 := x, c1 := y, c2 := z - j * step } := by
  induction j with
  | zero => simp
  | succ j ih =>
    rw [Function.iterate_succ_apply', ih]
    simp only [Tensor1.sub, Tensor1.scale, zero_mul, sub_zero, one_mul, Tensor1.mk.injEq,
      true_and]
    push_cast
    ring

theorem vertical_tangent_unchanged (P : DefaultValues ℝ) :
    (if |Tensor1.norm realMath (⟨0, 0, 1⟩ : Tensor1 ℝ) - 1| > P.small_number
      then (⟨0, 0, 1⟩ : Tensor1 ℝ).div (Tensor1.norm realMath (⟨0, 0, 1⟩ : Tensor1 ℝ))
      else (⟨0, 0, 1⟩ : Tensor1 ℝ)) = ⟨0, 0, 1⟩ := by
  have h1 : Tensor1.norm realMath (⟨0, 0, 1⟩ : Tensor1 ℝ) = 1 := by
    rw [norm_vertical]
    simp
  rw [h1]
  split
  · simp [Tensor1.div]
  · rfl

end VerticalMarchTheorems2

section VerticalMarchTheorems3

open Real

variable {C : Type} [DecidableEq C]

/-- The length that `get_segment_length` returns for a segment along the third
axis from height `zb` to height `ze`, a cell that is a box, and a start point
at height `z0` on the segment and inside the cell within tolerance: upwards
and downwards, the whole number of marching steps that fit before the point
leaves the box enlarged by the tolerance or the segment. -/
theorem get_segment_length_vertical (P : DefaultValues ℝ) (fuel : Nat) (dh : DoFHandler C ℝ)
    (cell : C) (lo hi : Tensor1 ℝ)
    (hbox : ∀ p, dh.point_inside cell p = box_contains lo hi p)
    (x y zb ze z0 : ℝ) (hx : lo.c0 ≤ x ∧ x ≤ hi.c0) (hy : lo.c1 ≤ y ∧ y ≤ hi.c1)
    (hsng : 0 < P.small_number_geometry)
    (heps0 : 0 ≤ P.small_number_geometry * dh.diameter cell)
    (heps : 2 * (P.small_number_geometry * dh.diameter cell) ≤ hi.c2 - lo.c2)
    (hseg : zb < ze) (hz0 : zb ≤ z0 ∧ z0 ≤ ze)
    (hin : lo.c2 - P.small_number_geometry * dh.diameter cell ≤ z0 ∧
      z0 ≤ hi.c2 + P.small_number_geometry * dh.diameter cell)
    (hfuel : ⌊1 / P.small_number_geometry⌋₊ + 2 ≤ fuel) :
    get_segment_length realMath P fuel dh { c0 := x, c1 := y, c2 := z0 } cell ⟨0, 0, 1⟩
        ({ c0 := x, c1 := y, c2 := zb }, { c0 := x, c1 := y, c2 := ze }) =
      .ok ((⌊min (hi.c2 + P.small_number_geometry * dh.diameter cell - z0) (ze - z0) /
              ((ze - zb) * P.small_number_geometry)⌋₊ : ℝ) *
            ((ze - zb) * P.small_number_geometry) +
          (⌊min (z0 - lo.c2 + P.small_number_geometry * dh.diameter cell) (z0 - zb) /
              ((ze - zb) * P.small_number_geometry)⌋₊ : ℝ) *
            ((ze - zb) * P.small_number_geometry)) := by
  have hd : Tensor1.norm realMath
      ((⟨x, y, ze⟩ : Tensor1 ℝ).sub ⟨x, y, zb⟩) = ze - zb := by
    simp only [Tensor1.sub, sub_self, norm_vertical]
    exact abs_of_pos (by linarith)
  have hstep : 0 < (ze - zb) * P.small_number_geometry := mul_pos (by linarith) hsng
  have hfuel' : ∀ B : ℝ, B ≤ ze - zb →
      ⌊B / ((ze - zb) * P.small_number_geometry)⌋₊ + 2 ≤ fuel := by
    intro B hB
    have h1 : B / ((ze - zb) * P.small_number_geometry) ≤ 1 / P.small_number_geometry := by
      rw [div_le_div_iff₀ hstep hsng]
      have : B * P.small_number_geometry ≤ (ze - zb) * P.small_number_geometry :=
        mul_le_mul_of_nonneg_right hB hsng.le
      linarith
    have := Nat.floor_le_floor h1
    omega
  have hsf : ∀ q : Tensor1 ℝ, Tensor1.norm realMath
      ((q.add ((⟨0, 0, 1⟩ : Tensor1 ℝ).scale ((ze - zb) * P.small_number_geometry))).sub q)
        = (ze - zb) * P.small_number_geometry := by
    intro q
    simp only [Tensor1.add, Tensor1.sub, Tensor1.scale, zero_mul, add_zero, sub_self, one_mul,
      add_sub_cancel_left, norm_vertical]
    exact abs_of_pos hstep
  have hsb : ∀ q : Tensor1 ℝ, Tensor1.norm realMath
      ((q.sub ((⟨0, 0, 1⟩ : Tensor1 ℝ).scale ((ze - zb) * P.small_number_geometry))).sub q)
        = (ze - zb) * P.small_number_geometry := by
    intro q
    simp only [Tensor1.sub, Tensor1.scale, zero_mul, sub_zero, sub_self, one_mul,
      sub_sub_cancel_left, norm_vertical, abs_neg]
    exact abs_of_pos hstep
  have haccf : ∀ j : Nat, march_accepts realMath P dh cell ⟨x, y, z0⟩ ⟨x, y, ze⟩
      ((fun p : Tensor1 ℝ => p.add ((⟨0, 0, 1⟩ : Tensor1 ℝ).scale
        ((ze - zb) * P.small_number_geometry)))^[j] ⟨x, y, z0⟩) =
      decide ((j : ℝ) * ((ze - zb) * P.small_number_geometry) ≤
        min (hi.c2 + P.small_number_geometry * dh.diameter cell - z0) (ze - z0)) := by
    intro j
    have hj : (0 : ℝ) ≤ j * ((ze - zb) * P.small_number_geometry) := by positivity
    rw [iterate_add_vertical, march_accepts,
      point_inside_cell_box_vertical P dh cell lo hi hbox x y _ hx hy heps0 heps,
      distance_vertical, distance_vertical, Bool.eq_iff_iff]
    have e1 : |z0 - (z0 + j * ((ze - zb) * P.small_number_geometry))|
        = j * ((ze - zb) * P.small_number_geometry) := by
      rw [show z0 - (z0 + j * ((ze - zb) * P.small_number_geometry))
        = -(j * ((ze - zb) * P.small_number_geometry)) by ring, abs_neg, abs_of_nonneg hj]
    have e2 : |z0 - ze| = ze - z0 := by
      rw [abs_sub_comm, abs_of_nonneg (by linarith)]
    simp only [e1, e2, Bool.and_eq_true, Bool.not_eq_true', decide_eq_true_eq,
      decide_eq_false_iff_not, not_lt, gt_iff_lt, le_min_iff]
    constructor
    · rintro ⟨⟨h1, h2⟩, h3⟩
      exact ⟨by linarith, h3⟩
    · rintro ⟨h1, h2⟩
      exact ⟨⟨by linarith, by linarith⟩, h2⟩
  have haccb : ∀ j : Nat, march_accepts realMath P dh cell ⟨x, y, z0⟩ ⟨x, y, zb⟩
      ((fun p : Tensor1 ℝ => p.sub ((⟨0, 0, 1⟩ : Tensor1 ℝ).scale
        ((ze - zb) * P.small_number_geometry)))^[j] ⟨x, y, z0⟩) =
      decide ((j : ℝ) * ((ze - zb) * P.small_number_geometry) ≤
        min (z0 - lo.c2 + P.small_number_geometry * dh.diameter cell) (z0 - zb)) := by
    intro j
    have hj : (0 : ℝ) ≤ j * ((ze - zb) * P.small_number_geometry) := by positivity
    rw [iterate_sub_vertical, march_accepts,
      point_inside_cell_box_vertical P dh cell lo hi hbox x y _ hx hy heps0 heps,
      distance_vertical, distance_vertical, Bool.eq_iff_iff]
    have e1 : |z0 - (z0 - j * ((ze - zb) * P.small_number_geometry))|
        = j * ((ze - zb) * P.small_number_geometry) := by
      rw [show z0 - (z0 - j * ((ze - zb) * P.small_number_geometry))
        = j * ((ze - zb) * P.small_number_geometry) by ring, abs_of_nonneg hj]
    have e2 : |z0 - zb| = z0 - zb := abs_of_nonneg (by linarith)
    simp only [e1, e2, Bool.and_eq_true, Bool.not_eq_true', decide_eq_true_eq,
      decide_eq_false_iff_not, not_lt, gt_iff_lt, le_min_iff]
    constructor
    · rintro ⟨⟨h1, h2⟩, h3⟩
      exact ⟨by linarith, h3⟩
    · rintro ⟨h1, h2⟩
      exact ⟨⟨by linarith, by linarith⟩, h2⟩
  have hBf : 0 ≤ min (hi.c2 + P.small_number_geometry * dh.diameter cell - z0) (ze - z0) :=
    le_min (by linarith) (by linarith)
  have hBb : 0 ≤ min (z0 - lo.c2 + P.small_number_geometry * dh.diameter cell) (z0 - zb) :=
    le_min (by linarith) (by linarith)
  have hzero : Tensor1.norm realMath ((⟨x, y, z0⟩ : Tensor1 ℝ).sub ⟨x, y, z0⟩) = 0 := by
    simp [Tensor1.sub, norm_vertical]
  unfold get_segment_length
  simp only [vertical_tangent_unchanged, hd]
  rw [march_threshold realMath P dh cell ⟨x, y, z0⟩ ⟨x, y, ze⟩ _ _ _ _ hsf hstep hBf fuel 0
    ⟨x, y, z0⟩ ⟨x, y, z0⟩ haccf
    (hfuel' _ (le_trans (min_le_right _ _) (by linarith)))]
  simp only [bind, Except.bind]
  rw [march_threshold realMath P dh cell ⟨x, y, z0⟩ ⟨x, y, zb⟩ _ _ _ _ hsb hstep hBb fuel _
    ⟨x, y, z0⟩ ⟨x, y, z0⟩ haccb
    (hfuel' _ (le_trans (min_le_right _ _) (by linarith)))]
  rw [hzero]
  congr 1
  ring

end VerticalMarchTheorems3

section VerticalSegmentTheorems

open Real

variable {C : Type} [DecidableEq C]

theorem marched_length_bounds (step up down : ℝ) (hstep : 0 < step) (hup : 0 ≤ up)
    (hdown : 0 ≤ down) :
    up + down - 2 * step < marched_length step up down ∧
      marched_length step up down ≤ up + down := by
  have h1 := Nat.floor_le (div_nonneg hup hstep.le)
  have h2 := Nat.lt_floor_add_one (up / step)
  have h3 := Nat.floor_le (div_nonneg hdown hstep.le)
  have h4 := Nat.lt_floor_add_one (down / step)
  rw [le_div_iff₀ hstep] at h1 h3
  rw [div_lt_iff₀ hstep] at h2 h4
  unfold marched_length
  constructor <;> nlinarith

/-- The body of the segment loop of `locate` for a segment along the third
axis from height `zb` to height `ze` and a cell that is a box containing the
first two coordinates of the segment, whose centre lies at a height of the
segment: the start point is the point `d` at the height of the centre, and the
cell is either skipped by the face loop or merged with the marched length. -/
theorem locate_segment_vertical (P : DefaultValues ℝ) (normalize : Tensor1 ℝ → Tensor1 ℝ)
    (fuel : Nat) (dh : DoFHandler C ℝ) (cell : C) (lo hi : Tensor1 ℝ)
    (hbox : ∀ p, dh.point_inside cell p = box_contains lo hi p)
    (x y zb ze : ℝ) (s : Wellbore C ℝ × Tensor1 ℝ)
    (hx : lo.c0 ≤ x ∧ x ≤ hi.c0) (hy : lo.c1 ≤ y ∧ y ≤ hi.c1)
    (hsng : 0 < P.small_number_geometry)
    (heps0 : 0 ≤ P.small_number_geometry * dh.diameter cell)
    (heps : 2 * (P.small_number_geometry * dh.diameter cell) ≤ hi.c2 - lo.c2)
    (hseg : zb < ze)
    (hcz : zb ≤ (dh.center cell).c2 ∧ (dh.center cell).c2 ≤ ze)
    (hcin : lo.c2 - P.small_number_geometry * dh.diameter cell ≤ (dh.center cell).c2 ∧
      (dh.center cell).c2 ≤ hi.c2 + P.small_number_geometry * dh.diameter cell)
    (hfuel : ⌊1 / P.small_number_geometry⌋₊ + 2 ≤ fuel) :
    locate_segment realMath P normalize fuel dh cell ⟨x, y, zb⟩ ⟨x, y, ze⟩ s =
      if face_loop realMath P normalize dh cell
          ⟨x - (dh.center cell).c0, y - (dh.center cell).c1, 0⟩ ⟨x, y, (dh.center cell).c2⟩
          (P.small_number * dh.diameter cell) (List.range 6) false = true
      then .ok (s.1, ⟨x, y, (dh.center cell).c2⟩)
      else (merge_binding s.1 cell
          (marched_length ((ze - zb) * P.small_number_geometry)
            (min (hi.c2 + P.small_number_geometry * dh.diameter cell - (dh.center cell).c2)
              (ze - (dh.center cell).c2))
            (min ((dh.center cell).c2 - lo.c2 + P.small_number_geometry * dh.diameter cell)
              ((dh.center cell).c2 - zb))) ⟨0, 0, 1⟩).bind
        (fun st => .ok (st, ⟨x, y, (dh.center cell).c2⟩)) := by
  have hlen : Tensor1.norm realMath ((⟨x, y, ze⟩ : Tensor1 ℝ).sub ⟨x, y, zb⟩) = ze - zb := by
    simp only [Tensor1.sub, sub_self, norm_vertical]
    exact abs_of_pos (by linarith)
  have hne : ze - zb ≠ 0 := by linarith
  have ha : ((⟨x, y, ze⟩ : Tensor1 ℝ).sub ⟨x, y, zb⟩).div (ze - zb) = ⟨0, 0, 1⟩ := by
    simp [Tensor1.sub, Tensor1.div, hne]
  have htd : scalar_product ((dh.center cell).sub ⟨x, y, zb⟩) (⟨0, 0, 1⟩ : Tensor1 ℝ)
      = (dh.center cell).c2 - zb := by
    simp [scalar_product, Tensor1.sub]
  have hdp : (⟨x, y, zb⟩ : Tensor1 ℝ).add
      ((⟨0, 0, 1⟩ : Tensor1 ℝ).scale ((dh.center cell).c2 - zb))
      = ⟨x, y, (dh.center cell).c2⟩ := by
    simp [Tensor1.add, Tensor1.scale]
  have hn : (⟨x, y, (dh.center cell).c2⟩ : Tensor1 ℝ).sub (dh.center cell)
      = ⟨x - (dh.center cell).c0, y - (dh.center cell).c1, 0⟩ := by
    simp [Tensor1.sub]
  have hinside : point_inside_cell P dh cell ⟨x, y, (dh.center cell).c2⟩ = true := by
    rw [point_inside_cell_box_vertical P dh cell lo hi hbox x y _ hx hy heps0 heps]
    simpa using hcin
  have hrange1 : ¬ ((dh.center cell).c2 - zb < 0) := by linarith [hcz.1]
  have hrange2 : ¬ ((dh.center cell).c2 - zb > ze - zb) := by linarith [hcz.2]
  have hrange3 : (dh.center cell).c2 - zb ≥ 0 := by linarith [hcz.1]
  have hrange4 : (dh.center cell).c2 - zb ≤ ze - zb := by linarith [hcz.2]
  unfold locate_segment
  simp only [hlen, ha, htd, hdp, hn, hinside, Bool.not_true, Bool.false_eq_true, if_false,
    hrange1, hrange2, hrange3, hrange4, decide_False, decide_True, Bool.or_false, Bool.false_and,
    Bool.true_and, if_true]
  split
  · rfl
  · rw [get_segment_length_vertical P fuel dh cell lo hi hbox x y zb ze (dh.center cell).c2
      hx hy hsng heps0 heps hseg hcz hcin hfuel]
    rfl

end VerticalSegmentTheorems

/-! ## A segment in the face shared by two cells (C14, C15) -/

section SharedFaceTheorems

open Real

theorem sqrt_three_bounds : (1 : ℝ) ≤ √3 ∧ √3 ≤ 2 := by
  constructor
  · exact Real.one_le_sqrt.2 (by norm_num)
  · rw [Real.sqrt_le_left (by norm_num)]
    norm_num

theorem norm_planar (a b c : ℝ) (hc : 0 ≤ c) (h : a * a + b * b = c * c) :
    Tensor1.norm realMath { c0 := a, c1 := b, c2 := 0 } = c := by
  simp only [Tensor1.norm, realMath, mul_zero, add_zero, h]
  exact Real.sqrt_mul_self hc

/-- The marched length of a segment of length 8 through a cube of size 8, from
its middle: 500000 steps of length `8/1000000` each way. -/
theorem two_box_marched_length (eps : ℝ) (heps : 0 ≤ eps) :
    marched_length ((8 - 0) * scenario_defaults.small_number_geometry)
      (min (8 + eps - 4) (8 - 4)) (min (4 - 0 + eps) (4 - 0)) = 8 := by
  have h1 : min (8 + eps - 4) ((8 : ℝ) - 4) = 4 := by
    rw [min_eq_right (by linarith)]
    norm_num
  have h2 : min (4 - 0 + eps) ((4 : ℝ) - 0) = 4 := by
    rw [min_eq_right (by linarith)]
    norm_num
  have h3 : (4 : ℝ) / ((8 - 0) * scenario_defaults.small_number_geometry)
      = ((500000 : Nat) : ℝ) := by
    simp only [scenario_defaults]
    norm_num
  rw [h1, h2]
  unfold marched_length
  rw [h3, Nat.floor_natCast]
  simp only [scenario_defaults]
  norm_num

end SharedFaceTheorems

section SharedFaceTheorems2

open Real

theorem scenario_floor_fuel : ⌊1 / scenario_defaults.small_number_geometry⌋₊ = 1000000 := by
  have h : (1 : ℝ) / scenario_defaults.small_number_geometry = ((1000000 : Nat) : ℝ) := by
    simp only [scenario_defaults]
    norm_num
  rw [h, Nat.floor_natCast]

theorem two_box_eps_bounds :
    0 ≤ scenario_defaults.small_number_geometry * (8 * √3) ∧
      2 * (scenario_defaults.small_number_geometry * (8 * √3)) ≤ 8 ∧
      0 ≤ scenario_defaults.small_number * (8 * √3) := by
  have h := sqrt_three_bounds
  simp only [scenario_defaults]
  refine ⟨by positivity, ?_, by positivity⟩
  nlinarith [h.1, h.2]

/-- The body of the segment loop for a cell of the two-cell mesh and the
segment of `face_well y`. -/
theorem two_box_locate_segment (fuel : Nat) (hfuel : 1000002 ≤ fuel) (c : Nat)
    (hc : c = 0 ∨ c = 1) (y : ℝ) (hy : 0 ≤ y ∧ y ≤ 8) (s : Wellbore Nat ℝ × Tensor1 ℝ) :
    locate_segment realMath scenario_defaults Math_normalize fuel two_box_dof_handler c
        ⟨8, y, 0⟩ ⟨8, y, 8⟩ s =
      if face_loop realMath scenario_defaults Math_normalize two_box_dof_handler c
          ⟨8 - (two_box_dof_handler.center c).c0, y - 4, 0⟩ ⟨8, y, 4⟩
          (scenario_defaults.small_number * (8 * √3)) (List.range 6) false = true
      then .ok (s.1, ⟨8, y, 4⟩)
      else (merge_binding s.1 c 8 ⟨0, 0, 1⟩).bind (fun st => .ok (st, ⟨8, y, 4⟩)) := by
  have hb := two_box_eps_bounds
  have hx : (two_box_lo c).c0 ≤ 8 ∧ (8 : ℝ) ≤ (two_box_hi c).c0 := by
    rcases hc with rfl | rfl <;> norm_num [two_box_lo, two_box_hi]
  have h := locate_segment_vertical scenario_defaults Math_normalize fuel two_box_dof_handler c
    (two_box_lo c) (two_box_hi c) (fun p => rfl) 8 y 0 8 s hx
    (by simpa [two_box_lo, two_box_hi] using hy)
    (by simp only [scenario_defaults]; norm_num)
    hb.1 (by simpa [two_box_lo, two_box_hi, two_box_dof_handler] using hb.2.1)
    (by norm_num)
    (by simp only [two_box_dof_handler]; norm_num)
    (by
      simp only [two_box_dof_handler, two_box_lo, two_box_hi]
      constructor <;> linarith [hb.1])
    (by rw [scenario_floor_fuel]; exact hfuel)
  rw [h]
  have hcz : (two_box_dof_handler.center c).c2 = 4 := rfl
  have hc1 : (two_box_dof_handler.center c).c1 = 4 := rfl
  have hdiam : two_box_dof_handler.diameter c = 8 * √3 := rfl
  have hlo : (two_box_lo c).c2 = 0 := rfl
  have hhi : (two_box_hi c).c2 = 8 := rfl
  simp only [hcz, hc1, hdiam, hlo, hhi]
  rw [two_box_marched_length _ hb.1]

end SharedFaceTheorems2

section SharedFaceTheorems3

open Real

/-- The face loop for the cell 0 of the two-cell mesh: only the face 1, towards
the cell 1, is not at the boundary. -/
theorem two_box_face_loop_zero (n d : Tensor1 ℝ) (eps : ℝ) :
    face_loop realMath scenario_defaults Math_normalize two_box_dof_handler 0 n d eps
        (List.range 6) false =
      (aligned_with_face realMath scenario_defaults Math_normalize n ⟨1, 0, 0⟩ &&
        !neighbor_is_farther realMath n ((⟨12, 4, 4⟩ : Tensor1 ℝ).sub d) 0 1 eps) := by
  simp [List.range, List.range.loop, face_loop, two_box_dof_handler, box_face_normal]

/-- The face loop for the cell 1 of the two-cell mesh: only the face 0, towards
the cell 0, is not at the boundary. -/
theorem two_box_face_loop_one (n d : Tensor1 ℝ) (eps : ℝ) :
    face_loop realMath scenario_defaults Math_normalize two_box_dof_handler 1 n d eps
        (List.range 6) false =
      (aligned_with_face realMath scenario_defaults Math_normalize n ⟨-1, 0, 0⟩ &&
        !neighbor_is_farther realMath n ((⟨4, 4, 4⟩ : Tensor1 ℝ).sub d) 1 0 eps) := by
  simp [List.range, List.range.loop, face_loop, two_box_dof_handler, box_face_normal]

end SharedFaceTheorems3

section SharedFaceTheorems4

open Real

theorem aligned_with_face_planar (a b c σ : ℝ) (hc : 0 < c) (h : a * a + b * b = c * c) :
    aligned_with_face realMath scenario_defaults Math_normalize ⟨a, b, 0⟩ ⟨σ, 0, 0⟩ =
      decide (|a / c * σ| > 999 / 1000) := by
  have hn : Tensor1.norm realMath (⟨a, b, 0⟩ : Tensor1 ℝ) = c := norm_planar a b c hc.le h
  have hn1 : Tensor1.norm realMath (⟨a / c, b / c, 0⟩ : Tensor1 ℝ) = 1 := by
    apply norm_planar _ _ 1 (by norm_num)
    field_simp
    linarith
  unfold aligned_with_face Math_normalize
  rw [hn]
  simp only [Tensor1.div, zero_div, hn1, scalar_product, mul_zero, add_zero, div_one,
    scenario_defaults]

/-- When both distances are equal and the tolerance is not negative,
`neighbor_is_farther` is decided by the indices: it holds exactly when the
index of the neighbour is the larger one. -/
theorem neighbor_is_farther_tie (u v : Tensor1 ℝ) (i j : Nat) (eps : ℝ) (heps : 0 ≤ eps)
    (h : Tensor1.norm realMath u = Tensor1.norm realMath v) :
    neighbor_is_farther realMath u v i j eps = decide (j > i) := by
  unfold neighbor_is_farther
  have h1 : Tensor1.norm realMath u ≤ Tensor1.norm realMath v + eps := by linarith
  have h2 : Tensor1.norm realMath u + eps ≥ Tensor1.norm realMath v := by linarith
  simp only [h1, h2, decide_True, Bool.not_true, Bool.and_false, Bool.false_eq_true, if_false,
    Bool.and_self, if_true]
  by_cases hij : j > i <;> simp [hij]

end SharedFaceTheorems4

section SharedFaceTheorems5

open Real

/-- Segment through the centre of the shared face: the cell 0, of lower index,
is not skipped. -/
theorem two_box_centred_skip_zero :
    face_loop realMath scenario_defaults Math_normalize two_box_dof_handler 0
      ⟨8 - (two_box_dof_handler.center 0).c0, 4 - 4, 0⟩ ⟨8, 4, 4⟩
      (scenario_defaults.small_number * (8 * √3)) (List.range 6) false = false := by
  have hn : (⟨8 - (two_box_dof_handler.center 0).c0, 4 - 4, 0⟩ : Tensor1 ℝ) = ⟨4, 0, 0⟩ := by
    simp only [two_box_dof_handler, if_true, Tensor1.mk.injEq, and_true]
    norm_num
  have hv : (⟨12, 4, 4⟩ : Tensor1 ℝ).sub ⟨8, 4, 4⟩ = ⟨4, 0, 0⟩ := by
    simp only [Tensor1.sub, Tensor1.mk.injEq]
    norm_num
  rw [two_box_face_loop_zero, hn, hv,
    neighbor_is_farther_tie _ _ 0 1 _ two_box_eps_bounds.2.2 rfl]
  simp

/-- Segment through the centre of the shared face: the cell 1, of higher
index, is skipped. -/
theorem two_box_centred_skip_one :
    face_loop realMath scenario_defaults Math_normalize two_box_dof_handler 1
      ⟨8 - (two_box_dof_handler.center 1).c0, 4 - 4, 0⟩ ⟨8, 4, 4⟩
      (scenario_defaults.small_number * (8 * √3)) (List.range 6) false = true := by
  have hn : (⟨8 - (two_box_dof_handler.center 1).c0, 4 - 4, 0⟩ : Tensor1 ℝ) = ⟨-4, 0, 0⟩ := by
    simp only [two_box_dof_handler, Tensor1.mk.injEq, and_true]
    norm_num
  have hv : (⟨4, 4, 4⟩ : Tensor1 ℝ).sub ⟨8, 4, 4⟩ = ⟨-4, 0, 0⟩ := by
    simp only [Tensor1.sub, Tensor1.mk.injEq]
    norm_num
  rw [two_box_face_loop_one, hn, hv,
    neighbor_is_farther_tie _ _ 1 0 _ two_box_eps_bounds.2.2 rfl,
    aligned_with_face_planar (-4) 0 4 (-1) (by norm_num) (by norm_num)]
  simp only [gt_iff_lt, Nat.not_lt_zero, decide_False, Bool.not_false, Bool.and_true,
    decide_eq_true_eq]
  norm_num

/-- Segment in the shared face at distance 3 from its centre: neither cell is
skipped, the vector from the cell centre to the well not being parallel to the
normal of the face. -/
theorem two_box_offset_skip (c : Nat) (hc : c = 0 ∨ c = 1) :
    face_loop realMath scenario_defaults Math_normalize two_box_dof_handler c
      ⟨8 - (two_box_dof_handler.center c).c0, 7 - 4, 0⟩ ⟨8, 7, 4⟩
      (scenario_defaults.small_number * (8 * √3)) (List.range 6) false = false := by
  rcases hc with rfl | rfl
  · have hn : (⟨8 - (two_box_dof_handler.center 0).c0, 7 - 4, 0⟩ : Tensor1 ℝ) = ⟨4, 3, 0⟩ := by
      simp only [two_box_dof_handler, if_true, Tensor1.mk.injEq, and_true]
      norm_num
    rw [two_box_face_loop_zero, hn,
      aligned_with_face_planar 4 3 5 1 (by norm_num) (by norm_num)]
    simp only [Bool.and_eq_false_imp, decide_eq_true_eq]
    intro h
    norm_num [abs_of_pos] at h
  · have hn : (⟨8 - (two_box_dof_handler.center 1).c0, 7 - 4, 0⟩ : Tensor1 ℝ) = ⟨-4, 3, 0⟩ := by
      simp only [two_box_dof_handler, Tensor1.mk.injEq, and_true]
      norm_num
    rw [two_box_face_loop_one, hn,
      aligned_with_face_planar (-4) 3 5 (-1) (by norm_num) (by norm_num)]
    simp only [Bool.and_eq_false_imp, decide_eq_true_eq]
    intro h
    norm_num [abs_of_pos] at h

end SharedFaceTheorems5

section SharedFaceTheorems6

open Real

theorem locate_face_well_centred (fuel : Nat) (hfuel : 1000002 ≤ fuel) :
    locate realMath scenario_defaults Math_normalize fuel two_box_dof_handler (face_well 4)
      = .ok face_well_centred_located := by
  have hcells : two_box_dof_handler.active_cells = [0, 1] := rfl
  have h0 := two_box_locate_segment fuel hfuel 0 (Or.inl rfl) 4 (by norm_num)
  have h1 := two_box_locate_segment fuel hfuel 1 (Or.inr rfl) 4 (by norm_num)
  simp only [two_box_centred_skip_zero, Bool.false_eq_true, if_false] at h0
  simp only [two_box_centred_skip_one, if_true] at h1
  unfold locate
  simp only [hcells, cell_loop, face_well, List.not_mem_nil, if_false, segments, List.tail_cons,
    List.zip_cons_cons, List.zip_nil_right, segment_loop, h0, h1, bind, Except.bind, pure,
    Except.pure, merge_binding, find_cell, find_cell_from, if_true, List.nil_append,
    List.mem_singleton, OfNat.one_ne_ofNat, one_ne_zero]
  rfl

theorem locate_face_well_offset (fuel : Nat) (hfuel : 1000002 ≤ fuel) :
    locate realMath scenario_defaults Math_normalize fuel two_box_dof_handler (face_well 7)
      = .ok face_well_offset_located := by
  have hcells : two_box_dof_handler.active_cells = [0, 1] := rfl
  have h0 := two_box_locate_segment fuel hfuel 0 (Or.inl rfl) 7 (by norm_num)
  have h1 := two_box_locate_segment fuel hfuel 1 (Or.inr rfl) 7 (by norm_num)
  simp only [two_box_offset_skip 0 (Or.inl rfl), Bool.false_eq_true, if_false] at h0
  simp only [two_box_offset_skip 1 (Or.inr rfl), Bool.false_eq_true, if_false] at h1
  unfold locate
  simp only [hcells, cell_loop, face_well, List.not_mem_nil, if_false, segments, List.tail_cons,
    List.zip_cons_cons, List.zip_nil_right, segment_loop, h0, h1, bind, Except.bind, pure,
    Except.pure, merge_binding, find_cell, find_cell_from, if_true, List.nil_append,
    List.mem_singleton, OfNat.one_ne_ofNat, one_ne_zero]
  rfl

end SharedFaceTheorems6

/-! ## The face loop and the tie-break (C15) -/

section TieBreakTheorems

variable {C F : Type} [DecidableEq C] [LinearOrderedField F] [FloorRing F]

theorem subface_loop_true (M : MathFns F) (P : DefaultValues F)
    (normalize : Tensor1 F → Tensor1 F) (dh : DoFHandler C F) (cell : C) (n d : Tensor1 F)
    (eps : F) (f : Nat) (subfaces : List Nat) :
    subface_loop M P normalize dh cell n d eps f subfaces true = true := by
  induction subfaces with
  | nil => rfl
  | cons sf rest ih =>
    unfold subface_loop
    simp only [ih, ite_self]

theorem face_loop_true (M : MathFns F) (P : DefaultValues F)
    (normalize : Tensor1 F → Tensor1 F) (dh : DoFHandler C F) (cell : C) (n d : Tensor1 F)
    (eps : F) (faces : List Nat) :
    face_loop M P normalize dh cell n d eps faces true = true := by
  induction faces with
  | nil => rfl
  | cons f rest ih =>
    unfold face_loop
    simp only [ih, subface_loop_true, ite_self]

/-- A face that is not at the boundary, whose neighbour has the same level and
no children or is coarser, that is aligned with the well and whose neighbour
is not farther, makes the face loop set `skip_cell`. -/
theorem face_loop_of_trigger (M : MathFns F) (P : DefaultValues F)
    (normalize : Tensor1 F → Tensor1 F) (dh : DoFHandler C F) (cell : C) (n d : Tensor1 F)
    (eps : F) (faces : List Nat) (skip : Bool) (f : Nat) (hf : f ∈ faces)
    (hb : dh.at_boundary cell f = false)
    (hbranch : (dh.neighbor_level_equal cell f && (dh.neighbor_has_children cell f == false)
      || dh.neighbor_is_coarser cell f) = true)
    (hal : aligned_with_face M P normalize n (dh.face_normal cell f) = true)
    (hfar : neighbor_is_farther M n ((dh.center (dh.neighbor cell f)).sub d)
      (dh.active_cell_index cell) (dh.active_cell_index (dh.neighbor cell f)) eps = false) :
    face_loop M P normalize dh cell n d eps faces skip = true := by
  induction faces generalizing skip with
  | nil => simp at hf
  | cons g rest ih =>
    unfold face_loop
    by_cases hgf : g = f
    · subst hgf
      have hnb : (!dh.at_boundary cell g) = true := by rw [hb]; rfl
      rw [if_pos hnb, if_pos hbranch]
      simp only [hal, hfar, Bool.not_false, Bool.and_self, if_true]
    · have hmem : f ∈ rest := by
        rcases List.mem_cons.1 hf with h | h
        · exact absurd h.symm hgf
        · exact h
      simp only [ih _ hmem, ite_self]

/-- When every face of the list is at the boundary, or has a neighbour of the
same level without children (or a coarser one) and is not aligned with the
well or has a farther neighbour, the face loop leaves `skip_cell` unset. -/
theorem face_loop_of_no_trigger (M : MathFns F) (P : DefaultValues F)
    (normalize : Tensor1 F → Tensor1 F) (dh : DoFHandler C F) (cell : C) (n d : Tensor1 F)
    (eps : F) (faces : List Nat)
    (h : ∀ f ∈ faces, dh.at_boundary cell f = true ∨
      ((dh.neighbor_level_equal cell f && (dh.neighbor_has_children cell f == false)
          || dh.neighbor_is_coarser cell f) = true ∧
        (aligned_with_face M P normalize n (dh.face_normal cell f) = false ∨
          neighbor_is_farther M n ((dh.center (dh.neighbor cell f)).sub d)
            (dh.active_cell_index cell) (dh.active_cell_index (dh.neighbor cell f)) eps
              = true))) :
    face_loop M P normalize dh cell n d eps faces false = false := by
  induction faces with
  | nil => rfl
  | cons f rest ih =>
    have ih' := ih (fun g hg => h g (List.mem_cons_of_mem _ hg))
    unfold face_loop
    cases hbd : dh.at_boundary cell f with
    | true =>
      rw [if_neg (by simp)]
      exact ih'
    | false =>
      rcases h f (List.mem_cons_self _ _) with hb | ⟨hbranch, hal | hfar⟩
      · rw [hbd] at hb
        cases hb
      · rw [if_pos (by simp), if_pos hbranch]
        simp only [hal, Bool.false_and, Bool.false_eq_true, if_false]
        exact ih'
      · rw [if_pos (by simp), if_pos hbranch]
        simp only [hfar, Bool.not_true, Bool.and_false, Bool.false_eq_true, if_false]
        exact ih'

/-- Within the tolerance, equal distances make `neighbor_is_farther` compare
the indices. -/
theorem neighbor_is_farther_of_tie (M : MathFns F) (u v : Tensor1 F) (i j : Nat) (eps : F)
    (h1 : Tensor1.norm M u ≤ Tensor1.norm M v + eps)
    (h2 : Tensor1.norm M u + eps ≥ Tensor1.norm M v) :
    neighbor_is_farther M u v i j eps = decide (j > i) := by
  unfold neighbor_is_farther
  simp only [h1, h2, decide_True, Bool.not_true, Bool.and_false, Bool.false_eq_true, if_false,
    Bool.and_self, if_true]
  by_cases hij : j > i <;> simp [hij]

end TieBreakTheorems

section TieBreakTheorems2

variable {C F : Type} [DecidableEq C] [LinearOrderedField F] [FloorRing F]

/-- A cell for which the face loop sets `skip_cell` is not bound by the
segment: the binding of the well is unchanged. -/
theorem locate_segment_of_skip (M : MathFns F) (P : DefaultValues F)
    (normalize : Tensor1 F → Tensor1 F) (fuel : Nat) (dh : DoFHandler C F) (cell : C)
    (x0 x1 : Tensor1 F) (s : Wellbore C F × Tensor1 F)
    (hskip : face_loop M P normalize dh cell (cell_to_wellbore M dh cell x0 x1)
      (closest_point M dh cell x0 x1) (P.small_number * dh.diameter cell) (List.range 6) false
        = true) :
    ∃ start', locate_segment M P normalize fuel dh cell x0 x1 s = .ok (s.1, start') := by
  simp only [cell_to_wellbore, closest_point, segment_tangent] at hskip
  unfold locate_segment
  simp only [hskip, if_true]
  split
  · exact ⟨s.2, rfl⟩
  · split
    · exact ⟨s.2, rfl⟩
    · exact ⟨_, rfl⟩

/-- A cell that passes the containment and range checks, that the face loop
does not skip and that is not bound yet, is bound by the segment: it is
appended with the length returned by `get_segment_length` and the tangent of
the segment. -/
theorem locate_segment_of_no_skip (M : MathFns F) (P : DefaultValues F)
    (normalize : Tensor1 F → Tensor1 F) (fuel : Nat) (dh : DoFHandler C F) (cell : C)
    (x0 x1 : Tensor1 F) (s : Wellbore C F × Tensor1 F) (l : F)
    (hd : point_inside_cell P dh cell (closest_point M dh cell x0 x1) = true)
    (hrange : ((decide (closest_parameter M dh cell x0 x1 < 0) ||
        decide (closest_parameter M dh cell x0 x1 > Tensor1.norm M (x1.sub x0))) &&
        !(dh.point_inside cell x0 || dh.point_inside cell x1)) = false)
    (hskip : face_loop M P normalize dh cell (cell_to_wellbore M dh cell x0 x1)
      (closest_point M dh cell x0 x1) (P.small_number * dh.diameter cell) (List.range 6) false
        = false)
    (hl : get_segment_length M P fuel dh (start_point M dh cell x0 x1 s.2) cell
      (segment_tangent M x0 x1) (x0, x1) = .ok l)
    (hnew : cell ∉ s.1.cells) :
    locate_segment M P normalize fuel dh cell x0 x1 s = .ok
      ({ s.1 with cells := s.1.cells ++ [cell]
                  segment_length := s.1.segment_length ++ [l]
                  segment_direction := s.1.segment_direction ++ [segment_tangent M x0 x1] },
        start_point M dh cell x0 x1 s.2) := by
  simp only [cell_to_wellbore, closest_point, segment_tangent, closest_parameter,
    start_point] at hd hrange hskip hl
  have hfind : find_cell s.1 cell = -1 := (find_cell_eq_neg_one_iff s.1 cell).2 hnew
  unfold locate_segment
  simp only [hd, hrange, hskip, hl, Bool.not_true, Bool.false_eq_true, if_false, bind,
    Except.bind, pure, Except.pure, merge_binding, hfind, if_true]
  rfl

end TieBreakTheorems2

section TieBreakTheorems3

variable {C F : Type} [DecidableEq C] [LinearOrderedField F] [FloorRing F]

/-- C15 amended: let the face `f` of the cell `hi` lead to the cell `lo` and
the face `g` of `lo` lead to `hi` (neighbours of the same level without
children, or coarser), let `lo` have the lower active cell index, let the
vector from the centre of `hi` to the well be aligned with the face `f`, and
let each cell and its neighbour be equally close to the well within the
distance tolerance. Then the cell `hi`, of higher index, is skipped for the
segment (the binding is unchanged), and the cell `lo`, of lower index, is the
one that is bound, provided that it passes the containment and range checks,
that no other face of it sets `skip_cell`, that it is not bound yet and that
`get_segment_length` returns. -/
theorem tie_break_binds_lower_index (M : MathFns F) (P : DefaultValues F)
    (normalize : Tensor1 F → Tensor1 F) (fuel : Nat) (dh : DoFHandler C F) (lo hi : C)
    (f g : Nat) (x0 x1 : Tensor1 F) (s : Wellbore C F × Tensor1 F) (l : F)
    (hidx : dh.active_cell_index lo < dh.active_cell_index hi)
    (hf : f < 6) (hfb : dh.at_boundary hi f = false)
    (hfbranch : (dh.neighbor_level_equal hi f && (dh.neighbor_has_children hi f == false)
      || dh.neighbor_is_coarser hi f) = true)
    (hfn : dh.neighbor hi f = lo)
    (hal : aligned_with_face M P normalize (cell_to_wellbore M dh hi x0 x1)
      (dh.face_normal hi f) = true)
    (htie_hi : Tensor1.norm M (cell_to_wellbore M dh hi x0 x1) ≤
        Tensor1.norm M ((dh.center lo).sub (closest_point M dh hi x0 x1))
          + P.small_number * dh.diameter hi ∧
      Tensor1.norm M (cell_to_wellbore M dh hi x0 x1) + P.small_number * dh.diameter hi ≥
        Tensor1.norm M ((dh.center lo).sub (closest_point M dh hi x0 x1)))
    (hgbranch : (dh.neighbor_level_equal lo g && (dh.neighbor_has_children lo g == false)
      || dh.neighbor_is_coarser lo g) = true)
    (hgn : dh.neighbor lo g = hi)
    (htie_lo : Tensor1.norm M (cell_to_wellbore M dh lo x0 x1) ≤
        Tensor1.norm M ((dh.center hi).sub (closest_point M dh lo x0 x1))
          + P.small_number * dh.diameter lo ∧
      Tensor1.norm M (cell_to_wellbore M dh lo x0 x1) + P.small_number * dh.diameter lo ≥
        Tensor1.norm M ((dh.center hi).sub (closest_point M dh lo x0 x1)))
    (hothers : ∀ g', g' < 6 → g' ≠ g → dh.at_boundary lo g' = true ∨
      ((dh.neighbor_level_equal lo g' && (dh.neighbor_has_children lo g' == false)
          || dh.neighbor_is_coarser lo g') = true ∧
        (aligned_with_face M P normalize (cell_to_wellbore M dh lo x0 x1)
            (dh.face_normal lo g') = false ∨
          neighbor_is_farther M (cell_to_wellbore M dh lo x0 x1)
            ((dh.center (dh.neighbor lo g')).sub (closest_point M dh lo x0 x1))
            (dh.active_cell_index lo) (dh.active_cell_index (dh.neighbor lo g'))
            (P.small_number * dh.diameter lo) = true)))
    (hd : point_inside_cell P dh lo (closest_point M dh lo x0 x1) = true)
    (hrange : ((decide (closest_parameter M dh lo x0 x1 < 0) ||
        decide (closest_parameter M dh lo x0 x1 > Tensor1.norm M (x1.sub x0))) &&
        !(dh.point_inside lo x0 || dh.point_inside lo x1)) = false)
    (hl : get_segment_length M P fuel dh (start_point M dh lo x0 x1 s.2) lo
      (segment_tangent M x0 x1) (x0, x1) = .ok l)
    (hnew : lo ∉ s.1.cells) :
    (∃ start', locate_segment M P normalize fuel dh hi x0 x1 s = .ok (s.1, start')) ∧
      locate_segment M P normalize fuel dh lo x0 x1 s = .ok
        ({ s.1 with cells := s.1.cells ++ [lo]
                    segment_length := s.1.segment_length ++ [l]
                    segment_direction := s.1.segment_direction ++ [segment_tangent M x0 x1] },
          start_point M dh lo x0 x1 s.2) := by
  constructor
  · apply locate_segment_of_skip
    apply face_loop_of_trigger M P normalize dh hi _ _ _ (List.range 6) false f
      (List.mem_range.2 hf) hfb hfbranch hal
    rw [hfn, neighbor_is_farther_of_tie M _ _ _ _ _ htie_hi.1 htie_hi.2]
    simp only [gt_iff_lt, decide_eq_false_iff_not, not_lt]
    exact hidx.le
  · apply locate_segment_of_no_skip M P normalize fuel dh lo x0 x1 s l hd hrange _ hl hnew
    apply face_loop_of_no_trigger
    intro g' hg'
    by_cases hgg : g' = g
    · subst hgg
      right
      refine ⟨hgbranch, Or.inr ?_⟩
      rw [hgn, neighbor_is_farther_of_tie M _ _ _ _ _ htie_lo.1 htie_lo.2]
      simpa using hidx
    · exact hothers g' (List.mem_range.1 hg') hgg

end TieBreakTheorems3

section VerticalLocalsTheorems

open Real

variable {C : Type} [DecidableEq C]

theorem segment_tangent_vertical (x y zb ze : ℝ) (hseg : zb < ze) :
    segment_tangent realMath ⟨x, y, zb⟩ ⟨x, y, ze⟩ = ⟨0, 0, 1⟩ := by
  have hne : ze - zb ≠ 0 := by linarith
  have hlen : Tensor1.norm realMath ((⟨x, y, ze⟩ : Tensor1 ℝ).sub ⟨x, y, zb⟩) = ze - zb := by
    simp only [Tensor1.sub, sub_self, norm_vertical]
    exact abs_of_pos (by linarith)
  unfold segment_tangent
  rw [hlen]
  simp [Tensor1.sub, Tensor1.div, hne]

theorem segment_length_vertical (x y zb ze : ℝ) (hseg : zb < ze) :
    Tensor1.norm realMath ((⟨x, y, ze⟩ : Tensor1 ℝ).sub ⟨x, y, zb⟩) = ze - zb := by
  simp only [Tensor1.sub, sub_self, norm_vertical]
  exact abs_of_pos (by linarith)

theorem closest_parameter_vertical (dh : DoFHandler C ℝ) (cell : C) (x y zb ze : ℝ)
    (hseg : zb < ze) :
    closest_parameter realMath dh cell ⟨x, y, zb⟩ ⟨x, y, ze⟩ = (dh.center cell).c2 - zb := by
  unfold closest_parameter
  rw [segment_tangent_vertical x y zb ze hseg]
  simp [scalar_product, Tensor1.sub]

theorem closest_point_vertical (dh : DoFHandler C ℝ) (cell : C) (x y zb ze : ℝ)
    (hseg : zb < ze) :
    closest_point realMath dh cell ⟨x, y, zb⟩ ⟨x, y, ze⟩ = ⟨x, y, (dh.center cell).c2⟩ := by
  unfold closest_point
  rw [segment_tangent_vertical x y zb ze hseg]
  simp [scalar_product, Tensor1.sub, Tensor1.add, Tensor1.scale]

theorem cell_to_wellbore_vertical (dh : DoFHandler C ℝ) (cell : C) (x y zb ze : ℝ)
    (hseg : zb < ze) :
    cell_to_wellbore realMath dh cell ⟨x, y, zb⟩ ⟨x, y, ze⟩
      = ⟨x - (dh.center cell).c0, y - (dh.center cell).c1, 0⟩ := by
  unfold cell_to_wellbore
  rw [closest_point_vertical dh cell x y zb ze hseg]
  simp [Tensor1.sub]

theorem start_point_vertical (dh : DoFHandler C ℝ) (cell : C) (x y zb ze : ℝ)
    (hseg : zb < ze) (hcz : zb ≤ (dh.center cell).c2 ∧ (dh.center cell).c2 ≤ ze)
    (start : Tensor1 ℝ) :
    start_point realMath dh cell ⟨x, y, zb⟩ ⟨x, y, ze⟩ start
      = ⟨x, y, (dh.center cell).c2⟩ := by
  unfold start_point
  rw [closest_parameter_vertical dh cell x y zb ze hseg,
    closest_point_vertical dh cell x y zb ze hseg, segment_length_vertical x y zb ze hseg]
  have h1 : (dh.center cell).c2 - zb ≥ 0 := by linarith [hcz.1]
  have h2 : (dh.center cell).c2 - zb ≤ ze - zb := by linarith [hcz.2]
  simp [h1, h2]

end VerticalLocalsTheorems

section SharedFaceClaims

open Real

theorem two_box_centred_distances :
    cell_to_wellbore realMath two_box_dof_handler 0 ⟨8, 4, 0⟩ ⟨8, 4, 8⟩ = ⟨4, 0, 0⟩ ∧
      cell_to_wellbore realMath two_box_dof_handler 1 ⟨8, 4, 0⟩ ⟨8, 4, 8⟩ = ⟨-4, 0, 0⟩ ∧
      closest_point realMath two_box_dof_handler 0 ⟨8, 4, 0⟩ ⟨8, 4, 8⟩ = ⟨8, 4, 4⟩ ∧
      closest_point realMath two_box_dof_handler 1 ⟨8, 4, 0⟩ ⟨8, 4, 8⟩ = ⟨8, 4, 4⟩ := by
  rw [cell_to_wellbore_vertical _ _ _ _ _ _ (by norm_num),
    cell_to_wellbore_vertical _ _ _ _ _ _ (by norm_num),
    closest_point_vertical _ _ _ _ _ _ (by norm_num),
    closest_point_vertical _ _ _ _ _ _ (by norm_num)]
  simp only [two_box_dof_handler, if_true, Tensor1.mk.injEq, and_true, true_and]
  norm_num

theorem norm_four : Tensor1.norm realMath (⟨4, 0, 0⟩ : Tensor1 ℝ) = 4 ∧
    Tensor1.norm realMath (⟨-4, 0, 0⟩ : Tensor1 ℝ) = 4 :=
  ⟨norm_planar 4 0 4 (by norm_num) (by norm_num),
    norm_planar (-4) 0 4 (by norm_num) (by norm_num)⟩

/-- C15 as stated fails: on the mesh of two equal cubes, for the segment from
`(8, 4, 0)` to `(8, 4, 8)`, which lies in the shared face and is at the same
distance 4 from both cell centres, `locate` binds the cell 0, of lower active
cell index, and skips the cell 1, of higher index. -/
theorem tie_break_higher_index_skipped :
    two_box_dof_handler.active_cell_index 0 < two_box_dof_handler.active_cell_index 1 ∧
      Tensor1.norm realMath (cell_to_wellbore realMath two_box_dof_handler 0
          ⟨8, 4, 0⟩ ⟨8, 4, 8⟩) = 4 ∧
      Tensor1.norm realMath (cell_to_wellbore realMath two_box_dof_handler 1
          ⟨8, 4, 0⟩ ⟨8, 4, 8⟩) = 4 ∧
      locate realMath scenario_defaults Math_normalize 1000002 two_box_dof_handler (face_well 4)
        = .ok face_well_centred_located ∧
      face_well_centred_located.cells = [0] := by
  refine ⟨by simp [two_box_dof_handler], ?_, ?_, locate_face_well_centred _ (le_refl _), rfl⟩
  · rw [two_box_centred_distances.1]
    exact norm_four.1
  · rw [two_box_centred_distances.2.1]
    exact norm_four.2

/-- C14 fails on the code: on the mesh of two equal cubes, the segment from
`(8, 7, 0)` to `(8, 7, 8)` lies in the shared face, at distance 3 from its
centre line and at the same distance 5 from both cell centres; `locate` binds
both cells, each with the whole length 8 of the segment. -/
theorem shared_face_offset_binds_both :
    Tensor1.norm realMath (cell_to_wellbore realMath two_box_dof_handler 0
        ⟨8, 7, 0⟩ ⟨8, 7, 8⟩) = 5 ∧
      Tensor1.norm realMath (cell_to_wellbore realMath two_box_dof_handler 1
        ⟨8, 7, 0⟩ ⟨8, 7, 8⟩) = 5 ∧
      locate realMath scenario_defaults Math_normalize 1000002 two_box_dof_handler (face_well 7)
        = .ok face_well_offset_located ∧
      face_well_offset_located.cells = [0, 1] ∧
      face_well_offset_located.segment_length = [8, 8] := by
  refine ⟨?_, ?_, locate_face_well_offset _ (le_refl _), rfl, rfl⟩
  · rw [cell_to_wellbore_vertical _ _ _ _ _ _ (by norm_num)]
    apply norm_planar _ _ 5 (by norm_num)
    simp only [two_box_dof_handler, if_true]
    norm_num
  · rw [cell_to_wellbore_vertical _ _ _ _ _ _ (by norm_num)]
    apply norm_planar _ _ 5 (by norm_num)
    simp only [two_box_dof_handler]
    norm_num

end SharedFaceClaims

section TieBreakWitness

open Real

theorem two_box_centred_aligned :
    aligned_with_face realMath scenario_defaults Math_normalize
      (cell_to_wellbore realMath two_box_dof_handler 1 ⟨8, 4, 0⟩ ⟨8, 4, 8⟩)
      (two_box_dof_handler.face_normal 1 0) = true := by
  rw [two_box_centred_distances.2.1]
  have hnf : two_box_dof_handler.face_normal 1 0 = ⟨-1, 0, 0⟩ := rfl
  rw [hnf, aligned_with_face_planar (-4) 0 4 (-1) (by norm_num) (by norm_num)]
  simp only [decide_eq_true_eq]
  norm_num

theorem two_box_centred_tie_hi :
    Tensor1.norm realMath (cell_to_wellbore realMath two_box_dof_handler 1
        ⟨8, 4, 0⟩ ⟨8, 4, 8⟩) ≤
      Tensor1.norm realMath ((two_box_dof_handler.center 0).sub
        (closest_point realMath two_box_dof_handler 1 ⟨8, 4, 0⟩ ⟨8, 4, 8⟩))
        + scenario_defaults.small_number * two_box_dof_handler.diameter 1 ∧
    Tensor1.norm realMath (cell_to_wellbore realMath two_box_dof_handler 1
        ⟨8, 4, 0⟩ ⟨8, 4, 8⟩) + scenario_defaults.small_number * two_box_dof_handler.diameter 1 ≥
      Tensor1.norm realMath ((two_box_dof_handler.center 0).sub
        (closest_point realMath two_box_dof_handler 1 ⟨8, 4, 0⟩ ⟨8, 4, 8⟩)) := by
  have hv : (two_box_dof_handler.center 0).sub (⟨8, 4, 4⟩ : Tensor1 ℝ) = ⟨-4, 0, 0⟩ := by
    simp only [two_box_dof_handler, Tensor1.sub, if_true, Tensor1.mk.injEq]
    norm_num
  have heps : 0 ≤ scenario_defaults.small_number * two_box_dof_handler.diameter 1 :=
    two_box_eps_bounds.2.2
  rw [two_box_centred_distances.2.1, two_box_centred_distances.2.2.2, hv, norm_four.2]
  constructor <;> linarith

theorem two_box_centred_tie_lo :
    Tensor1.norm realMath (cell_to_wellbore realMath two_box_dof_handler 0
        ⟨8, 4, 0⟩ ⟨8, 4, 8⟩) ≤
      Tensor1.norm realMath ((two_box_dof_handler.center 1).sub
        (closest_point realMath two_box_dof_handler 0 ⟨8, 4, 0⟩ ⟨8, 4, 8⟩))
        + scenario_defaults.small_number * two_box_dof_handler.diameter 0 ∧
    Tensor1.norm realMath (cell_to_wellbore realMath two_box_dof_handler 0
        ⟨8, 4, 0⟩ ⟨8, 4, 8⟩) + scenario_defaults.small_number * two_box_dof_handler.diameter 0 ≥
      Tensor1.norm realMath ((two_box_dof_handler.center 1).sub
        (closest_point realMath two_box_dof_handler 0 ⟨8, 4, 0⟩ ⟨8, 4, 8⟩)) := by
  have hv : (two_box_dof_handler.center 1).sub (⟨8, 4, 4⟩ : Tensor1 ℝ) = ⟨4, 0, 0⟩ := by
    simp only [two_box_dof_handler, Tensor1.sub, Tensor1.mk.injEq]
    norm_num
  have heps : 0 ≤ scenario_defaults.small_number * two_box_dof_handler.diameter 0 :=
    two_box_eps_bounds.2.2
  rw [two_box_centred_distances.1, two_box_centred_distances.2.2.1, hv, norm_four.1]
  constructor <;> linarith

theorem two_box_centred_checks :
    point_inside_cell scenario_defaults two_box_dof_handler 0
        (closest_point realMath two_box_dof_handler 0 ⟨8, 4, 0⟩ ⟨8, 4, 8⟩) = true ∧
      ((decide (closest_parameter realMath two_box_dof_handler 0 ⟨8, 4, 0⟩ ⟨8, 4, 8⟩ < 0) ||
        decide (closest_parameter realMath two_box_dof_handler 0 ⟨8, 4, 0⟩ ⟨8, 4, 8⟩ >
          Tensor1.norm realMath ((⟨8, 4, 8⟩ : Tensor1 ℝ).sub ⟨8, 4, 0⟩))) &&
        !(two_box_dof_handler.point_inside 0 ⟨8, 4, 0⟩ ||
          two_box_dof_handler.point_inside 0 ⟨8, 4, 8⟩)) = false := by
  have hb := two_box_eps_bounds
  constructor
  · rw [two_box_centred_distances.2.2.1,
      point_inside_cell_box_vertical scenario_defaults two_box_dof_handler 0 (two_box_lo 0)
        (two_box_hi 0) (fun p => rfl) 8 4 4 (by norm_num [two_box_lo, two_box_hi])
        (by norm_num [two_box_lo, two_box_hi]) hb.1
        (by simpa [two_box_lo, two_box_hi, two_box_dof_handler] using hb.2.1)]
    simp only [decide_eq_true_eq, two_box_lo, two_box_hi]
    have h0 : 0 ≤ scenario_defaults.small_number_geometry * two_box_dof_handler.diameter 0 :=
      hb.1
    constructor <;> linarith
  · rw [closest_parameter_vertical _ _ _ _ _ _ (by norm_num),
      segment_length_vertical _ _ _ _ (by norm_num)]
    have hcz : (two_box_dof_handler.center 0).c2 = 4 := rfl
    rw [hcz]
    norm_num

theorem two_box_centred_length (start : Tensor1 ℝ) :
    get_segment_length realMath scenario_defaults 1000002 two_box_dof_handler
      (start_point realMath two_box_dof_handler 0 ⟨8, 4, 0⟩ ⟨8, 4, 8⟩ start) 0
      (segment_tangent realMath ⟨8, 4, 0⟩ ⟨8, 4, 8⟩) (⟨8, 4, 0⟩, ⟨8, 4, 8⟩) = .ok 8 := by
  have hb := two_box_eps_bounds
  have hcz : (two_box_dof_handler.center 0).c2 = 4 := rfl
  rw [start_point_vertical _ _ _ _ _ _ (by norm_num) (by rw [hcz]; norm_num),
    segment_tangent_vertical _ _ _ _ (by norm_num), hcz,
    get_segment_length_vertical scenario_defaults 1000002 two_box_dof_handler 0 (two_box_lo 0)
      (two_box_hi 0) (fun p => rfl) 8 4 0 8 4 (by norm_num [two_box_lo, two_box_hi])
      (by norm_num [two_box_lo, two_box_hi])
      (by simp only [scenario_defaults]; norm_num) hb.1
      (by simpa [two_box_lo, two_box_hi, two_box_dof_handler] using hb.2.1)
      (by norm_num) (by norm_num)
      (by
        have h0 : 0 ≤ scenario_defaults.small_number_geometry * two_box_dof_handler.diameter 0 :=
          hb.1
        simp only [two_box_lo, two_box_hi]
        constructor <;> linarith)
      (by rw [scenario_floor_fuel])]
  have hdiam : two_box_dof_handler.diameter 0 = 8 * √3 := rfl
  have hlo : (two_box_lo 0).c2 = 0 := rfl
  have hhi : (two_box_hi 0).c2 = 8 := rfl
  rw [hdiam, hlo, hhi]
  have := two_box_marched_length _ hb.1
  unfold marched_length at this
  rw [this]

theorem tie_break_binds_lower_index_witness :
    (∃ start', locate_segment realMath scenario_defaults Math_normalize 1000002
        two_box_dof_handler 1 ⟨8, 4, 0⟩ ⟨8, 4, 8⟩ (face_well 4, ⟨0, 0, 0⟩)
          = .ok (face_well 4, start')) ∧
      locate_segment realMath scenario_defaults Math_normalize 1000002 two_box_dof_handler 0
          ⟨8, 4, 0⟩ ⟨8, 4, 8⟩ (face_well 4, ⟨0, 0, 0⟩) = .ok
        ({ face_well 4 with
            cells := (face_well 4).cells ++ [0]
            segment_length := (face_well 4).segment_length ++ [8]
            segment_direction := (face_well 4).segment_direction ++
              [segment_tangent realMath ⟨8, 4, 0⟩ ⟨8, 4, 8⟩] },
          start_point realMath two_box_dof_handler 0 ⟨8, 4, 0⟩ ⟨8, 4, 8⟩ ⟨0, 0, 0⟩) :=
  tie_break_binds_lower_index realMath scenario_defaults Math_normalize 1000002
    two_box_dof_handler 0 1 0 1 ⟨8, 4, 0⟩ ⟨8, 4, 8⟩ (face_well 4, ⟨0, 0, 0⟩) 8
    (by simp [two_box_dof_handler]) (by norm_num) (by simp [two_box_dof_handler])
    (by simp [two_box_dof_handler]) rfl two_box_centred_aligned two_box_centred_tie_hi
    (by simp [two_box_dof_handler]) rfl two_box_centred_tie_lo
    (by
      intro g' hg' hne
      left
      simp [two_box_dof_handler, hne])
    two_box_centred_checks.1 two_box_centred_checks.2 (two_box_centred_length _)
    (by simp [face_well])

end TieBreakWitness

/-! ## The sum of the bound lengths: a short well near an edge, a column of cubes -/

section CornerWellTheorems

open Real

theorem corner_well_closest_point :
    closest_point realMath (column_dof_handler 1 8) 0 ⟨38 / 5, 159 / 20, 4⟩ ⟨79 / 10, 151 / 20, 4⟩
      = ⟨41 / 5, 143 / 20, 4⟩ ∧
    Tensor1.norm realMath ((⟨79 / 10, 151 / 20, 4⟩ : Tensor1 ℝ).sub ⟨38 / 5, 159 / 20, 4⟩)
      = 1 / 2 := by
  have hsub : (⟨79 / 10, 151 / 20, 4⟩ : Tensor1 ℝ).sub ⟨38 / 5, 159 / 20, 4⟩
      = ⟨3 / 10, -2 / 5, 0⟩ := by
    simp only [Tensor1.sub, Tensor1.mk.injEq]
    norm_num
  have hlen : Tensor1.norm realMath (⟨3 / 10, -2 / 5, 0⟩ : Tensor1 ℝ) = 1 / 2 :=
    norm_planar _ _ _ (by norm_num) (by norm_num)
  refine ⟨?_, by rw [hsub, hlen]⟩
  unfold closest_point segment_tangent
  rw [hsub, hlen]
  simp only [column_dof_handler, Tensor1.div, Tensor1.sub, Tensor1.add, Tensor1.scale,
    scalar_product, Tensor1.mk.injEq]
  norm_num

/-- The closest point of the line of `corner_well` to the centre of the cube
lies outside the cube, also within the tolerance of `point_inside_cell`. -/
theorem corner_well_closest_point_outside :
    point_inside_cell scenario_defaults (column_dof_handler 1 8) 0 ⟨41 / 5, 143 / 20, 4⟩
      = false := by
  have h3 := sqrt_three_bounds
  have heps : scenario_defaults.small_number_geometry * (8 * √3) ≤ 1 / 10 := by
    simp only [scenario_defaults]
    nlinarith [h3.2]
  have heps0 : 0 ≤ scenario_defaults.small_number_geometry * (8 * √3) := by
    simp only [scenario_defaults]
    positivity
  simp only [point_inside_cell, column_dof_handler, box_contains, Tensor1.add, Bool.or_eq_false_iff,
    decide_eq_false_iff_not, not_and, not_le, add_zero]
  refine ⟨⟨⟨⟨⟨?_, ?_⟩, ?_⟩, ?_⟩, ?_⟩, ?_⟩ <;> intro _ _ <;> linarith

/-- For the cube and `corner_well`, the body of the segment loop rejects the
cell at the first check and leaves the state as it is. -/
theorem corner_well_locate_segment (fuel : Nat) (s : Wellbore Nat ℝ × Tensor1 ℝ) :
    locate_segment realMath scenario_defaults Math_normalize fuel (column_dof_handler 1 8) 0
      ⟨38 / 5, 159 / 20, 4⟩ ⟨79 / 10, 151 / 20, 4⟩ s = .ok s := by
  have hd := corner_well_closest_point.1
  have hout := corner_well_closest_point_outside
  rw [← hd] at hout
  simp only [closest_point, segment_tangent] at hout
  unfold locate_segment
  simp only [hout, Bool.not_false, if_true]

end CornerWellTheorems

section CornerWellClaim

open Real

/-- A straight well of length `1/2` that lies strictly
inside the single cube of size 8 of the column with `N = 1`, near an edge of
the cube, binds no cell at all, because the closest point of its line to the
cell centre is outside the cell. The sum of the bound lengths is 0, and the
difference `1/2` to the length of the trajectory is more than 1000 times the
marching step plus the point-in-cell tolerance. -/
theorem corner_well_binds_nothing :
    ((0 : ℝ) < 38 / 5 ∧ (38 / 5 : ℝ) < 8 ∧ (0 : ℝ) < 159 / 20 ∧ (159 / 20 : ℝ) < 8 ∧
        (0 : ℝ) < 79 / 10 ∧ (79 / 10 : ℝ) < 8 ∧ (0 : ℝ) < 151 / 20 ∧ (151 / 20 : ℝ) < 8) ∧
      Tensor1.norm realMath ((⟨79 / 10, 151 / 20, 4⟩ : Tensor1 ℝ).sub ⟨38 / 5, 159 / 20, 4⟩)
        = 1 / 2 ∧
      locate realMath scenario_defaults Math_normalize 1000002 (column_dof_handler 1 8)
        corner_well = .ok corner_well ∧
      corner_well.segment_length.sum = 0 ∧
      (1 / 2 : ℝ) > 1000 * (1 * (1 / 2 * scenario_defaults.small_number_geometry
        + scenario_defaults.small_number_geometry * (8 * √3))) := by
  refine ⟨by norm_num, corner_well_closest_point.2, ?_, by simp [corner_well], ?_⟩
  · have hcells : (column_dof_handler 1 8).active_cells = [0] := rfl
    unfold locate
    simp only [hcells, cell_loop, corner_well, List.not_mem_nil, if_false, segments,
      List.tail_cons, List.zip_cons_cons, List.zip_nil_right, segment_loop,
      corner_well_locate_segment, bind, Except.bind, pure, Except.pure]
  · have h3 := sqrt_three_bounds
    simp only [scenario_defaults]
    nlinarith [h3.2]

end CornerWellClaim

section ColumnTheorems

open Real

/-- In the column, the face loop never sets `skip_cell` for a well along the
third axis: the only faces that are not at the boundary are horizontal, and
the vector from the cell centre to the well is horizontal too. -/
theorem column_face_loop (P : DefaultValues ℝ) (normalize : Tensor1 ℝ → Tensor1 ℝ)
    (N : Nat) (s : ℝ) (k : Nat) (a b : ℝ) (d : Tensor1 ℝ) (eps : ℝ)
    (hcos : 0 ≤ P.cos_small_angle)
    (hnorm : ∀ v : Tensor1 ℝ, v.c2 = 0 → (normalize v).c2 = 0) :
    face_loop realMath P normalize (column_dof_handler N s) k ⟨a, b, 0⟩ d eps (List.range 6)
      false = false := by
  apply face_loop_of_no_trigger
  intro f hf
  have hal : ∀ σ : ℝ, aligned_with_face realMath P normalize ⟨a, b, 0⟩ ⟨0, 0, σ⟩ = false := by
    intro σ
    unfold aligned_with_face
    simp only [scalar_product, hnorm ⟨a, b, 0⟩ rfl, mul_zero, zero_mul, add_zero, abs_zero,
      zero_div, gt_iff_lt, decide_eq_false_iff_not, not_lt]
    exact hcos
  by_cases h4 : f = 4
  · subst h4
    exact Or.inr ⟨rfl, Or.inl (hal (-1))⟩
  · by_cases h5 : f = 5
    · subst h5
      exact Or.inr ⟨rfl, Or.inl (hal 1)⟩
    · left
      simp [column_dof_handler, h4, h5]

/-- The body of the segment loop for the cell `k` of the column and the well
along the third axis from height 0 to height `N*s`: the cell is bound with
the length `column_cell_length` and the direction `(0, 0, 1)`. -/
theorem column_locate_segment (P : DefaultValues ℝ) (normalize : Tensor1 ℝ → Tensor1 ℝ)
    (fuel N : Nat) (s : ℝ) (k : Nat) (x y : ℝ) (st : Wellbore Nat ℝ × Tensor1 ℝ)
    (hs : 0 < s) (hk : k < N) (hx : 0 ≤ x ∧ x ≤ s) (hy : 0 ≤ y ∧ y ≤ s)
    (hsng : 0 < P.small_number_geometry) (hsng2 : P.small_number_geometry * √3 ≤ 1 / 2)
    (hcos : 0 ≤ P.cos_small_angle)
    (hnorm : ∀ v : Tensor1 ℝ, v.c2 = 0 → (normalize v).c2 = 0)
    (hfuel : ⌊1 / P.small_number_geometry⌋₊ + 2 ≤ fuel) (hnew : k ∉ st.1.cells) :
    locate_segment realMath P normalize fuel (column_dof_handler N s) k
        ⟨x, y, 0⟩ ⟨x, y, N * s⟩ st = .ok
      ({ st.1 with cells := st.1.cells ++ [k]
                   segment_length := st.1.segment_length ++ [column_cell_length P N s k]
                   segment_direction := st.1.segment_direction ++ [⟨0, 0, 1⟩] },
        ⟨x, y, (k + 1 / 2) * s⟩) := by
  have h3 := sqrt_three_bounds
  have hkN : (k : ℝ) + 1 ≤ N := by exact_mod_cast hk
  have hk0 : (0 : ℝ) ≤ k := Nat.cast_nonneg k
  have heps0 : 0 ≤ P.small_number_geometry * (s * √3) := by positivity
  have heps : 2 * (P.small_number_geometry * (s * √3)) ≤ (k + 1) * s - k * s := by
    have : P.small_number_geometry * √3 * s ≤ 1 / 2 * s :=
      mul_le_mul_of_nonneg_right hsng2 hs.le
    nlinarith
  have hv := locate_segment_vertical P normalize fuel (column_dof_handler N s) k
    ⟨0, 0, k * s⟩ ⟨s, s, (k + 1) * s⟩ (fun p => rfl) x y 0 (N * s) st hx hy hsng heps0 heps
    (by nlinarith)
    (by
      simp only [column_dof_handler]
      constructor <;> nlinarith)
    (by
      simp only [column_dof_handler]
      constructor <;> nlinarith)
    hfuel
  rw [hv, if_neg (by rw [column_face_loop P normalize N s k _ _ _ _ hcos hnorm]; simp)]
  have hfind : find_cell st.1 k = -1 := (find_cell_eq_neg_one_iff st.1 k).2 hnew
  simp only [merge_binding, hfind, if_true, Except.bind, column_dof_handler, column_cell_length]

end ColumnTheorems

section ColumnTheorems2

open Real

/-- The length found in a cell of the column differs from the size `s` of the
cell by less than two marching steps from below and by at most twice the
point-in-cell tolerance from above. -/
theorem column_cell_length_bounds (P : DefaultValues ℝ) (N : Nat) (s : ℝ) (k : Nat)
    (hs : 0 < s) (hk : k < N) (hsng : 0 < P.small_number_geometry) :
    s - 2 * (N * s * P.small_number_geometry) < column_cell_length P N s k ∧
      column_cell_length P N s k ≤ s + 2 * (P.small_number_geometry * (s * √3)) := by
  have hkN : (k : ℝ) + 1 ≤ N := by exact_mod_cast hk
  have hk0 : (0 : ℝ) ≤ k := Nat.cast_nonneg k
  have heps0 : 0 ≤ P.small_number_geometry * (s * √3) := by positivity
  have hstep : 0 < (N * s - 0) * P.small_number_geometry := by
    have : (0 : ℝ) < N * s := by nlinarith
    rw [sub_zero]
    exact mul_pos this hsng
  have hup1 : s / 2 ≤ min ((k + 1) * s + P.small_number_geometry * (s * √3) - (k + 1 / 2) * s)
      (N * s - (k + 1 / 2) * s) := le_min (by nlinarith) (by nlinarith)
  have hup2 : min ((k + 1) * s + P.small_number_geometry * (s * √3) - (k + 1 / 2) * s)
      (N * s - (k + 1 / 2) * s) ≤ s / 2 + P.small_number_geometry * (s * √3) :=
    le_trans (min_le_left _ _) (by nlinarith)
  have hdown1 : s / 2 ≤ min ((k + 1 / 2) * s - k * s + P.small_number_geometry * (s * √3))
      ((k + 1 / 2) * s - 0) := le_min (by nlinarith) (by nlinarith)
  have hdown2 : min ((k + 1 / 2) * s - k * s + P.small_number_geometry * (s * √3))
      ((k + 1 / 2) * s - 0) ≤ s / 2 + P.small_number_geometry * (s * √3) :=
    le_trans (min_le_left _ _) (by nlinarith)
  have hb := marched_length_bounds _ _ _ hstep (le_trans (by linarith) hup1)
    (le_trans (by linarith) hdown1)
  unfold column_cell_length
  simp only [sub_zero] at hb hstep hup1 hup2 hdown1 hdown2 ⊢
  constructor
  · linarith [hb.1]
  · linarith [hb.2]

/-- The cell loop of `locate` over the cells `k, ..., k + m - 1` of the column,
none of which is bound yet: each of them is bound in turn. -/
theorem column_cell_loop (P : DefaultValues ℝ) (normalize : Tensor1 ℝ → Tensor1 ℝ)
    (fuel N : Nat) (s x y : ℝ)
    (hs : 0 < s) (hx : 0 ≤ x ∧ x ≤ s) (hy : 0 ≤ y ∧ y ≤ s)
    (hsng : 0 < P.small_number_geometry) (hsng2 : P.small_number_geometry * √3 ≤ 1 / 2)
    (hcos : 0 ≤ P.cos_small_angle)
    (hnorm : ∀ v : Tensor1 ℝ, v.c2 = 0 → (normalize v).c2 = 0)
    (hfuel : ⌊1 / P.small_number_geometry⌋₊ + 2 ≤ fuel) :
    ∀ (m k : Nat) (st : Wellbore Nat ℝ) (start : Tensor1 ℝ), k + m ≤ N →
      st.locations = [⟨x, y, 0⟩, ⟨x, y, N * s⟩] → (∀ c ∈ st.cells, c < k) →
      ∃ st' start', cell_loop realMath P normalize fuel (column_dof_handler N s)
          (List.range' k m) (st, start) = .ok (st', start') ∧
        st'.cells = st.cells ++ List.range' k m ∧
        st'.segment_length = st.segment_length ++
          (List.range' k m).map (column_cell_length P N s) := by
  intro m
  induction m with
  | zero =>
    intro k st start _ _ _
    exact ⟨st, start, rfl, by simp, by simp⟩
  | succ m ih =>
    intro k st start hkm hloc hcells
    have hnew : k ∉ st.cells := fun h => Nat.lt_irrefl k (hcells k h)
    have hseg := column_locate_segment P normalize fuel N s k x y (st, start) hs (by omega)
      hx hy hsng hsng2 hcos hnorm hfuel hnew
    obtain ⟨st', start', hloop, hc, hl⟩ := ih (k + 1)
      { st with cells := st.cells ++ [k]
                segment_length := st.segment_length ++ [column_cell_length P N s k]
                segment_direction := st.segment_direction ++ [⟨0, 0, 1⟩] }
      ⟨x, y, (k + 1 / 2) * s⟩ (by omega) hloc
      (by
        intro c hc
        rcases List.mem_append.1 hc with h | h
        · exact Nat.lt_succ_of_lt (hcells c h)
        · simp only [List.mem_singleton] at h
          omega)
    refine ⟨st', start', ?_, ?_, ?_⟩
    · rw [List.range'_succ]
      unfold cell_loop
      simp only [hnew, if_false, hloc, segments, List.tail_cons, List.zip_cons_cons,
        List.zip_nil_right, segment_loop, hseg, bind, Except.bind]
      rw [hloc] at hloop
      exact hloop
    · rw [hc, List.range'_succ]
      simp
    · rw [hl, List.range'_succ]
      simp

theorem list_sum_bounds (l : List ℝ) (a b : ℝ) (h : ∀ v ∈ l, a ≤ v ∧ v ≤ b) :
    l.length * a ≤ l.sum ∧ l.sum ≤ l.length * b := by
  induction l with
  | nil => simp
  | cons v rest ih =>
    have hv := h v (List.mem_cons_self _ _)
    have hr := ih (fun w hw => h w (List.mem_cons_of_mem _ hw))
    simp only [List.length_cons, List.sum_cons, Nat.cast_add, Nat.cast_one]
    constructor <;> nlinarith [hr.1, hr.2, hv.1, hv.2]

end ColumnTheorems2

section ColumnClaim

open Real

/-- A column of cubes: for a freshly constructed straight well along the third
axis that crosses the column of `N` cubes of size `s` from the bottom `(x, y, 0)` to
the top `(x, y, N*s)` through their interiors, `locate` returns, binds the `N`
cells, the trajectory has length `N*s`, and the sum of the bound segment lengths
differs from it by at most `2*N` times the marching step
`N*s*small_number_geometry` plus the point-in-cell tolerance
`small_number_geometry * diameter`. -/
theorem column_well_length_sum (P : DefaultValues ℝ) (normalize : Tensor1 ℝ → Tensor1 ℝ)
    (fuel N : Nat) (s x y : ℝ) (st : Wellbore Nat ℝ)
    (hN : 0 < N) (hs : 0 < s) (hx : 0 < x ∧ x < s) (hy : 0 < y ∧ y < s)
    (hsng : 0 < P.small_number_geometry) (hsng2 : P.small_number_geometry * √3 ≤ 1 / 2)
    (hcos : 0 ≤ P.cos_small_angle)
    (hnorm : ∀ v : Tensor1 ℝ, v.c2 = 0 → (normalize v).c2 = 0)
    (hfuel : ⌊1 / P.small_number_geometry⌋₊ + 2 ≤ fuel)
    (hloc : st.locations = [⟨x, y, 0⟩, ⟨x, y, N * s⟩])
    (hlen : st.segment_length = []) :
    ∃ st', locate realMath P normalize fuel (column_dof_handler N s) st = .ok st' ∧
      st'.cells = List.range N ∧
      st'.segment_length.length = N ∧
      Tensor1.norm realMath ((⟨x, y, N * s⟩ : Tensor1 ℝ).sub ⟨x, y, 0⟩) = N * s ∧
      |st'.segment_length.sum - N * s| ≤
        2 * N * (N * s * P.small_number_geometry
          + P.small_number_geometry * ((column_dof_handler N s).diameter 0)) := by
  have hNs : (0 : ℝ) < N * s := mul_pos (by exact_mod_cast hN) hs
  obtain ⟨st', start', hloop, hc, hl⟩ := column_cell_loop P normalize fuel N s x y hs
    ⟨hx.1.le, hx.2.le⟩ ⟨hy.1.le, hy.2.le⟩ hsng hsng2 hcos hnorm hfuel N 0
    { st with cells := [] } ⟨0, 0, 0⟩ (by omega) hloc (by simp)
  have hcells : (column_dof_handler N s).active_cells = List.range N := rfl
  rw [← List.range_eq_range'] at hloop hc hl
  have hb := list_sum_bounds ((List.range N).map (column_cell_length P N s))
    (s - 2 * (N * s * P.small_number_geometry))
    (s + 2 * (P.small_number_geometry * (s * √3)))
    (by
      intro v hv
      obtain ⟨k, hk, rfl⟩ := List.mem_map.1 hv
      have h := column_cell_length_bounds P N s k hs (List.mem_range.1 hk) hsng
      exact ⟨h.1.le, h.2⟩)
  simp only [List.length_map, List.length_range] at hb
  have hn := segment_length_vertical x y 0 (N * s) hNs
  rw [sub_zero] at hn
  refine ⟨st', ?_, ?_, ?_, hn, ?_⟩
  · unfold locate
    rw [hcells]
    simp only [hloop, bind, Except.bind, pure, Except.pure]
  · simpa using hc
  · rw [hl, hlen]
    simp
  · have hsum : st'.segment_length.sum
        = ((List.range N).map (column_cell_length P N s)).sum := by
      rw [hl, hlen]
      simp
    have hdiam : (column_dof_handler N s).diameter 0 = s * √3 := rfl
    have hstep0 : 0 ≤ (N : ℝ) * (N * s * P.small_number_geometry) := by positivity
    have heps0 : 0 ≤ (N : ℝ) * (P.small_number_geometry * (s * √3)) := by positivity
    rw [hsum, hdiam, abs_le]
    constructor <;> nlinarith [hb.1, hb.2]

/-- The column of one cube of size 8 with the constants of the scenario: the well from `(4, 4, 0)` to `(4, 4, 8)` binds the cell with a
length within `2 * (8/1000000 + 8 * √3 / 1000000)` of 8. -/
theorem column_well_length_sum_witness :
    ∃ st', locate realMath scenario_defaults Math_normalize 1000002 (column_dof_handler 1 8)
        column_well = .ok st' ∧
      st'.cells = List.range 1 ∧
      st'.segment_length.length = 1 ∧
      Tensor1.norm realMath ((⟨4, 4, ((1 : Nat) : ℝ) * 8⟩ : Tensor1 ℝ).sub ⟨4, 4, 0⟩)
        = ((1 : Nat) : ℝ) * 8 ∧
      |st'.segment_length.sum - ((1 : Nat) : ℝ) * 8| ≤
        2 * ((1 : Nat) : ℝ) * (((1 : Nat) : ℝ) * 8 * scenario_defaults.small_number_geometry
          + scenario_defaults.small_number_geometry * ((column_dof_handler 1 8).diameter 0)) :=
  column_well_length_sum scenario_defaults Math_normalize 1000002 1 8 4 4 column_well
    (by decide) (by norm_num) (by norm_num) (by norm_num)
    (by norm_num [scenario_defaults])
    (by
      have h3 := sqrt_three_bounds
      simp only [scenario_defaults]
      nlinarith [h3.2])
    (by norm_num [scenario_defaults])
    (by
      intro v hv
      simp only [Math_normalize, Tensor1.div, hv, zero_div])
    (by rw [scenario_floor_fuel])
    rfl rfl

end ColumnClaim

/-! ## Unknown control kind (C23) -/

section UnknownControlTheorems

variable {C F : Type} [DecidableEq C] [LinearOrderedField F]

/-- C23: for every well state and every cell bound to the well, when the
control kind is neither `pressure_control` nor `flow_control_total`,
`get_J_and_Q` fails with the error of `AssertThrow(false, ExcNotImplemented())`
and so returns no pair `(J, Q)`. -/
theorem get_J_and_Q_unknown_control (st : Wellbore C F) (cell : C)
    (hbound : cell ∈ st.cells)
    (hp : st.control.type ≠ .pressure_control)
    (hf : st.control.type ≠ .flow_control_total) :
    get_J_and_Q st cell = .error .not_implemented ∧
      ∀ J Q, get_J_and_Q st cell ≠ .ok (J, Q) := by
  have hpos : st.cells.length > 0 := List.length_pos_of_mem hbound
  have hfind : ¬ find_cell st cell = -1 := by
    have := find_cell_from_nonneg_of_mem cell st.cells 0 hbound
    unfold find_cell
    omega
  have hres : get_J_and_Q st cell = .error .not_implemented := by
    unfold get_J_and_Q
    simp only [hpos, not_true_eq_false, if_false, hfind]
    cases htype : st.control.type with
    | pressure_control => exact absurd htype hp
    | flow_control_total => exact absurd htype hf
    | other_control tag => rfl
  refine ⟨hres, ?_⟩
  intro J Q h
  rw [hres] at h
  cases h

theorem get_J_and_Q_unknown_control_witness :
    get_J_and_Q (two_cell_well { type := .other_control 0, value := 8, skin := 0 }) 7
      = .error .not_implemented :=
  (get_J_and_Q_unknown_control
    (two_cell_well { type := .other_control 0, value := 8, skin := 0 }) 7
    (by decide) (by decide) (by decide)).1

end UnknownControlTheorems

/-! ## neighbor_is_farther on a pair of cells (C28) -/

section NeighborTheorems

variable {F : Type} [LinearOrderedField F]

/-- C28: for all vectors `c` and `n`, every tolerance `tol ≥ 0` and all distinct
cell indices `i ≠ j`, exactly one of `neighbor_is_farther (c, n, i, j, tol)` and
`neighbor_is_farther (n, c, j, i, tol)` is true; and when the two norms differ by
at most `tol`, the call that is true is the one made by the cell with the
smaller index. -/
theorem neighbor_is_farther_exactly_one (M : MathFns F) (c n : Tensor1 F) (i j : Nat) (tol : F)
    (htol : 0 ≤ tol) (hij : i ≠ j) :
    (neighbor_is_farther M c n i j tol = !neighbor_is_farther M n c j i tol) ∧
      (Tensor1.norm M c ≤ Tensor1.norm M n + tol → Tensor1.norm M n ≤ Tensor1.norm M c + tol →
        (neighbor_is_farther M c n i j tol = true ↔ i < j) ∧
        (neighbor_is_farther M n c j i tol = true ↔ j < i)) := by
  unfold neighbor_is_farther
  by_cases hA : Tensor1.norm M c ≤ Tensor1.norm M n + tol <;>
    by_cases hB : Tensor1.norm M n ≤ Tensor1.norm M c + tol <;>
    by_cases hlt : i < j
  all_goals simp [hA, hB, hlt, ge_iff_le, gt_iff_lt]
  all_goals first | omega | (exfalso; linarith)

theorem neighbor_is_farther_exactly_one_witness :
    neighbor_is_farther realMath ⟨0, 0, 1⟩ ⟨0, 0, 2⟩ 3 5 (1 / 2)
      = !neighbor_is_farther realMath ⟨0, 0, 2⟩ ⟨0, 0, 1⟩ 5 3 (1 / 2) :=
  (neighbor_is_farther_exactly_one realMath ⟨0, 0, 1⟩ ⟨0, 0, 2⟩ 3 5 (1 / 2)
    (by norm_num) (by decide)).1

end NeighborTheorems

/-! ## A bound cell with zero length (C27) -/

section ZeroLengthTheorems

open Real

variable {C : Type} [DecidableEq C]

end ZeroLengthTheorems

/-! ## The division in get_J_and_Q (C24) -/

section DivisionTheorems

/-- C24 fails on the code: under total-rate control `get_J_and_Q` evaluates the
quotient `control.value * productivities[segment] / sum_productivities` before
it tests `sum_productivities > 0`. For the rate well bound to one cell of
productivity 0 the sum is 0, the division `5 * 0 / 0` is evaluated, and only
then the pair `(0, 0)` is returned. -/
theorem get_J_and_Q_divides_by_zero_sum :
    zero_productivity_well.control.type = .flow_control_total ∧
      sum_productivities zero_productivity_well = 0 ∧
      get_J_and_Q_divisions zero_productivity_well 4 = [(5 * 0, 0)] ∧
      get_J_and_Q zero_productivity_well 4 = .ok (0, 0) := by
  refine ⟨rfl, ?_, ?_, ?_⟩
  · simp [sum_productivities, zero_productivity_well]
  · simp [get_J_and_Q_divisions, zero_productivity_well, find_cell, find_cell_from, vec_read,
      sum_productivities]
  · simp [get_J_and_Q, zero_productivity_well, find_cell, find_cell_from, vec_read,
      sum_productivities, bind, Except.bind, pure, Except.pure]

end DivisionTheorems

/-! ## A well outside the mesh (C22) -/

section OutsideTheorems

variable {C F : Type} [DecidableEq C] [LinearOrderedField F] [FloorRing F]

theorem mem_segments (locations : List (Tensor1 F)) (x0 x1 : Tensor1 F)
    (h : (x0, x1) ∈ segments locations) : x0 ∈ locations ∧ x1 ∈ locations := by
  unfold segments at h
  have := List.of_mem_zip h
  exact ⟨this.1, List.mem_of_mem_tail this.2⟩

/-- The body of the segment loop leaves the state as it is when the cell
contains neither end point of the segment and, within the tolerance, no point
of the segment. -/
theorem locate_segment_outside (M : MathFns F) (P : DefaultValues F)
    (normalize : Tensor1 F → Tensor1 F) (fuel : Nat) (dh : DoFHandler C F) (cell : C)
    (x0 x1 : Tensor1 F) (s : Wellbore C F × Tensor1 F)
    (h0 : dh.point_inside cell x0 = false) (h1 : dh.point_inside cell x1 = false)
    (hseg : ∀ t : F, 0 ≤ t → t ≤ Tensor1.norm M (x1.sub x0) →
      point_inside_cell P dh cell (x0.add ((segment_tangent M x0 x1).scale t)) = false) :
    locate_segment M P normalize fuel dh cell x0 x1 s = .ok s := by
  unfold locate_segment
  simp only []
  by_cases hd : point_inside_cell P dh cell (x0.add (((x1.sub x0).div
      (Tensor1.norm M (x1.sub x0))).scale (scalar_product ((dh.center cell).sub x0)
        ((x1.sub x0).div (Tensor1.norm M (x1.sub x0)))))) = true
  · have hout : scalar_product ((dh.center cell).sub x0)
          ((x1.sub x0).div (Tensor1.norm M (x1.sub x0))) < 0 ∨
        scalar_product ((dh.center cell).sub x0)
          ((x1.sub x0).div (Tensor1.norm M (x1.sub x0))) > Tensor1.norm M (x1.sub x0) := by
      by_contra hcon
      push_neg at hcon
      have := hseg _ hcon.1 hcon.2
      unfold segment_tangent at this
      rw [this] at hd
      cases hd
    rw [hd, h0, h1]
    rcases hout with h | h
    · simp [h]
    · simp [h]
  · simp only [Bool.not_eq_true] at hd
    rw [hd]
    rfl

theorem segment_loop_outside (M : MathFns F) (P : DefaultValues F)
    (normalize : Tensor1 F → Tensor1 F) (fuel : Nat) (dh : DoFHandler C F) (cell : C)
    (segs : List (Tensor1 F × Tensor1 F)) (s : Wellbore C F × Tensor1 F)
    (hsegs : ∀ seg ∈ segs, dh.point_inside cell seg.1 = false ∧
      dh.point_inside cell seg.2 = false ∧
      ∀ t : F, 0 ≤ t → t ≤ Tensor1.norm M (seg.2.sub seg.1) →
        point_inside_cell P dh cell (seg.1.add ((segment_tangent M seg.1 seg.2).scale t))
          = false) :
    segment_loop M P normalize fuel dh cell segs s = .ok s := by
  induction segs with
  | nil => rfl
  | cons seg rest ih =>
    obtain ⟨x0, x1⟩ := seg
    have h := hsegs (x0, x1) (List.mem_cons_self _ _)
    unfold segment_loop
    simp only [bind, Except.bind,
      locate_segment_outside M P normalize fuel dh cell x0 x1 s h.1 h.2.1 h.2.2]
    exact ih (fun seg hseg => hsegs seg (List.mem_cons_of_mem _ hseg))

theorem cell_loop_outside (M : MathFns F) (P : DefaultValues F)
    (normalize : Tensor1 F → Tensor1 F) (fuel : Nat) (dh : DoFHandler C F)
    (cells : List C) (s : Wellbore C F × Tensor1 F)
    (hpoints : ∀ cell ∈ cells, ∀ x ∈ s.1.locations, dh.point_inside cell x = false)
    (hsegs : ∀ cell ∈ cells, ∀ seg ∈ segments s.1.locations,
      ∀ t : F, 0 ≤ t → t ≤ Tensor1.norm M (seg.2.sub seg.1) →
        point_inside_cell P dh cell (seg.1.add ((segment_tangent M seg.1 seg.2).scale t))
          = false) :
    cell_loop M P normalize fuel dh cells s = .ok s := by
  induction cells with
  | nil => rfl
  | cons cell rest ih =>
    have ih' := ih (fun c hc => hpoints c (List.mem_cons_of_mem _ hc))
      (fun c hc => hsegs c (List.mem_cons_of_mem _ hc))
    have hp := hpoints cell (List.mem_cons_self _ _)
    have hs := hsegs cell (List.mem_cons_self _ _)
    have hloop : segment_loop M P normalize fuel dh cell (segments s.1.locations) s = .ok s :=
      segment_loop_outside M P normalize fuel dh cell _ s (fun seg hseg =>
        ⟨hp _ (mem_segments _ seg.1 seg.2 hseg).1, hp _ (mem_segments _ seg.1 seg.2 hseg).2,
          hs seg hseg⟩)
    unfold cell_loop
    by_cases hmem : cell ∈ s.1.cells
    · rw [if_pos hmem]
      exact ih'
    · rw [if_neg hmem]
      split
      · rename_i location hloc
        rw [hp location (by rw [hloc]; exact List.mem_singleton_self _)]
        exact ih'
      · simp only [bind, Except.bind, hloop]
        exact ih'

/-- C22: if no active cell of the mesh contains a control point of the well,
and no active cell contains, within the point-in-cell tolerance, a point of a
segment of the trajectory, then `locate` returns and binds zero cells (it
leaves the other members as they are). -/
theorem locate_outside_mesh (M : MathFns F) (P : DefaultValues F)
    (normalize : Tensor1 F → Tensor1 F) (fuel : Nat) (dh : DoFHandler C F)
    (st : Wellbore C F)
    (hpoints : ∀ cell ∈ dh.active_cells, ∀ x ∈ st.locations, dh.point_inside cell x = false)
    (hsegs : ∀ cell ∈ dh.active_cells, ∀ seg ∈ segments st.locations,
      ∀ t : F, 0 ≤ t → t ≤ Tensor1.norm M (seg.2.sub seg.1) →
        point_inside_cell P dh cell (seg.1.add ((segment_tangent M seg.1 seg.2).scale t))
          = false) :
    locate M P normalize fuel dh st = .ok { st with cells := [] } ∧
      ∀ st', locate M P normalize fuel dh st = .ok st' → st'.cells = [] := by
  have h := cell_loop_outside M P normalize fuel dh dh.active_cells
    ({ st with cells := [] }, { c0 := 0, c1 := 0, c2 := 0 }) hpoints hsegs
  have hres : locate M P normalize fuel dh st = .ok { st with cells := [] } := by
    unfold locate
    simp only [bind, Except.bind, pure, Except.pure, h]
  refine ⟨hres, ?_⟩
  intro st' hst'
  rw [hres] at hst'
  cases hst'
  rfl

end OutsideTheorems

section OutsideWitness

open Real

/-- The well from `(20, 20, 0)` to `(20, 20, 5)` lies beside the one-cell mesh
of the scenario: `locate` binds no cell. -/
theorem locate_outside_mesh_witness :
    locate realMath scenario_defaults Math_normalize 0 scenario_dof_handler far_well
      = .ok { far_well with cells := [] } :=
  (locate_outside_mesh realMath scenario_defaults Math_normalize 0 scenario_dof_handler far_well
    (by
      intro cell _ x hx
      simp only [far_well, List.mem_cons, List.mem_singleton, List.not_mem_nil, or_false] at hx
      rcases hx with rfl | rfl <;>
        simp [scenario_dof_handler, box_contains] <;> norm_num)
    (by
      intro cell _ seg hseg t ht0 ht1
      have hs : seg = (⟨20, 20, 0⟩, ⟨20, 20, 5⟩) := by
        simpa [far_well, segments] using hseg
      subst hs
      have h3 := sqrt_three_bounds
      simp only [point_inside_cell, scenario_dof_handler, scenario_defaults, box_contains,
        Tensor1.add, Tensor1.scale, segment_tangent, Tensor1.sub, Tensor1.div, sub_self, zero_div,
        zero_mul, add_zero, Bool.or_eq_false_iff, decide_eq_false_iff_not, not_and, not_le]
      refine ⟨⟨⟨⟨⟨?_, ?_⟩, ?_⟩, ?_⟩, ?_⟩, ?_⟩ <;> intros <;> linarith)).1

end OutsideWitness

/-! ## The marching loops for a unit tangent (C26, C29) -/

section UnitMarchTheorems

open Real

variable {C : Type} [DecidableEq C]

theorem norm_sub_self (p : Tensor1 ℝ) : Tensor1.norm realMath (p.sub p) = 0 := by
  simp [Tensor1.norm, Tensor1.sub, realMath]

theorem unit_sum_squares (t : Tensor1 ℝ) (ht : Tensor1.norm realMath t = 1) :
    t.c0 * t.c0 + t.c1 * t.c1 + t.c2 * t.c2 = 1 := by
  simp only [Tensor1.norm, realMath] at ht
  have h := Real.sqrt_eq_one.1 ht
  exact h

theorem sqrt_scaled_unit (a b c r : ℝ) (h : a * a + b * b + c * c = 1) :
    √(a * r * (a * r) + b * r * (b * r) + c * r * (c * r)) = |r| := by
  have e : a * r * (a * r) + b * r * (b * r) + c * r * (c * r) = r * r := by
    have : a * r * (a * r) + b * r * (b * r) + c * r * (c * r)
        = (a * a + b * b + c * c) * (r * r) := by ring
    rw [this, h, one_mul]
  rw [e]
  exact Real.sqrt_mul_self_eq_abs r

theorem unit_tangent_unchanged (P : DefaultValues ℝ) (t : Tensor1 ℝ)
    (ht : Tensor1.norm realMath t = 1) :
    (if |Tensor1.norm realMath t - 1| > P.small_number
      then t.div (Tensor1.norm realMath t) else t) = t := by
  rw [ht]
  split
  · simp [Tensor1.div]
  · rfl

theorem iterate_add_scale (t : Tensor1 ℝ) (step : ℝ) (p : Tensor1 ℝ) (j : Nat) :
    (fun q : Tensor1 ℝ => q.add (t.scale step))^[j] p = p.add (t.scale (j * step)) := by
  induction j generalizing p with
  | zero => simp [Tensor1.add, Tensor1.scale]
  | succ j ih =>
    rw [Function.iterate_succ_apply, ih]
    simp only [Tensor1.add, Tensor1.scale, Tensor1.eq_iff, Nat.cast_add, Nat.cast_one]
    refine ⟨by ring, by ring, by ring⟩

theorem iterate_sub_scale (t : Tensor1 ℝ) (step : ℝ) (p : Tensor1 ℝ) (j : Nat) :
    (fun q : Tensor1 ℝ => q.sub (t.scale step))^[j] p = p.sub (t.scale (j * step)) := by
  induction j generalizing p with
  | zero => simp [Tensor1.sub, Tensor1.scale]
  | succ j ih =>
    rw [Function.iterate_succ_apply, ih]
    simp only [Tensor1.sub, Tensor1.scale, Tensor1.eq_iff, Nat.cast_add, Nat.cast_one]
    refine ⟨by ring, by ring, by ring⟩

theorem distance_add_scale (t p : Tensor1 ℝ) (r : ℝ) (ht : Tensor1.norm realMath t = 1) :
    Tensor1.distance realMath p (p.add (t.scale r)) = |r| := by
  have h := unit_sum_squares t ht
  simp only [Tensor1.distance, Tensor1.add, Tensor1.scale, realMath]
  rw [← sqrt_scaled_unit t.c0 t.c1 t.c2 r h]
  congr 1
  ring

theorem distance_sub_scale (t p : Tensor1 ℝ) (r : ℝ) (ht : Tensor1.norm realMath t = 1) :
    Tensor1.distance realMath p (p.sub (t.scale r)) = |r| := by
  have h := unit_sum_squares t ht
  simp only [Tensor1.distance, Tensor1.sub, Tensor1.scale, realMath]
  rw [← sqrt_scaled_unit t.c0 t.c1 t.c2 r h]
  congr 1
  ring

theorem norm_add_sub_scale (t q : Tensor1 ℝ) (r : ℝ) (ht : Tensor1.norm realMath t = 1) :
    Tensor1.norm realMath ((q.add (t.scale r)).sub q) = |r| ∧
      Tensor1.norm realMath ((q.sub (t.scale r)).sub q) = |r| := by
  have h := unit_sum_squares t ht
  constructor
  · simp only [Tensor1.norm, Tensor1.add, Tensor1.sub, Tensor1.scale, realMath]
    rw [← sqrt_scaled_unit t.c0 t.c1 t.c2 r h]
    congr 1
    ring
  · simp only [Tensor1.norm, Tensor1.sub, Tensor1.scale, realMath]
    rw [← sqrt_scaled_unit t.c0 t.c1 t.c2 r h]
    congr 1
    ring

/-- A marching loop that starts at `start`, moves by steps of length `step > 0`
and is at distance `j * step` from `start` after `j` steps: with
`floor (D / step) + 2` tests of the loop condition or more, `D` being the
distance from `start` to the end point, it returns `length + k * step` for a
whole number `k` of steps with `k * step <= D`, and `k = 0` when `start` is not
inside the cell within the tolerance. -/
theorem march_bounded (P : DefaultValues ℝ) (dh : DoFHandler C ℝ) (cell : C)
    (start end_point : Tensor1 ℝ) (advance : Tensor1 ℝ → Tensor1 ℝ) (step : ℝ)
    (hstep : 0 < step)
    (hs : ∀ q, Tensor1.norm realMath ((advance q).sub q) = step)
    (hdist : ∀ j : Nat, Tensor1.distance realMath start (advance^[j] start) = j * step) :
    ∃ k : Nat, (k : ℝ) * step ≤ Tensor1.distance realMath start end_point ∧
      (point_inside_cell P dh cell start = false → k = 0) ∧
      ∀ (fuel : Nat) (length : ℝ),
        ⌊Tensor1.distance realMath start end_point / step⌋₊ + 2 ≤ fuel →
        march realMath P dh cell start end_point advance fuel length start start
          = .ok (length + k * step) := by
  have hK : march_accepts realMath P dh cell start end_point
      (advance^[⌊Tensor1.distance realMath start end_point / step⌋₊ + 1] start) = false := by
    have hlt := Nat.lt_floor_add_one (Tensor1.distance realMath start end_point / step)
    rw [div_lt_iff₀ hstep] at hlt
    simp only [march_accepts, hdist, Bool.and_eq_false_imp, Bool.not_eq_false',
      decide_eq_true_eq, gt_iff_lt]
    intro _
    push_cast
    exact hlt
  have hex : ∃ m : Nat, march_accepts realMath P dh cell start end_point (advance^[m] start)
      = false := ⟨_, hK⟩
  obtain ⟨m, hspec, hmin'⟩ : ∃ m : Nat,
      march_accepts realMath P dh cell start end_point (advance^[m] start) = false ∧
      ∀ j, j < m →
        ¬ march_accepts realMath P dh cell start end_point (advance^[j] start) = false :=
    ⟨Nat.find hex, Nat.find_spec hex, fun j hj => Nat.find_min hex hj⟩
  have hmin : ∀ j, j < m →
      march_accepts realMath P dh cell start end_point (advance^[j] start) = true := by
    intro j hj
    simpa using hmin' j hj
  have hle : m ≤ ⌊Tensor1.distance realMath start end_point / step⌋₊ + 1 := by
    by_contra hcon
    exact hmin' _ (not_le.1 hcon) hK
  have hrun := fun (fuel : Nat) (length : ℝ) (hfuel : m + 1 ≤ fuel) =>
    march_run realMath P dh cell start end_point advance step hs m fuel length
      start start hfuel hmin hspec
  by_cases hm : m = 0
  · refine ⟨0, ?_, fun _ => rfl, ?_⟩
    · simp only [Nat.cast_zero, zero_mul, Tensor1.distance, realMath]
      exact Real.sqrt_nonneg _
    · intro fuel length hfuel
      rw [hrun fuel length (by omega), if_pos hm]
      simp
  · refine ⟨m - 1, ?_, ?_, ?_⟩
    · have hacc := hmin (m - 1) (by omega)
      simp only [march_accepts, hdist, Bool.and_eq_true, Bool.not_eq_true',
        decide_eq_false_iff_not, gt_iff_lt, not_lt] at hacc
      exact hacc.2
    · intro hout
      exfalso
      have hacc := hmin 0 (by omega)
      simp only [march_accepts, Function.iterate_zero, id_eq, hout, Bool.false_and] at hacc
      cases hacc
    · intro fuel length hfuel
      rw [hrun fuel length (by omega), if_neg hm, norm_sub_self, add_zero]

end UnitMarchTheorems

section SegmentLengthTheorems

open Real

variable {C : Type} [DecidableEq C]

theorem segment_tangent_components (x0 x1 : Tensor1 ℝ)
    (hlen : 0 < Tensor1.norm realMath (x1.sub x0)) :
    (segment_tangent realMath x0 x1).c0 * Tensor1.norm realMath (x1.sub x0) = x1.c0 - x0.c0 ∧
    (segment_tangent realMath x0 x1).c1 * Tensor1.norm realMath (x1.sub x0) = x1.c1 - x0.c1 ∧
    (segment_tangent realMath x0 x1).c2 * Tensor1.norm realMath (x1.sub x0) = x1.c2 - x0.c2 := by
  simp only [segment_tangent, Tensor1.div]
  refine ⟨?_, ?_, ?_⟩ <;> exact div_mul_cancel₀ _ hlen.ne'

theorem norm_segment_tangent (x0 x1 : Tensor1 ℝ)
    (hlen : 0 < Tensor1.norm realMath (x1.sub x0)) :
    Tensor1.norm realMath (segment_tangent realMath x0 x1) = 1 := by
  obtain ⟨h0, h1, h2⟩ := segment_tangent_components x0 x1 hlen
  have hsq : Tensor1.norm realMath (x1.sub x0) * Tensor1.norm realMath (x1.sub x0)
      = (x1.c0 - x0.c0) * (x1.c0 - x0.c0) + (x1.c1 - x0.c1) * (x1.c1 - x0.c1)
        + (x1.c2 - x0.c2) * (x1.c2 - x0.c2) := by
    simp only [Tensor1.norm, Tensor1.sub, realMath]
    exact Real.mul_self_sqrt
      (add_nonneg (add_nonneg (mul_self_nonneg _) (mul_self_nonneg _)) (mul_self_nonneg _))
  generalize Tensor1.norm realMath (x1.sub x0) = len at hlen h0 h1 h2 hsq
  generalize segment_tangent realMath x0 x1 = a at h0 h1 h2
  have hone : a.c0 * a.c0 + a.c1 * a.c1 + a.c2 * a.c2 = 1 := by
    have hl2 : 0 < len * len := mul_pos hlen hlen
    have e : a.c0 * len * (a.c0 * len) + a.c1 * len * (a.c1 * len) + a.c2 * len * (a.c2 * len)
        = len * len := by
      rw [h0, h1, h2]
      exact hsq.symm
    have : (a.c0 * a.c0 + a.c1 * a.c1 + a.c2 * a.c2) * (len * len) = 1 * (len * len) := by
      linear_combination e
    exact mul_right_cancel₀ hl2.ne' this
  simp only [Tensor1.norm, realMath, hone, Real.sqrt_one]

/-- What `get_segment_length` does for a unit tangent and a positive marching
step: each loop returns with `floor (D / step) + 2` tests of its condition,
where `D` is the distance from the start point to the end point of its
direction, and adds a whole number of steps that is at most `D`. -/
theorem get_segment_length_unit (P : DefaultValues ℝ) (dh : DoFHandler C ℝ) (cell : C)
    (start x0 x1 tangent : Tensor1 ℝ)
    (hsng : 0 < P.small_number_geometry)
    (hlen : 0 < Tensor1.norm realMath (x1.sub x0))
    (ht : Tensor1.norm realMath tangent = 1) :
    ∃ k1 k2 : Nat,
      (k1 : ℝ) * (Tensor1.norm realMath (x1.sub x0) * P.small_number_geometry)
        ≤ Tensor1.distance realMath start x1 ∧
      (k2 : ℝ) * (Tensor1.norm realMath (x1.sub x0) * P.small_number_geometry)
        ≤ Tensor1.distance realMath start x0 ∧
      (point_inside_cell P dh cell start = false → k1 = 0 ∧ k2 = 0) ∧
      (∀ (fuel : Nat) (length : ℝ),
        ⌊Tensor1.distance realMath start x1 /
          (Tensor1.norm realMath (x1.sub x0) * P.small_number_geometry)⌋₊ + 2 ≤ fuel →
        march realMath P dh cell start x1
          (fun p => p.add (tangent.scale
            (Tensor1.norm realMath (x1.sub x0) * P.small_number_geometry)))
          fuel length start start
          = .ok (length + k1 * (Tensor1.norm realMath (x1.sub x0) * P.small_number_geometry))) ∧
      (∀ (fuel : Nat) (length : ℝ),
        ⌊Tensor1.distance realMath start x0 /
          (Tensor1.norm realMath (x1.sub x0) * P.small_number_geometry)⌋₊ + 2 ≤ fuel →
        march realMath P dh cell start x0
          (fun p => p.sub (tangent.scale
            (Tensor1.norm realMath (x1.sub x0) * P.small_number_geometry)))
          fuel length start start
          = .ok (length + k2 * (Tensor1.norm realMath (x1.sub x0) * P.small_number_geometry))) ∧
      (∀ fuel : Nat,
        ⌊Tensor1.distance realMath start x1 /
          (Tensor1.norm realMath (x1.sub x0) * P.small_number_geometry)⌋₊ + 2 ≤ fuel →
        ⌊Tensor1.distance realMath start x0 /
          (Tensor1.norm realMath (x1.sub x0) * P.small_number_geometry)⌋₊ + 2 ≤ fuel →
        get_segment_length realMath P fuel dh start cell tangent (x0, x1)
          = .ok (0 + k1 * (Tensor1.norm realMath (x1.sub x0) * P.small_number_geometry)
            + k2 * (Tensor1.norm realMath (x1.sub x0) * P.small_number_geometry))) := by
  have hstep : 0 < Tensor1.norm realMath (x1.sub x0) * P.small_number_geometry :=
    mul_pos hlen hsng
  obtain ⟨k1, hk1, hz1, hrun1⟩ := march_bounded P dh cell start x1
    (fun p => p.add (tangent.scale
      (Tensor1.norm realMath (x1.sub x0) * P.small_number_geometry))) _ hstep
    (fun q => by rw [(norm_add_sub_scale tangent q _ ht).1, abs_of_pos hstep])
    (fun j => by
      rw [iterate_add_scale, distance_add_scale _ _ _ ht]
      exact abs_of_nonneg (by positivity))
  obtain ⟨k2, hk2, hz2, hrun2⟩ := march_bounded P dh cell start x0
    (fun p => p.sub (tangent.scale
      (Tensor1.norm realMath (x1.sub x0) * P.small_number_geometry))) _ hstep
    (fun q => by rw [(norm_add_sub_scale tangent q _ ht).2, abs_of_pos hstep])
    (fun j => by
      rw [iterate_sub_scale, distance_sub_scale _ _ _ ht]
      exact abs_of_nonneg (by positivity))
  refine ⟨k1, k2, hk1, hk2, fun h => ⟨hz1 h, hz2 h⟩, hrun1, hrun2, ?_⟩
  intro fuel hf1 hf2
  unfold get_segment_length
  simp only [unit_tangent_unchanged P tangent ht, bind, Except.bind, hrun1 fuel 0 hf1]
  exact hrun2 fuel _ hf2

end SegmentLengthTheorems

section SegmentLengthClaims

open Real

variable {C : Type} [DecidableEq C]

theorem check_duplicates_segments (locs : List (Tensor1 ℝ))
    (h : check_duplicates realMath locs = .ok ()) :
    ∀ seg ∈ segments locs, 0 < Tensor1.norm realMath (seg.2.sub seg.1) := by
  induction locs with
  | nil => intro seg hseg; simp [segments] at hseg
  | cons x rest ih =>
    cases rest with
    | nil => intro seg hseg; simp [segments] at hseg
    | cons y rest =>
      unfold check_duplicates at h
      by_cases hxy : Tensor1.norm realMath (y.sub x) > 0
      · rw [if_pos hxy] at h
        intro seg hseg
        simp only [segments, List.tail_cons, List.zip_cons_cons, List.mem_cons] at hseg
        rcases hseg with rfl | hseg
        · exact hxy
        · exact ih h seg hseg
      · rw [if_neg hxy] at h
        cases h

theorem new_Wellbore_segments (control_default : WellControl ℝ) (locs : List (Tensor1 ℝ))
    (radius : ℝ) (st : Wellbore C ℝ)
    (hst : new_Wellbore realMath control_default locs radius = .ok st) :
    ∀ seg ∈ segments st.locations, 0 < Tensor1.norm realMath (seg.2.sub seg.1) := by
  unfold new_Wellbore at hst
  split at hst
  · cases hst
  · split at hst
    · cases hst
    · simp only [bind, Except.bind, pure, Except.pure] at hst
      split at hst
      · cases hst
      · rename_i u hu
        cases hst
        exact check_duplicates_segments locs hu

/-- In exact real arithmetic: for every well accepted by the constructor, every
segment `(x0, x1)` of it, every mesh (so every containment predicate), cell and start point, and
a positive `small_number_geometry`: the marching step is positive, and each of
the two marching loops of `get_segment_length`, called with the tangent of the
segment, returns within `floor (D / step) + 2` tests of its loop condition,
`D` being the distance from the start point to the end point of its direction;
so `get_segment_length` returns. -/
theorem get_segment_length_terminates (control_default : WellControl ℝ)
    (locs : List (Tensor1 ℝ)) (radius : ℝ) (st : Wellbore C ℝ)
    (P : DefaultValues ℝ) (dh : DoFHandler C ℝ) (cell : C) (start x0 x1 : Tensor1 ℝ)
    (hst : new_Wellbore realMath control_default locs radius = .ok st)
    (hseg : (x0, x1) ∈ segments st.locations)
    (hsng : 0 < P.small_number_geometry) :
    0 < marching_step realMath P (x0, x1) ∧
    ∃ l1 l2 : ℝ,
      march realMath P dh cell start x1
        (fun p => p.add ((segment_tangent realMath x0 x1).scale
          (marching_step realMath P (x0, x1))))
        (⌊Tensor1.distance realMath start x1 / marching_step realMath P (x0, x1)⌋₊ + 2)
        0 start start = .ok l1 ∧
      march realMath P dh cell start x0
        (fun p => p.sub ((segment_tangent realMath x0 x1).scale
          (marching_step realMath P (x0, x1))))
        (⌊Tensor1.distance realMath start x0 / marching_step realMath P (x0, x1)⌋₊ + 2)
        l1 start start = .ok l2 ∧
      ∀ fuel : Nat,
        ⌊Tensor1.distance realMath start x1 / marching_step realMath P (x0, x1)⌋₊ + 2 ≤ fuel →
        ⌊Tensor1.distance realMath start x0 / marching_step realMath P (x0, x1)⌋₊ + 2 ≤ fuel →
        get_segment_length realMath P fuel dh start cell (segment_tangent realMath x0 x1)
          (x0, x1) = .ok l2 := by
  have hlen := new_Wellbore_segments control_default locs radius st hst (x0, x1) hseg
  simp only [marching_step]
  simp only at hlen
  obtain ⟨k1, k2, -, -, -, hrun1, hrun2, hget⟩ := get_segment_length_unit P dh cell start x0 x1
    (segment_tangent realMath x0 x1) hsng hlen (norm_segment_tangent x0 x1 hlen)
  exact ⟨mul_pos hlen hsng, _, _, hrun1 _ 0 le_rfl, hrun2 _ _ le_rfl, hget⟩

theorem distance_on_segment (x0 x1 : Tensor1 ℝ) (s : ℝ)
    (hlen : 0 < Tensor1.norm realMath (x1.sub x0)) (hs0 : 0 ≤ s)
    (hs1 : s ≤ Tensor1.norm realMath (x1.sub x0)) :
    Tensor1.distance realMath (x0.add ((segment_tangent realMath x0 x1).scale s)) x0 = s ∧
    Tensor1.distance realMath (x0.add ((segment_tangent realMath x0 x1).scale s)) x1
      = Tensor1.norm realMath (x1.sub x0) - s := by
  obtain ⟨h0, h1, h2⟩ := segment_tangent_components x0 x1 hlen
  have hone := unit_sum_squares _ (norm_segment_tangent x0 x1 hlen)
  generalize Tensor1.norm realMath (x1.sub x0) = len at hlen h0 h1 h2 hs1
  generalize segment_tangent realMath x0 x1 = a at h0 h1 h2 hone
  constructor
  · simp only [Tensor1.distance, Tensor1.add, Tensor1.scale, realMath]
    have e : (x0.c0 + a.c0 * s - x0.c0) * (x0.c0 + a.c0 * s - x0.c0)
        + (x0.c1 + a.c1 * s - x0.c1) * (x0.c1 + a.c1 * s - x0.c1)
        + (x0.c2 + a.c2 * s - x0.c2) * (x0.c2 + a.c2 * s - x0.c2)
        = a.c0 * s * (a.c0 * s) + a.c1 * s * (a.c1 * s) + a.c2 * s * (a.c2 * s) := by ring
    rw [e, sqrt_scaled_unit _ _ _ s hone, abs_of_nonneg hs0]
  · simp only [Tensor1.distance, Tensor1.add, Tensor1.scale, realMath]
    have e0 : x0.c0 + a.c0 * s - x1.c0 = a.c0 * (s - len) := by linarith
    have e1 : x0.c1 + a.c1 * s - x1.c1 = a.c1 * (s - len) := by linarith
    have e2 : x0.c2 + a.c2 * s - x1.c2 = a.c2 * (s - len) := by linarith
    rw [e0, e1, e2, sqrt_scaled_unit _ _ _ (s - len) hone, abs_of_nonpos (by linarith)]
    ring

/-- C26: for every mesh and cell, every segment from `x0` to `x1` of positive
length with its unit tangent, and every start point on the segment (at the
parameter `s` with `0 <= s <= |x1 - x0|`), with a positive
`small_number_geometry`: `get_segment_length` returns `(k1 + k2) * step` for
whole numbers `k1` and `k2` of marching steps, the forward part `k1 * step` is
at most the distance from the start point to `x1`, the backward part
`k2 * step` at most the distance to `x0`, the sum at most `|x1 - x0|`, and the
length is 0 when the start point is not inside the cell within the tolerance. -/
theorem get_segment_length_whole_steps (P : DefaultValues ℝ) (fuel : Nat)
    (dh : DoFHandler C ℝ) (cell : C) (x0 x1 : Tensor1 ℝ) (s : ℝ)
    (hsng : 0 < P.small_number_geometry)
    (hlen : 0 < Tensor1.norm realMath (x1.sub x0)) (hs0 : 0 ≤ s)
    (hs1 : s ≤ Tensor1.norm realMath (x1.sub x0))
    (hfuel : ⌊1 / P.small_number_geometry⌋₊ + 2 ≤ fuel) :
    ∃ k1 k2 : Nat,
      get_segment_length realMath P fuel dh
          (x0.add ((segment_tangent realMath x0 x1).scale s)) cell
          (segment_tangent realMath x0 x1) (x0, x1)
        = .ok (((k1 + k2 : Nat) : ℝ) * marching_step realMath P (x0, x1)) ∧
      0 ≤ ((k1 + k2 : Nat) : ℝ) * marching_step realMath P (x0, x1) ∧
      (k1 : ℝ) * marching_step realMath P (x0, x1) ≤ Tensor1.distance realMath
        (x0.add ((segment_tangent realMath x0 x1).scale s)) x1 ∧
      (k2 : ℝ) * marching_step realMath P (x0, x1) ≤ Tensor1.distance realMath
        (x0.add ((segment_tangent realMath x0 x1).scale s)) x0 ∧
      ((k1 + k2 : Nat) : ℝ) * marching_step realMath P (x0, x1)
        ≤ Tensor1.norm realMath (x1.sub x0) ∧
      (point_inside_cell P dh cell (x0.add ((segment_tangent realMath x0 x1).scale s)) = false →
        ((k1 + k2 : Nat) : ℝ) * marching_step realMath P (x0, x1) = 0) := by
  obtain ⟨hd0, hd1⟩ := distance_on_segment x0 x1 s hlen hs0 hs1
  obtain ⟨k1, k2, hk1, hk2, hz, -, -, hget⟩ := get_segment_length_unit P dh cell
    (x0.add ((segment_tangent realMath x0 x1).scale s)) x0 x1
    (segment_tangent realMath x0 x1) hsng hlen (norm_segment_tangent x0 x1 hlen)
  have hstep : 0 < Tensor1.norm realMath (x1.sub x0) * P.small_number_geometry :=
    mul_pos hlen hsng
  have hfloor : ∀ D : ℝ, D ≤ Tensor1.norm realMath (x1.sub x0) →
      ⌊D / (Tensor1.norm realMath (x1.sub x0) * P.small_number_geometry)⌋₊ + 2 ≤ fuel := by
    intro D hD
    have h1 : D / (Tensor1.norm realMath (x1.sub x0) * P.small_number_geometry)
        ≤ 1 / P.small_number_geometry := by
      rw [div_le_div_iff₀ hstep hsng]
      nlinarith
    have := Nat.floor_le_floor h1
    omega
  have hres := hget fuel (hfloor _ (by rw [hd1]; linarith)) (hfloor _ (by rw [hd0]; exact hs1))
  simp only [marching_step]
  refine ⟨k1, k2, ?_, ?_, hk1, hk2, ?_, ?_⟩
  · rw [hres]
    congr 1
    push_cast
    ring
  · positivity
  · rw [hd1] at hk1
    rw [hd0] at hk2
    push_cast
    linarith
  · intro hout
    obtain ⟨h1, h2⟩ := hz hout
    rw [h1, h2]
    simp

end SegmentLengthClaims

section SegmentLengthWitnesses

open Real

theorem far_well_constructed :
    (new_Wellbore realMath { type := .flow_control_total, value := 0, skin := 0 }
      [{ c0 := 20, c1 := 20, c2 := 0 }, { c0 := 20, c1 := 20, c2 := 5 }] 0.1
        : Except WellError (Wellbore Nat ℝ)) = .ok far_well := by
  have h : Tensor1.norm realMath ((⟨20, 20, 5⟩ : Tensor1 ℝ).sub ⟨20, 20, 0⟩) > 0 := by
    rw [segment_length_vertical 20 20 0 5 (by norm_num)]
    norm_num
  unfold new_Wellbore
  simp only [List.length_cons, List.length_nil, check_duplicates, if_pos h]
  norm_num [far_well, bind, Except.bind, pure, Except.pure]

/-- The well from `(20, 20, 0)` to `(20, 20, 5)` is accepted by the constructor;
on the one-cell mesh of the scenario and from the start point `(20, 20, 1)`, with
`small_number_geometry = 1/1000000`, the marching step is positive. -/
theorem get_segment_length_terminates_witness :
    0 < marching_step realMath scenario_defaults
      ((⟨20, 20, 0⟩ : Tensor1 ℝ), (⟨20, 20, 5⟩ : Tensor1 ℝ)) :=
  (get_segment_length_terminates { type := .flow_control_total, value := 0, skin := 0 }
    [{ c0 := 20, c1 := 20, c2 := 0 }, { c0 := 20, c1 := 20, c2 := 5 }] 0.1 far_well
    scenario_defaults scenario_dof_handler 0 ⟨20, 20, 1⟩ ⟨20, 20, 0⟩ ⟨20, 20, 5⟩
    far_well_constructed (by simp [far_well, segments])
    (by norm_num [scenario_defaults])).1

/-- The segment from `(5, 5, 0)` to `(5, 5, 5)` through the one-cell mesh of the
scenario, start point at the parameter `5/2`: the length returned is a whole
number of marching steps and at most the length 5 of the segment. -/
theorem get_segment_length_whole_steps_witness :
    ∃ k1 k2 : Nat,
      get_segment_length realMath scenario_defaults 1000002 scenario_dof_handler
          ((⟨5, 5, 0⟩ : Tensor1 ℝ).add ((segment_tangent realMath ⟨5, 5, 0⟩ ⟨5, 5, 5⟩).scale
            (5 / 2))) 0
          (segment_tangent realMath ⟨5, 5, 0⟩ ⟨5, 5, 5⟩) (⟨5, 5, 0⟩, ⟨5, 5, 5⟩)
        = .ok (((k1 + k2 : Nat) : ℝ) * marching_step realMath scenario_defaults
            ((⟨5, 5, 0⟩ : Tensor1 ℝ), (⟨5, 5, 5⟩ : Tensor1 ℝ))) ∧
      ((k1 + k2 : Nat) : ℝ) * marching_step realMath scenario_defaults
          ((⟨5, 5, 0⟩ : Tensor1 ℝ), (⟨5, 5, 5⟩ : Tensor1 ℝ))
        ≤ Tensor1.norm realMath ((⟨5, 5, 5⟩ : Tensor1 ℝ).sub ⟨5, 5, 0⟩) := by
  have hn := segment_length_vertical 5 5 0 5 (by norm_num)
  obtain ⟨k1, k2, h1, -, -, -, h5, -⟩ :=
    get_segment_length_whole_steps scenario_defaults 1000002 scenario_dof_handler 0
      ⟨5, 5, 0⟩ ⟨5, 5, 5⟩ (5 / 2) (by norm_num [scenario_defaults])
      (by rw [hn]; norm_num) (by norm_num) (by rw [hn]; norm_num)
      (by rw [scenario_floor_fuel])
  exact ⟨k1, k2, h1, h5⟩

end SegmentLengthWitnesses

/-! ## What sets skip_cell (C30) -/

section SkipTheorems

variable {C F : Type} [DecidableEq C] [LinearOrderedField F] [FloorRing F]

theorem subface_loop_eq_true_iff (M : MathFns F) (P : DefaultValues F)
    (normalize : Tensor1 F → Tensor1 F) (dh : DoFHandler C F) (cell : C) (n d : Tensor1 F)
    (eps : F) (f : Nat) (subfaces : List Nat) (skip : Bool) :
    subface_loop M P normalize dh cell n d eps f subfaces skip = true ↔
      skip = true ∨ ∃ sf ∈ subfaces,
        aligned_with_face M P normalize n (dh.subface_normal cell f sf) = true ∧
        neighbor_is_farther M n ((dh.center (dh.neighbor_child_on_subface cell f sf)).sub d)
          (dh.active_cell_index cell)
          (dh.active_cell_index (dh.neighbor_child_on_subface cell f sf)) eps = false := by
  induction subfaces generalizing skip with
  | nil => simp [subface_loop]
  | cons sf rest ih =>
    unfold subface_loop
    simp only [List.mem_cons, exists_eq_or_imp]
    by_cases htrig : (aligned_with_face M P normalize n (dh.subface_normal cell f sf) &&
        !neighbor_is_farther M n ((dh.center (dh.neighbor_child_on_subface cell f sf)).sub d)
          (dh.active_cell_index cell)
          (dh.active_cell_index (dh.neighbor_child_on_subface cell f sf)) eps) = true
    · rw [if_pos htrig, subface_loop_true]
      simp only [Bool.and_eq_true, Bool.not_eq_true'] at htrig
      simp [htrig.1, htrig.2]
    · rw [if_neg htrig, ih]
      simp only [Bool.and_eq_true, Bool.not_eq_true', not_and, Bool.not_eq_false] at htrig
      constructor
      · rintro (h | h)
        · exact Or.inl h
        · exact Or.inr (Or.inr h)
      · rintro (h | ⟨h1, h2⟩ | h)
        · exact Or.inl h
        · rw [htrig h1] at h2
          cases h2
        · exact Or.inr h

theorem face_loop_eq_true_iff (M : MathFns F) (P : DefaultValues F)
    (normalize : Tensor1 F → Tensor1 F) (dh : DoFHandler C F) (cell : C) (n d : Tensor1 F)
    (eps : F) (faces : List Nat) (skip : Bool) :
    face_loop M P normalize dh cell n d eps faces skip = true ↔
      skip = true ∨ ∃ f ∈ faces, dh.at_boundary cell f = false ∧
        (((dh.neighbor_level_equal cell f && (dh.neighbor_has_children cell f == false)
            || dh.neighbor_is_coarser cell f) = true ∧
          aligned_with_face M P normalize n (dh.face_normal cell f) = true ∧
          neighbor_is_farther M n ((dh.center (dh.neighbor cell f)).sub d)
            (dh.active_cell_index cell) (dh.active_cell_index (dh.neighbor cell f)) eps
              = false) ∨
         ((dh.neighbor_level_equal cell f && (dh.neighbor_has_children cell f == false)
            || dh.neighbor_is_coarser cell f) = false ∧
          (dh.neighbor_level_equal cell f && (dh.neighbor_has_children cell f == true)) = true ∧
          ∃ sf ∈ List.range (dh.face_n_children cell f),
            aligned_with_face M P normalize n (dh.subface_normal cell f sf) = true ∧
            neighbor_is_farther M n
              ((dh.center (dh.neighbor_child_on_subface cell f sf)).sub d)
              (dh.active_cell_index cell)
              (dh.active_cell_index (dh.neighbor_child_on_subface cell f sf)) eps = false)) := by
  induction faces generalizing skip with
  | nil => simp [face_loop]
  | cons f rest ih =>
    unfold face_loop
    simp only [List.mem_cons, exists_eq_or_imp]
    cases hb : dh.at_boundary cell f with
    | true =>
      rw [if_neg (by simp), ih]
      simp
    | false =>
      rw [if_pos (by simp)]
      cases hbr : (dh.neighbor_level_equal cell f && (dh.neighbor_has_children cell f == false)
          || dh.neighbor_is_coarser cell f) with
      | true =>
        rw [if_pos rfl]
        by_cases htrig : (aligned_with_face M P normalize n (dh.face_normal cell f) &&
            !neighbor_is_farther M n ((dh.center (dh.neighbor cell f)).sub d)
              (dh.active_cell_index cell) (dh.active_cell_index (dh.neighbor cell f)) eps)
              = true
        · rw [if_pos htrig]
          simp only [Bool.and_eq_true, Bool.not_eq_true'] at htrig
          simp [htrig.1, htrig.2]
        · rw [if_neg htrig, ih]
          simp only [Bool.and_eq_true, Bool.not_eq_true', not_and, Bool.not_eq_false] at htrig
          constructor
          · rintro (h | h)
            · exact Or.inl h
            · exact Or.inr (Or.inr h)
          · rintro (h | ⟨-, ⟨-, h1, h2⟩ | ⟨h3, -⟩⟩ | h)
            · exact Or.inl h
            · rw [htrig h1] at h2
              cases h2
            · cases h3
            · exact Or.inr h
      | false =>
        rw [if_neg (by simp)]
        cases hbr2 : (dh.neighbor_level_equal cell f &&
            (dh.neighbor_has_children cell f == true)) with
        | true =>
          rw [if_pos rfl, ih, subface_loop_eq_true_iff]
          constructor
          · rintro ((h | h) | h)
            · exact Or.inl h
            · exact Or.inr (Or.inl ⟨rfl, Or.inr ⟨rfl, rfl, h⟩⟩)
            · exact Or.inr (Or.inr h)
          · rintro (h | ⟨-, ⟨h3, -⟩ | ⟨-, -, h⟩⟩ | h)
            · exact Or.inl (Or.inl h)
            · cases h3
            · exact Or.inl (Or.inr h)
            · exact Or.inr h
        | false =>
          rw [if_neg (by simp), ih]
          constructor
          · rintro (h | h)
            · exact Or.inl h
            · exact Or.inr (Or.inr h)
          · rintro (h | ⟨-, ⟨h3, -⟩ | ⟨-, h4, -⟩⟩ | h)
            · exact Or.inl h
            · cases h3
            · cases h4
            · exact Or.inr h

/-- C30 amended: the test of alignment is made on the vector `n` from the
centre of the cell to the point `d` of the line of the segment closest to it,
not on the tangent of the segment. For a cell and a segment, `skip_cell` is set
if and only if some face `f` of the cell that is not at the boundary is such
that: either the neighbour has the same level and no children, or is coarser,
`aligned_with_face (n, nf)` holds for the normal `nf` of the face and
`neighbor_is_farther` is false for the neighbour; or the neighbour has the same
level and has children, and for some subface the same two conditions hold with
the normal of the subface and the child of the neighbour behind it. -/
theorem skip_cell_iff (M : MathFns F) (P : DefaultValues F)
    (normalize : Tensor1 F → Tensor1 F) (dh : DoFHandler C F) (cell : C)
    (x0 x1 : Tensor1 F) :
    face_loop M P normalize dh cell (cell_to_wellbore M dh cell x0 x1)
        (closest_point M dh cell x0 x1) (P.small_number * dh.diameter cell) (List.range 6) false
        = true ↔
      ∃ f, f < 6 ∧ dh.at_boundary cell f = false ∧
        (((dh.neighbor_level_equal cell f && (dh.neighbor_has_children cell f == false)
            || dh.neighbor_is_coarser cell f) = true ∧
          aligned_with_face M P normalize (cell_to_wellbore M dh cell x0 x1)
            (dh.face_normal cell f) = true ∧
          neighbor_is_farther M (cell_to_wellbore M dh cell x0 x1)
            ((dh.center (dh.neighbor cell f)).sub (closest_point M dh cell x0 x1))
            (dh.active_cell_index cell) (dh.active_cell_index (dh.neighbor cell f))
            (P.small_number * dh.diameter cell) = false) ∨
         ((dh.neighbor_level_equal cell f && (dh.neighbor_has_children cell f == false)
            || dh.neighbor_is_coarser cell f) = false ∧
          (dh.neighbor_level_equal cell f && (dh.neighbor_has_children cell f == true)) = true ∧
          ∃ sf, sf < dh.face_n_children cell f ∧
            aligned_with_face M P normalize (cell_to_wellbore M dh cell x0 x1)
              (dh.subface_normal cell f sf) = true ∧
            neighbor_is_farther M (cell_to_wellbore M dh cell x0 x1)
              ((dh.center (dh.neighbor_child_on_subface cell f sf)).sub
                (closest_point M dh cell x0 x1))
              (dh.active_cell_index cell)
              (dh.active_cell_index (dh.neighbor_child_on_subface cell f sf))
              (P.small_number * dh.diameter cell) = false)) := by
  rw [face_loop_eq_true_iff]
  simp only [Bool.false_eq_true, false_or, List.mem_range]

end SkipTheorems

section SkipCounterexample

open Real

theorem math_normalize_planar (v : Tensor1 ℝ) (hv : v.c2 = 0) : (Math_normalize v).c2 = 0 := by
  simp only [Math_normalize, Tensor1.div, hv, zero_div]

/-- C30 as stated fails, in both directions. On the mesh of two equal cubes,
for the segment from `(8, 4, 0)` to `(8, 4, 8)` in the shared face, `skip_cell`
is set for the cell 1 although the tangent `(0, 0, 1)` of the segment is
perpendicular to the normal of every face of the cell that is not at the
boundary. In the column of two cubes of size 8, for the segment from
`(4, 4, 0)` to `(4, 4, 16)` through the cell centres, the tangent is parallel to
the normal of the face 5 of the cell 0, which is not at the boundary, and the
neighbour across it is as close to the well as the cell (both at distance 0),
but `skip_cell` is not set for the cell 0. -/
theorem skip_cell_not_by_tangent :
    (face_loop realMath scenario_defaults Math_normalize two_box_dof_handler 1
        (cell_to_wellbore realMath two_box_dof_handler 1 ⟨8, 4, 0⟩ ⟨8, 4, 8⟩)
        (closest_point realMath two_box_dof_handler 1 ⟨8, 4, 0⟩ ⟨8, 4, 8⟩)
        (scenario_defaults.small_number * two_box_dof_handler.diameter 1) (List.range 6) false
        = true ∧
      ∀ f, two_box_dof_handler.at_boundary 1 f = false →
        ¬ (|scalar_product (segment_tangent realMath ⟨8, 4, 0⟩ ⟨8, 4, 8⟩)
            (two_box_dof_handler.face_normal 1 f)| > scenario_defaults.cos_small_angle)) ∧
    ((column_dof_handler 2 8).at_boundary 0 5 = false ∧
      |scalar_product (segment_tangent realMath ⟨4, 4, 0⟩ ⟨4, 4, 16⟩)
          ((column_dof_handler 2 8).face_normal 0 5)| > scenario_defaults.cos_small_angle ∧
      Tensor1.norm realMath (cell_to_wellbore realMath (column_dof_handler 2 8)
          ((column_dof_handler 2 8).neighbor 0 5) ⟨4, 4, 0⟩ ⟨4, 4, 16⟩)
        ≤ Tensor1.norm realMath (cell_to_wellbore realMath (column_dof_handler 2 8) 0
          ⟨4, 4, 0⟩ ⟨4, 4, 16⟩) ∧
      face_loop realMath scenario_defaults Math_normalize (column_dof_handler 2 8) 0
        (cell_to_wellbore realMath (column_dof_handler 2 8) 0 ⟨4, 4, 0⟩ ⟨4, 4, 16⟩)
        (closest_point realMath (column_dof_handler 2 8) 0 ⟨4, 4, 0⟩ ⟨4, 4, 16⟩)
        (scenario_defaults.small_number * (column_dof_handler 2 8).diameter 0) (List.range 6)
        false = false) := by
  refine ⟨⟨?_, ?_⟩, ?_, ?_, ?_, ?_⟩
  · have h := two_box_centred_skip_one
    have hn : (⟨8 - (two_box_dof_handler.center 1).c0, 4 - 4, 0⟩ : Tensor1 ℝ) = ⟨-4, 0, 0⟩ := by
      simp only [two_box_dof_handler, Tensor1.mk.injEq, and_true]
      norm_num
    rw [hn] at h
    rw [two_box_centred_distances.2.1, two_box_centred_distances.2.2.2]
    exact h
  · intro f hf
    have hf0 : f = 0 := by
      simpa [two_box_dof_handler] using hf
    subst hf0
    rw [segment_tangent_vertical _ _ _ _ (by norm_num)]
    simp only [two_box_dof_handler, box_face_normal, scalar_product, scenario_defaults]
    norm_num
  · simp [column_dof_handler]
  · rw [segment_tangent_vertical _ _ _ _ (by norm_num)]
    simp only [column_dof_handler, box_face_normal, scalar_product, scenario_defaults]
    norm_num
  · rw [cell_to_wellbore_vertical _ _ _ _ _ _ (by norm_num),
      cell_to_wellbore_vertical _ _ _ _ _ _ (by norm_num)]
    simp [column_dof_handler]
  · rw [cell_to_wellbore_vertical _ _ _ _ _ _ (by norm_num)]
    exact column_face_loop scenario_defaults Math_normalize 2 8 0 _ _ _ _
      (by norm_num [scenario_defaults]) math_normalize_planar

end SkipCounterexample

/-! ## The start point of the marching (C25) -/

section StartPointTheorems

variable {C F : Type} [DecidableEq C] [LinearOrderedField F]

/-- From a start point that is not inside the cell within the tolerance,
neither marching loop is entered and `get_segment_length` returns 0. -/
theorem get_segment_length_outside (M : MathFns F) (P : DefaultValues F) (fuel : Nat)
    (dh : DoFHandler C F) (start : Tensor1 F) (cell : C) (tangent : Tensor1 F)
    (end_points : Tensor1 F × Tensor1 F)
    (hout : point_inside_cell P dh cell start = false) :
    get_segment_length M P (fuel + 1) dh start cell tangent end_points = .ok 0 := by
  unfold get_segment_length
  simp only [march, hout, Bool.false_eq_true, if_false, bind, Except.bind]

end StartPointTheorems

section EdgeWellTheorems

open Real

theorem edge_well_locals :
    Tensor1.norm realMath ((⟨15400001 / 1000000, 7800007 / 1000000, 4⟩ : Tensor1 ℝ).sub
        ⟨16000001 / 1000000, 7000007 / 1000000, 4⟩) = 1 ∧
      segment_tangent realMath ⟨16000001 / 1000000, 7000007 / 1000000, 4⟩
        ⟨15400001 / 1000000, 7800007 / 1000000, 4⟩ = ⟨-3 / 5, 4 / 5, 0⟩ ∧
      closest_parameter realMath offset_cube_dof_handler 0
        ⟨16000001 / 1000000, 7000007 / 1000000, 4⟩
        ⟨15400001 / 1000000, 7800007 / 1000000, 4⟩ = -5 / 1000000 ∧
      closest_point realMath offset_cube_dof_handler 0
        ⟨16000001 / 1000000, 7000007 / 1000000, 4⟩
        ⟨15400001 / 1000000, 7800007 / 1000000, 4⟩
          = ⟨16000004 / 1000000, 7000003 / 1000000, 4⟩ := by
  have hsub : (⟨15400001 / 1000000, 7800007 / 1000000, 4⟩ : Tensor1 ℝ).sub
      ⟨16000001 / 1000000, 7000007 / 1000000, 4⟩ = ⟨-3 / 5, 4 / 5, 0⟩ := by
    simp only [Tensor1.sub, Tensor1.mk.injEq]
    norm_num
  have hlen : Tensor1.norm realMath (⟨-3 / 5, 4 / 5, 0⟩ : Tensor1 ℝ) = 1 :=
    norm_planar _ _ _ (by norm_num) (by norm_num)
  have htan : segment_tangent realMath ⟨16000001 / 1000000, 7000007 / 1000000, 4⟩
      ⟨15400001 / 1000000, 7800007 / 1000000, 4⟩ = ⟨-3 / 5, 4 / 5, 0⟩ := by
    unfold segment_tangent
    rw [hsub, hlen]
    simp [Tensor1.div]
  refine ⟨by rw [hsub, hlen], htan, ?_, ?_⟩
  · unfold closest_parameter
    rw [htan]
    simp only [offset_cube_dof_handler, Tensor1.sub, scalar_product]
    norm_num
  · unfold closest_point
    rw [htan]
    simp only [offset_cube_dof_handler, Tensor1.sub, Tensor1.add, Tensor1.scale,
      scalar_product, Tensor1.mk.injEq]
    norm_num

theorem edge_well_checks :
    point_inside_cell scenario_defaults offset_cube_dof_handler 0
        ⟨16000004 / 1000000, 7000003 / 1000000, 4⟩ = true ∧
      offset_cube_dof_handler.point_inside 0 ⟨16000001 / 1000000, 7000007 / 1000000, 4⟩
        = false ∧
      offset_cube_dof_handler.point_inside 0 ⟨15400001 / 1000000, 7800007 / 1000000, 4⟩
        = true ∧
      point_inside_cell scenario_defaults offset_cube_dof_handler 0 ⟨0, 0, 0⟩ = false := by
  have h3 := sqrt_three_bounds
  have heps1 : 4 / 1000000 ≤ scenario_defaults.small_number_geometry * (8 * √3) := by
    simp only [scenario_defaults]
    nlinarith [h3.1]
  have heps2 : scenario_defaults.small_number_geometry * (8 * √3) ≤ 1 := by
    simp only [scenario_defaults]
    nlinarith [h3.2]
  refine ⟨?_, ?_, ?_, ?_⟩
  · simp only [point_inside_cell, offset_cube_dof_handler, box_contains, Tensor1.add,
      Bool.or_eq_true, decide_eq_true_eq, add_zero]
    left; left; left; left; right
    refine ⟨?_, ?_, ?_, ?_, ?_, ?_⟩ <;> linarith
  · simp only [offset_cube_dof_handler, box_contains, decide_eq_false_iff_not]
    norm_num
  · simp only [offset_cube_dof_handler, box_contains, decide_eq_true_eq]
    norm_num
  · simp only [point_inside_cell, offset_cube_dof_handler, box_contains, Tensor1.add,
      Bool.or_eq_false_iff, decide_eq_false_iff_not, not_and, not_le, add_zero, zero_add]
    refine ⟨⟨⟨⟨⟨?_, ?_⟩, ?_⟩, ?_⟩, ?_⟩, ?_⟩ <;> intros <;> linarith

theorem edge_well_start_point (start : Tensor1 ℝ) :
    start_point realMath offset_cube_dof_handler 0
      ⟨16000001 / 1000000, 7000007 / 1000000, 4⟩
      ⟨15400001 / 1000000, 7800007 / 1000000, 4⟩ start = start := by
  unfold start_point
  rw [edge_well_locals.2.2.1, edge_well_locals.1, edge_well_checks.2.1]
  norm_num

theorem edge_well_locate_segment (fuel : Nat) (s : Wellbore Nat ℝ × Tensor1 ℝ)
    (hnew : 0 ∉ s.1.cells)
    (hstart : point_inside_cell scenario_defaults offset_cube_dof_handler 0 s.2 = false) :
    locate_segment realMath scenario_defaults Math_normalize (fuel + 1) offset_cube_dof_handler 0
        ⟨16000001 / 1000000, 7000007 / 1000000, 4⟩
        ⟨15400001 / 1000000, 7800007 / 1000000, 4⟩ s = .ok
      ({ s.1 with cells := s.1.cells ++ [0]
                  segment_length := s.1.segment_length ++ [0]
                  segment_direction := s.1.segment_direction ++ [⟨-3 / 5, 4 / 5, 0⟩] },
        s.2) := by
  have h := locate_segment_of_no_skip realMath scenario_defaults Math_normalize (fuel + 1)
    offset_cube_dof_handler 0 ⟨16000001 / 1000000, 7000007 / 1000000, 4⟩
    ⟨15400001 / 1000000, 7800007 / 1000000, 4⟩ s 0
    (by rw [edge_well_locals.2.2.2]; exact edge_well_checks.1)
    (by rw [edge_well_checks.2.2.1]; simp)
    (by simp [face_loop, List.range, List.range.loop, offset_cube_dof_handler])
    (by
      rw [edge_well_start_point]
      exact get_segment_length_outside _ _ _ _ _ _ _ _ hstart)
    hnew
  rw [edge_well_start_point, edge_well_locals.2.1] at h
  exact h

end EdgeWellTheorems

section StartPointClaim

open Real

/-- C25 fails on the code: when `t < 0` and `x0` is not inside the cell (so that
`x1` is, the cell having passed the range check), none of the three
assignments to `start` is executed and `get_segment_length` is handed the value
that `start` holds from before, not the projected point `d`. For the cube from
`(8, 0, 0)` to `(16, 8, 8)` and the segment of `edge_well`, which enters the cube
just past its start: the cell passes both checks, `t = -5/1000000`, `x0` is
outside and `x1` inside, the start point is whatever `start` held before, and
`locate` on the fresh well, where that value is the origin, binds the cell with
the length 0 although the segment runs inside the cube over nearly its whole
length 1. -/
theorem start_point_keeps_previous_value :
    (point_inside_cell scenario_defaults offset_cube_dof_handler 0
        (closest_point realMath offset_cube_dof_handler 0
          ⟨16000001 / 1000000, 7000007 / 1000000, 4⟩
          ⟨15400001 / 1000000, 7800007 / 1000000, 4⟩) = true ∧
      closest_parameter realMath offset_cube_dof_handler 0
          ⟨16000001 / 1000000, 7000007 / 1000000, 4⟩
          ⟨15400001 / 1000000, 7800007 / 1000000, 4⟩ < 0 ∧
      offset_cube_dof_handler.point_inside 0 ⟨16000001 / 1000000, 7000007 / 1000000, 4⟩
        = false ∧
      offset_cube_dof_handler.point_inside 0 ⟨15400001 / 1000000, 7800007 / 1000000, 4⟩
        = true) ∧
    (∀ start : Tensor1 ℝ,
      start_point realMath offset_cube_dof_handler 0
        ⟨16000001 / 1000000, 7000007 / 1000000, 4⟩
        ⟨15400001 / 1000000, 7800007 / 1000000, 4⟩ start = start) ∧
    closest_point realMath offset_cube_dof_handler 0
        ⟨16000001 / 1000000, 7000007 / 1000000, 4⟩
        ⟨15400001 / 1000000, 7800007 / 1000000, 4⟩
      = ⟨16000004 / 1000000, 7000003 / 1000000, 4⟩ ∧
    locate realMath scenario_defaults Math_normalize 1 offset_cube_dof_handler edge_well
      = .ok { edge_well with cells := [0]
                             segment_length := [0]
                             segment_direction := [⟨-3 / 5, 4 / 5, 0⟩] } := by
  refine ⟨⟨?_, ?_, edge_well_checks.2.1, edge_well_checks.2.2.1⟩, edge_well_start_point,
    edge_well_locals.2.2.2, ?_⟩
  · rw [edge_well_locals.2.2.2]
    exact edge_well_checks.1
  · rw [edge_well_locals.2.2.1]
    norm_num
  · have hcells : offset_cube_dof_handler.active_cells = [0] := rfl
    have h := edge_well_locate_segment 0 ({ edge_well with cells := [] }, ⟨0, 0, 0⟩)
      (by simp) edge_well_checks.2.2.2
    unfold locate
    simp only [hcells, cell_loop, edge_well, List.not_mem_nil, if_false, segments,
      List.tail_cons, List.zip_cons_cons, List.zip_nil_right, segment_loop, bind, Except.bind,
      pure, Except.pure]
    simp only [edge_well] at h
    simp only [h, List.nil_append]

end StartPointClaim

/-! ## The order of the cell loop (C21) -/

section OrderTheorems

variable {C F : Type} [DecidableEq C] [LinearOrderedField F] [FloorRing F]

theorem point_inside_cell_active_cells (P : DefaultValues F) (dh : DoFHandler C F)
    (cs : List C) (cell : C) (p : Tensor1 F) :
    point_inside_cell P { dh with active_cells := cs } cell p = point_inside_cell P dh cell p :=
  rfl

theorem march_active_cells (M : MathFns F) (P : DefaultValues F) (dh : DoFHandler C F)
    (cs : List C) (cell : C) (start end_point : Tensor1 F) (advance : Tensor1 F → Tensor1 F)
    (fuel : Nat) (length : F) (p pp : Tensor1 F) :
    march M P { dh with active_cells := cs } cell start end_point advance fuel length p pp
      = march M P dh cell start end_point advance fuel length p pp := by
  induction fuel generalizing length p pp with
  | zero => rfl
  | succ fuel ih =>
    unfold march
    rw [point_inside_cell_active_cells]
    simp only [ih]

theorem get_segment_length_active_cells (M : MathFns F) (P : DefaultValues F) (fuel : Nat)
    (dh : DoFHandler C F) (cs : List C) (start : Tensor1 F) (cell : C) (tangent : Tensor1 F)
    (end_points : Tensor1 F × Tensor1 F) :
    get_segment_length M P fuel { dh with active_cells := cs } start cell tangent end_points
      = get_segment_length M P fuel dh start cell tangent end_points := by
  unfold get_segment_length
  simp only [march_active_cells]

theorem subface_loop_active_cells (M : MathFns F) (P : DefaultValues F)
    (normalize : Tensor1 F → Tensor1 F) (dh : DoFHandler C F) (cs : List C) (cell : C)
    (n d : Tensor1 F) (eps : F) (f : Nat) (subfaces : List Nat) (skip : Bool) :
    subface_loop M P normalize { dh with active_cells := cs } cell n d eps f subfaces skip
      = subface_loop M P normalize dh cell n d eps f subfaces skip := by
  induction subfaces generalizing skip with
  | nil => rfl
  | cons sf rest ih =>
    unfold subface_loop
    simp only [ih]

theorem face_loop_active_cells (M : MathFns F) (P : DefaultValues F)
    (normalize : Tensor1 F → Tensor1 F) (dh : DoFHandler C F) (cs : List C) (cell : C)
    (n d : Tensor1 F) (eps : F) (faces : List Nat) (skip : Bool) :
    face_loop M P normalize { dh with active_cells := cs } cell n d eps faces skip
      = face_loop M P normalize dh cell n d eps faces skip := by
  induction faces generalizing skip with
  | nil => rfl
  | cons f rest ih =>
    unfold face_loop
    simp only [ih, subface_loop_active_cells]

theorem locate_segment_active_cells (M : MathFns F) (P : DefaultValues F)
    (normalize : Tensor1 F → Tensor1 F) (fuel : Nat) (dh : DoFHandler C F) (cs : List C)
    (cell : C) (x0 x1 : Tensor1 F) (s : Wellbore C F × Tensor1 F) :
    locate_segment M P normalize fuel { dh with active_cells := cs } cell x0 x1 s
      = locate_segment M P normalize fuel dh cell x0 x1 s := by
  unfold locate_segment
  simp only [point_inside_cell_active_cells, face_loop_active_cells,
    get_segment_length_active_cells]

theorem segment_loop_active_cells (M : MathFns F) (P : DefaultValues F)
    (normalize : Tensor1 F → Tensor1 F) (fuel : Nat) (dh : DoFHandler C F) (cs : List C)
    (cell : C) (segs : List (Tensor1 F × Tensor1 F)) (s : Wellbore C F × Tensor1 F) :
    segment_loop M P normalize fuel { dh with active_cells := cs } cell segs s
      = segment_loop M P normalize fuel dh cell segs s := by
  induction segs generalizing s with
  | nil => rfl
  | cons seg rest ih =>
    obtain ⟨x0, x1⟩ := seg
    unfold segment_loop
    simp only [locate_segment_active_cells, ih]

theorem cell_loop_active_cells (M : MathFns F) (P : DefaultValues F)
    (normalize : Tensor1 F → Tensor1 F) (fuel : Nat) (dh : DoFHandler C F) (cs : List C)
    (cells : List C) (s : Wellbore C F × Tensor1 F) :
    cell_loop M P normalize fuel { dh with active_cells := cs } cells s
      = cell_loop M P normalize fuel dh cells s := by
  induction cells generalizing s with
  | nil => rfl
  | cons cell rest ih =>
    unfold cell_loop
    simp only [ih, segment_loop_active_cells]
    rfl

/-- The result of `locate` on a mesh whose cells are visited in the order
`cs` is the result of the cell loop over `cs`. -/
theorem locate_active_cells (M : MathFns F) (P : DefaultValues F)
    (normalize : Tensor1 F → Tensor1 F) (fuel : Nat) (dh : DoFHandler C F) (cs : List C)
    (st : Wellbore C F) :
    locate M P normalize fuel { dh with active_cells := cs } st =
      (cell_loop M P normalize fuel dh cs
        ({ st with cells := [] }, { c0 := 0, c1 := 0, c2 := 0 })).bind (fun s => .ok s.1) := by
  unfold locate
  rw [cell_loop_active_cells]
  rfl

end OrderTheorems

section OrderTheorems2

variable {C F : Type} [DecidableEq C] [LinearOrderedField F] [FloorRing F]

theorem find?_perm_of_unique {α : Type} (p : α → Bool) (l l' : List α) (hperm : l'.Perm l)
    (huniq : ∀ c ∈ l, ∀ c' ∈ l, p c = true → p c' = true → c = c') :
    l'.find? p = l.find? p := by
  cases h : l.find? p with
  | none =>
    rw [List.find?_eq_none] at h ⊢
    intro x hx
    exact h x (hperm.subset hx)
  | some c =>
    have hc : p c = true := List.find?_some h
    have hmem : c ∈ l := List.mem_of_find?_eq_some h
    cases h' : l'.find? p with
    | none =>
      rw [List.find?_eq_none] at h'
      exact absurd hc (h' c (hperm.symm.subset hmem))
    | some c' =>
      have hc' : p c' = true := List.find?_some h'
      have hmem' : c' ∈ l := hperm.subset (List.mem_of_find?_eq_some h')
      rw [huniq c' hmem' c hmem hc' hc]

/-- A trajectory that is one point, contained in at most one active cell: the
order of the cells does not matter. -/
theorem locate_single_point_order (M : MathFns F) (P : DefaultValues F)
    (normalize : Tensor1 F → Tensor1 F) (fuel : Nat) (dh : DoFHandler C F) (cells' : List C)
    (st : Wellbore C F) (x : Tensor1 F)
    (hperm : cells'.Perm dh.active_cells) (hloc : st.locations = [x])
    (hlen : st.segment_length = [] ∧ st.segment_direction = [])
    (huniq : ∀ c ∈ dh.active_cells, ∀ c' ∈ dh.active_cells,
      dh.point_inside c x = true → dh.point_inside c' x = true → c = c') :
    ∃ r, locate M P normalize fuel dh st = .ok r ∧
      locate M P normalize fuel { dh with active_cells := cells' } st = .ok r ∧
      r.segment_length.length = r.cells.length ∧
      r.segment_direction.length = r.cells.length := by
  have h1 : locate M P normalize fuel dh st
      = (cell_loop M P normalize fuel dh dh.active_cells
        ({ st with cells := [] }, { c0 := 0, c1 := 0, c2 := 0 })).bind (fun s => .ok s.1) := rfl
  rw [h1, locate_active_cells,
    cell_loop_single_point M P normalize fuel dh _ _ x hloc rfl,
    cell_loop_single_point M P normalize fuel dh _ _ x hloc rfl,
    find?_perm_of_unique (fun c => dh.point_inside c x) _ _ hperm huniq]
  cases dh.active_cells.find? (fun c => dh.point_inside c x) with
  | none => exact ⟨_, rfl, rfl, by simp [hlen.1], by simp [hlen.2]⟩
  | some c => exact ⟨_, rfl, rfl, by simp [hlen.1], by simp [hlen.2]⟩

end OrderTheorems2

section OrderCounterexample

open Real

theorem two_box_cell_size (c : Nat) :
    (get_cell_size two_box_dof_handler.toMesh c).c2 = 8 := by
  simp only [get_cell_size, two_box_dof_handler, coordinate_extent, min_max_update, List.map,
    List.foldl]
  norm_num

/-- C21 as stated fails: for the well that is the single point `(8, 4, 4)` on
the face shared by the two cubes, both cells contain the point and `locate`
binds the cell that is visited first: the cell 0 when the cells are visited in
the order 0, 1 and the cell 1 when they are visited in the order 1, 0. -/
theorem locate_depends_on_cell_order :
    locate realMath scenario_defaults Math_normalize 0 two_box_dof_handler face_point_well
        = .ok { face_point_well with cells := [0]
                                     segment_length := [8]
                                     segment_direction := [⟨0, 0, 1⟩] } ∧
      locate realMath scenario_defaults Math_normalize 0
          { two_box_dof_handler with active_cells := [1, 0] } face_point_well
        = .ok { face_point_well with cells := [1]
                                     segment_length := [8]
                                     segment_direction := [⟨0, 0, 1⟩] } := by
  have hin : ∀ c : Nat, c = 0 ∨ c = 1 →
      two_box_dof_handler.point_inside c (⟨8, 4, 4⟩ : Tensor1 ℝ) = true := by
    intro c hc
    simp only [two_box_dof_handler, box_contains, decide_eq_true_eq]
    rcases hc with rfl | rfl <;> norm_num [two_box_lo, two_box_hi]
  constructor
  · have hcells : two_box_dof_handler.active_cells = [0, 1] := rfl
    unfold locate
    rw [cell_loop_single_point realMath scenario_defaults Math_normalize 0 two_box_dof_handler
      _ _ ⟨8, 4, 4⟩ rfl rfl]
    simp only [hcells, List.find?_cons, hin 0 (Or.inl rfl), two_box_cell_size, bind,
      Except.bind, pure, Except.pure]
    rfl
  · rw [locate_active_cells,
      cell_loop_single_point realMath scenario_defaults Math_normalize 0 two_box_dof_handler
        _ _ ⟨8, 4, 4⟩ rfl rfl]
    simp only [List.find?_cons, hin 1 (Or.inr rfl), two_box_cell_size, Except.bind]
    rfl

end OrderCounterexample

section OrderSegmentTheorems

open Real

variable {C : Type} [DecidableEq C]

/-- From a start point on the segment, `get_segment_length` returns when it is
given `floor (1 / small_number_geometry) + 2` units of fuel. -/
theorem get_segment_length_on_segment (P : DefaultValues ℝ) (fuel : Nat)
    (dh : DoFHandler C ℝ) (cell : C) (x0 x1 : Tensor1 ℝ) (σ : ℝ)
    (hsng : 0 < P.small_number_geometry)
    (hlen : 0 < Tensor1.norm realMath (x1.sub x0)) (h0 : 0 ≤ σ)
    (h1 : σ ≤ Tensor1.norm realMath (x1.sub x0))
    (hfuel : ⌊1 / P.small_number_geometry⌋₊ + 2 ≤ fuel) :
    ∃ l, get_segment_length realMath P fuel dh
      (x0.add ((segment_tangent realMath x0 x1).scale σ)) cell
      (segment_tangent realMath x0 x1) (x0, x1) = .ok l := by
  obtain ⟨hd0, hd1⟩ := distance_on_segment x0 x1 σ hlen h0 h1
  obtain ⟨k1, k2, -, -, -, -, -, hget⟩ := get_segment_length_unit P dh cell
    (x0.add ((segment_tangent realMath x0 x1).scale σ)) x0 x1
    (segment_tangent realMath x0 x1) hsng hlen (norm_segment_tangent x0 x1 hlen)
  have hstep : 0 < Tensor1.norm realMath (x1.sub x0) * P.small_number_geometry :=
    mul_pos hlen hsng
  have hfloor : ∀ D : ℝ, D ≤ Tensor1.norm realMath (x1.sub x0) →
      ⌊D / (Tensor1.norm realMath (x1.sub x0) * P.small_number_geometry)⌋₊ + 2 ≤ fuel := by
    intro D hD
    have h1 : D / (Tensor1.norm realMath (x1.sub x0) * P.small_number_geometry)
        ≤ 1 / P.small_number_geometry := by
      rw [div_le_div_iff₀ hstep hsng]
      nlinarith
    have := Nat.floor_le_floor h1
    omega
  exact ⟨_, hget fuel (hfloor _ (by rw [hd1]; linarith)) (hfloor _ (by rw [hd0]; exact h1))⟩

/-- When the cell passes the range check and it is not the case that the
parameter `t` is negative with only `x1` inside the cell, or beyond the end
with only `x0` inside, one of the three assignments to `start` is executed:
the start point is a point of the segment and does not depend on the value
that `start` held before. -/
theorem start_point_assigned (dh : DoFHandler C ℝ) (cell : C) (x0 x1 : Tensor1 ℝ)
    (hlen : 0 < Tensor1.norm realMath (x1.sub x0))
    (hrange : ((decide (closest_parameter realMath dh cell x0 x1 < 0) ||
        decide (closest_parameter realMath dh cell x0 x1 > Tensor1.norm realMath (x1.sub x0))) &&
        !(dh.point_inside cell x0 || dh.point_inside cell x1)) = false)
    (hdet : (closest_parameter realMath dh cell x0 x1 < 0 →
        dh.point_inside cell x1 = true → dh.point_inside cell x0 = true) ∧
      (closest_parameter realMath dh cell x0 x1 > Tensor1.norm realMath (x1.sub x0) →
        dh.point_inside cell x0 = true → dh.point_inside cell x1 = true)) :
    ∃ σ : ℝ, 0 ≤ σ ∧ σ ≤ Tensor1.norm realMath (x1.sub x0) ∧
      ∀ start, start_point realMath dh cell x0 x1 start
        = x0.add ((segment_tangent realMath x0 x1).scale σ) := by
  obtain ⟨hc0, hc1, hc2⟩ := segment_tangent_components x0 x1 hlen
  by_cases hlo : closest_parameter realMath dh cell x0 x1 < 0
  · have hin : dh.point_inside cell x0 = true := by
      cases h0 : dh.point_inside cell x0 with
      | true => rfl
      | false =>
        cases h1 : dh.point_inside cell x1 with
        | true => rw [hdet.1 hlo h1] at h0; cases h0
        | false => simp [hlo, h0, h1] at hrange
    refine ⟨0, le_refl _, hlen.le, ?_⟩
    intro start
    have hnot : ¬ closest_parameter realMath dh cell x0 x1
        > Tensor1.norm realMath (x1.sub x0) := by
      intro h
      linarith
    have hnot2 : ¬ closest_parameter realMath dh cell x0 x1 ≥ 0 := not_le.2 hlo
    unfold start_point
    simp only [hlo, hin, hnot, hnot2, decide_True, decide_False, Bool.and_self, if_true,
      Bool.false_and, Bool.false_eq_true, if_false]
    simp [Tensor1.add, Tensor1.scale]
  · by_cases hhi : closest_parameter realMath dh cell x0 x1
        > Tensor1.norm realMath (x1.sub x0)
    · have hin : dh.point_inside cell x1 = true := by
        cases h1 : dh.point_inside cell x1 with
        | true => rfl
        | false =>
          cases h0 : dh.point_inside cell x0 with
          | true => rw [hdet.2 hhi h0] at h1; cases h1
          | false => simp [hhi, h0, h1] at hrange
      refine ⟨Tensor1.norm realMath (x1.sub x0), hlen.le, le_refl _, ?_⟩
      intro start
      have hnot2 : ¬ closest_parameter realMath dh cell x0 x1
          ≤ Tensor1.norm realMath (x1.sub x0) := not_le.2 hhi
      unfold start_point
      simp only [hlo, hin, hhi, hnot2, decide_True, decide_False, Bool.and_self, if_true,
        Bool.false_and, Bool.and_false, Bool.false_eq_true, if_false]
      rw [Tensor1.eq_iff]
      simp only [Tensor1.add, Tensor1.scale, hc0, hc1, hc2]
      refine ⟨by ring, by ring, by ring⟩
    · refine ⟨closest_parameter realMath dh cell x0 x1, not_lt.1 hlo, not_lt.1 hhi, ?_⟩
      intro start
      have h1 : closest_parameter realMath dh cell x0 x1 ≥ 0 := not_lt.1 hlo
      have h2 : closest_parameter realMath dh cell x0 x1
          ≤ Tensor1.norm realMath (x1.sub x0) := not_lt.1 hhi
      unfold start_point
      simp only [h1, h2, decide_True, Bool.and_self, if_true]
      rfl

/-- The body of the segment loop for a cell that is not bound yet, when
`get_segment_length` is given enough fuel and the start point is assigned:
whether the cell is bound, and with which length, does not depend on the state
in which the cell is visited. -/
theorem locate_segment_outcome (P : DefaultValues ℝ) (normalize : Tensor1 ℝ → Tensor1 ℝ)
    (fuel : Nat) (dh : DoFHandler C ℝ) (cell : C) (x0 x1 : Tensor1 ℝ)
    (hsng : 0 < P.small_number_geometry)
    (hlen : 0 < Tensor1.norm realMath (x1.sub x0))
    (hfuel : ⌊1 / P.small_number_geometry⌋₊ + 2 ≤ fuel)
    (hdet : point_inside_cell P dh cell (closest_point realMath dh cell x0 x1) = true →
      (closest_parameter realMath dh cell x0 x1 < 0 →
        dh.point_inside cell x1 = true → dh.point_inside cell x0 = true) ∧
      (closest_parameter realMath dh cell x0 x1 > Tensor1.norm realMath (x1.sub x0) →
        dh.point_inside cell x0 = true → dh.point_inside cell x1 = true)) :
    ∃ o : Option ℝ, ∀ s : Wellbore C ℝ × Tensor1 ℝ, cell ∉ s.1.cells →
      ∃ start', locate_segment realMath P normalize fuel dh cell x0 x1 s = .ok
        ({ s.1 with
            cells := s.1.cells ++ (o.map (fun _ => cell)).toList
            segment_length := s.1.segment_length ++ o.toList
            segment_direction := s.1.segment_direction ++
              (o.map (fun _ => segment_tangent realMath x0 x1)).toList }, start') := by
  by_cases hd : point_inside_cell P dh cell (closest_point realMath dh cell x0 x1) = true
  · by_cases hrange : ((decide (closest_parameter realMath dh cell x0 x1 < 0) ||
        decide (closest_parameter realMath dh cell x0 x1 > Tensor1.norm realMath (x1.sub x0))) &&
        !(dh.point_inside cell x0 || dh.point_inside cell x1)) = true
    · refine ⟨none, fun s _ => ⟨s.2, ?_⟩⟩
      simp only [closest_point, closest_parameter, segment_tangent] at hd hrange
      unfold locate_segment
      simp only []
      rw [if_neg (by simp [hd]), if_pos hrange]
      simp
    · simp only [Bool.not_eq_true] at hrange
      by_cases hskip : face_loop realMath P normalize dh cell
          (cell_to_wellbore realMath dh cell x0 x1) (closest_point realMath dh cell x0 x1)
          (P.small_number * dh.diameter cell) (List.range 6) false = true
      · refine ⟨none, fun s _ => ?_⟩
        obtain ⟨start', h⟩ := locate_segment_of_skip realMath P normalize fuel dh cell x0 x1 s
          hskip
        exact ⟨start', by simpa using h⟩
      · simp only [Bool.not_eq_true] at hskip
        obtain ⟨σ, hσ0, hσ1, hstart⟩ := start_point_assigned dh cell x0 x1 hlen hrange (hdet hd)
        obtain ⟨l, hl⟩ := get_segment_length_on_segment P fuel dh cell x0 x1 σ hsng hlen
          hσ0 hσ1 hfuel
        refine ⟨some l, fun s hnew => ⟨start_point realMath dh cell x0 x1 s.2, ?_⟩⟩
        rw [locate_segment_of_no_skip realMath P normalize fuel dh cell x0 x1 s l hd hrange
          hskip (by rw [hstart]; exact hl) hnew]
        rfl
  · simp only [Bool.not_eq_true] at hd
    refine ⟨none, fun s _ => ⟨s.2, ?_⟩⟩
    simp only [closest_point, segment_tangent] at hd
    unfold locate_segment
    simp only []
    rw [if_pos (by simp [hd])]
    simp

end OrderSegmentTheorems

section OrderSegmentTheorems2

open Real

variable {C : Type} [DecidableEq C]

theorem zip_filterMap_outcome (cs : List C) (o : C → Option ℝ) (a : Tensor1 ℝ) :
    (cs.filterMap (fun c => (o c).map (fun _ => c))).zip
        ((cs.filterMap o).zip (cs.filterMap (fun c => (o c).map (fun _ => a))))
      = cs.filterMap (fun c => (o c).map (fun l => (c, l, a))) ∧
    (cs.filterMap o).length = (cs.filterMap (fun c => (o c).map (fun _ => c))).length ∧
    (cs.filterMap (fun c => (o c).map (fun _ => a))).length
      = (cs.filterMap (fun c => (o c).map (fun _ => c))).length := by
  induction cs with
  | nil => simp
  | cons c rest ih =>
    cases hc : o c with
    | none => simpa [List.filterMap_cons, hc] using ih
    | some l => simpa [List.filterMap_cons, hc] using ih

/-- The cell loop for a trajectory of one segment over cells that are not
bound yet, each of which has an outcome `o c` that does not depend on the
state: the cells with an outcome are appended in the order of the visit. -/
theorem cell_loop_segment_outcome (P : DefaultValues ℝ) (normalize : Tensor1 ℝ → Tensor1 ℝ)
    (fuel : Nat) (dh : DoFHandler C ℝ) (x0 x1 : Tensor1 ℝ) (o : C → Option ℝ)
    (cs : List C) (s : Wellbore C ℝ × Tensor1 ℝ)
    (ho : ∀ c ∈ cs, ∀ s : Wellbore C ℝ × Tensor1 ℝ, c ∉ s.1.cells →
      ∃ start', locate_segment realMath P normalize fuel dh c x0 x1 s = .ok
        ({ s.1 with
            cells := s.1.cells ++ ((o c).map (fun _ => c)).toList
            segment_length := s.1.segment_length ++ (o c).toList
            segment_direction := s.1.segment_direction ++
              ((o c).map (fun _ => segment_tangent realMath x0 x1)).toList }, start'))
    (hnodup : cs.Nodup) (hnew : ∀ c ∈ cs, c ∉ s.1.cells)
    (hloc : s.1.locations = [x0, x1]) :
    ∃ r start', cell_loop realMath P normalize fuel dh cs s = .ok (r, start') ∧
      r.cells = s.1.cells ++ cs.filterMap (fun c => (o c).map (fun _ => c)) ∧
      r.segment_length = s.1.segment_length ++ cs.filterMap o ∧
      r.segment_direction = s.1.segment_direction ++
        cs.filterMap (fun c => (o c).map (fun _ => segment_tangent realMath x0 x1)) := by
  induction cs generalizing s with
  | nil => exact ⟨s.1, s.2, rfl, by simp, by simp, by simp⟩
  | cons c rest ih =>
    have hc : c ∉ s.1.cells := hnew c (List.mem_cons_self _ _)
    obtain ⟨start', hseg⟩ := ho c (List.mem_cons_self _ _) s hc
    rw [List.nodup_cons] at hnodup
    obtain ⟨r, start'', hloop, h1, h2, h3⟩ := ih
      ({ s.1 with
          cells := s.1.cells ++ ((o c).map (fun _ => c)).toList
          segment_length := s.1.segment_length ++ (o c).toList
          segment_direction := s.1.segment_direction ++
            ((o c).map (fun _ => segment_tangent realMath x0 x1)).toList }, start')
      (fun c' hc' => ho c' (List.mem_cons_of_mem _ hc'))
      hnodup.2
      (by
        intro c' hc' hmem
        simp only [List.mem_append] at hmem
        rcases hmem with hmem | hmem
        · exact hnew c' (List.mem_cons_of_mem _ hc') hmem
        · cases hoc : o c with
          | none => simp [hoc] at hmem
          | some l =>
            simp only [hoc, Option.map_some', Option.toList_some, List.mem_singleton] at hmem
            exact hnodup.1 (hmem ▸ hc'))
      hloc
    refine ⟨r, start'', ?_, ?_, ?_, ?_⟩
    · unfold cell_loop
      rw [if_neg hc]
      simp only [hloc, segments, List.tail_cons, List.zip_cons_cons, List.zip_nil_right,
        segment_loop, hseg, bind, Except.bind]
      simp only [hloc] at hloop
      exact hloop
    · rw [h1]
      cases hoc : o c <;> simp [List.filterMap_cons, hoc]
    · rw [h2]
      cases hoc : o c <;> simp [List.filterMap_cons, hoc]
    · rw [h3]
      cases hoc : o c <;> simp [List.filterMap_cons, hoc]

/-- A trajectory of one segment for which the start point is assigned in every
cell that passes the checks: the bindings found with two orders of the cells
are permutations of each other. -/
theorem locate_segment_order (P : DefaultValues ℝ) (normalize : Tensor1 ℝ → Tensor1 ℝ)
    (fuel : Nat) (dh : DoFHandler C ℝ) (cells' : List C) (st : Wellbore C ℝ)
    (x0 x1 : Tensor1 ℝ)
    (hperm : cells'.Perm dh.active_cells) (hnodup : dh.active_cells.Nodup)
    (hloc : st.locations = [x0, x1])
    (hfresh : st.segment_length = [] ∧ st.segment_direction = [])
    (hsng : 0 < P.small_number_geometry)
    (hlen : 0 < Tensor1.norm realMath (x1.sub x0))
    (hfuel : ⌊1 / P.small_number_geometry⌋₊ + 2 ≤ fuel)
    (hdet : ∀ c ∈ dh.active_cells,
      point_inside_cell P dh c (closest_point realMath dh c x0 x1) = true →
      (closest_parameter realMath dh c x0 x1 < 0 →
        dh.point_inside c x1 = true → dh.point_inside c x0 = true) ∧
      (closest_parameter realMath dh c x0 x1 > Tensor1.norm realMath (x1.sub x0) →
        dh.point_inside c x0 = true → dh.point_inside c x1 = true)) :
    ∃ r r', locate realMath P normalize fuel dh st = .ok r ∧
      locate realMath P normalize fuel { dh with active_cells := cells' } st = .ok r' ∧
      (r.cells.zip (r.segment_length.zip r.segment_direction)).Perm
        (r'.cells.zip (r'.segment_length.zip r'.segment_direction)) ∧
      r.segment_length.length = r.cells.length ∧
      r.segment_direction.length = r.cells.length ∧
      r'.segment_length.length = r'.cells.length ∧
      r'.segment_direction.length = r'.cells.length := by
  have hex : ∀ c : C, ∃ o : Option ℝ, c ∈ dh.active_cells →
      ∀ s : Wellbore C ℝ × Tensor1 ℝ, c ∉ s.1.cells →
      ∃ start', locate_segment realMath P normalize fuel dh c x0 x1 s = .ok
        ({ s.1 with
            cells := s.1.cells ++ (o.map (fun _ => c)).toList
            segment_length := s.1.segment_length ++ o.toList
            segment_direction := s.1.segment_direction ++
              (o.map (fun _ => segment_tangent realMath x0 x1)).toList }, start') := by
    intro c
    by_cases hc : c ∈ dh.active_cells
    · obtain ⟨o, ho⟩ := locate_segment_outcome P normalize fuel dh c x0 x1 hsng hlen hfuel
        (hdet c hc)
      exact ⟨o, fun _ => ho⟩
    · exact ⟨none, fun h => absurd h hc⟩
  choose o ho using hex
  obtain ⟨r, start, hr, hr1, hr2, hr3⟩ := cell_loop_segment_outcome P normalize fuel dh x0 x1 o
    dh.active_cells ({ st with cells := [] }, ⟨0, 0, 0⟩) (fun c hc => ho c hc) hnodup
    (fun c _ => by simp) hloc
  obtain ⟨r', start', hr', hr1', hr2', hr3'⟩ := cell_loop_segment_outcome P normalize fuel dh
    x0 x1 o cells' ({ st with cells := [] }, ⟨0, 0, 0⟩)
    (fun c hc => ho c (hperm.subset hc)) (hperm.nodup_iff.2 hnodup) (fun c _ => by simp) hloc
  have h1 : locate realMath P normalize fuel dh st
      = (cell_loop realMath P normalize fuel dh dh.active_cells
        ({ st with cells := [] }, { c0 := 0, c1 := 0, c2 := 0 })).bind (fun s => .ok s.1) := rfl
  simp only [List.nil_append, hfresh.1, hfresh.2] at hr1 hr2 hr3 hr1' hr2' hr3'
  have hz := zip_filterMap_outcome dh.active_cells o (segment_tangent realMath x0 x1)
  have hz' := zip_filterMap_outcome cells' o (segment_tangent realMath x0 x1)
  refine ⟨r, r', by rw [h1, hr]; rfl, by rw [locate_active_cells, hr']; rfl, ?_, ?_, ?_, ?_, ?_⟩
  · rw [hr1, hr2, hr3, hr1', hr2', hr3', hz.1, hz'.1]
    exact (hperm.symm).filterMap _
  · rw [hr1, hr2]
    exact hz.2.1
  · rw [hr1, hr3]
    exact hz.2.2
  · rw [hr1', hr2']
    exact hz'.2.1
  · rw [hr1', hr3']
    exact hz'.2.2

end OrderSegmentTheorems2

section OrderClaim

open Real

variable {C : Type} [DecidableEq C]

/-- C21 amended: for a fixed mesh with pairwise distinct active cells and a
freshly constructed well, `locate` returns for every order in which the cells
are visited, with one length and one direction per bound cell, and the binding,
seen as the collection of (cell, length, direction) triples, is the same for
every order, in these two cases: the trajectory is a single point that at most
one active cell contains; or the trajectory is one segment, `get_segment_length`
is given enough fuel, and in no cell that passes the containment check is the
parameter `t` of the projected point negative with `x1` inside the cell and
`x0` outside, or beyond the end of the segment with `x0` inside and `x1`
outside (so that the start point is assigned for every cell). -/
theorem locate_order_independent (P : DefaultValues ℝ) (normalize : Tensor1 ℝ → Tensor1 ℝ)
    (fuel : Nat) (dh : DoFHandler C ℝ) (cells' : List C) (st : Wellbore C ℝ)
    (hperm : cells'.Perm dh.active_cells) (hnodup : dh.active_cells.Nodup)
    (hfresh : st.segment_length = [] ∧ st.segment_direction = [])
    (hcase :
      (∃ x, st.locations = [x] ∧
        ∀ c ∈ dh.active_cells, ∀ c' ∈ dh.active_cells,
          dh.point_inside c x = true → dh.point_inside c' x = true → c = c') ∨
      (∃ x0 x1, st.locations = [x0, x1] ∧ 0 < P.small_number_geometry ∧
        0 < Tensor1.norm realMath (x1.sub x0) ∧
        ⌊1 / P.small_number_geometry⌋₊ + 2 ≤ fuel ∧
        ∀ c ∈ dh.active_cells,
          point_inside_cell P dh c (closest_point realMath dh c x0 x1) = true →
          (closest_parameter realMath dh c x0 x1 < 0 →
            dh.point_inside c x1 = true → dh.point_inside c x0 = true) ∧
          (closest_parameter realMath dh c x0 x1 > Tensor1.norm realMath (x1.sub x0) →
            dh.point_inside c x0 = true → dh.point_inside c x1 = true))) :
    ∃ r r', locate realMath P normalize fuel dh st = .ok r ∧
      locate realMath P normalize fuel { dh with active_cells := cells' } st = .ok r' ∧
      (r.cells.zip (r.segment_length.zip r.segment_direction)).Perm
        (r'.cells.zip (r'.segment_length.zip r'.segment_direction)) ∧
      r.segment_length.length = r.cells.length ∧
      r.segment_direction.length = r.cells.length ∧
      r'.segment_length.length = r'.cells.length ∧
      r'.segment_direction.length = r'.cells.length := by
  rcases hcase with ⟨x, hloc, huniq⟩ | ⟨x0, x1, hloc, hsng, hlen, hfuel, hdet⟩
  · obtain ⟨r, h1, h2, h3, h4⟩ := locate_single_point_order realMath P normalize fuel dh cells'
      st x hperm hloc hfresh huniq
    exact ⟨r, r, h1, h2, List.Perm.refl _, h3, h4, h3, h4⟩
  · exact locate_segment_order P normalize fuel dh cells' st x0 x1 hperm hnodup hloc hfresh
      hsng hlen hfuel hdet

end OrderClaim

section OrderWitness

open Real

/-- The segment from `(8, 4, 0)` to `(8, 4, 8)` on the mesh of two cubes: the
cells visited in the order 0, 1 and in the order 1, 0 give the same binding. -/
theorem locate_order_independent_witness :
    ∃ r r', locate realMath scenario_defaults Math_normalize 1000002 two_box_dof_handler
        (face_well 4) = .ok r ∧
      locate realMath scenario_defaults Math_normalize 1000002
        { two_box_dof_handler with active_cells := [1, 0] } (face_well 4) = .ok r' ∧
      (r.cells.zip (r.segment_length.zip r.segment_direction)).Perm
        (r'.cells.zip (r'.segment_length.zip r'.segment_direction)) ∧
      r.segment_length.length = r.cells.length ∧
      r.segment_direction.length = r.cells.length ∧
      r'.segment_length.length = r'.cells.length ∧
      r'.segment_direction.length = r'.cells.length :=
  locate_order_independent scenario_defaults Math_normalize 1000002 two_box_dof_handler [1, 0]
    (face_well 4) (List.Perm.swap 0 1 []) (by simp [two_box_dof_handler]) ⟨rfl, rfl⟩
    (Or.inr ⟨⟨8, 4, 0⟩, ⟨8, 4, 8⟩, rfl, by norm_num [scenario_defaults],
      by rw [segment_length_vertical _ _ _ _ (by norm_num)]; norm_num,
      by rw [scenario_floor_fuel],
      by
        intro c _ _
        rw [closest_parameter_vertical _ _ _ _ _ _ (by norm_num),
          segment_length_vertical _ _ _ _ (by norm_num)]
        have hcz : (two_box_dof_handler.center c).c2 = 4 := rfl
        rw [hcz]
        constructor <;> intro h <;> norm_num at h⟩)

end OrderWitness

/-! ## The total-rate allocation after a repeated update (C2, C3) -/

section StaleSumTheorems

open Real

theorem scenario_rate_update_productivity (k : ℝ) (hk : 0 < k) (prods : List ℝ) :
    update_productivity realMath scenario_mesh (uniform_permeability k)
        { scenario_rate_well with productivities := prods }
      = .ok { scenario_rate_well with productivities := prods ++ [scenario_productivity k] } := by
  have hx : compute_productivity realMath (0.1 : ℝ) 0 k k 10 5 (5 * |(0 : ℝ)|) = .ok 0 := by
    simp [compute_productivity]
  have hz : compute_productivity realMath (0.1 : ℝ) 0 k k 10 10 (5 * |(1 : ℝ)|)
      = .ok (spec_J 0.1 0 k k 10 10 5) := by
    rw [abs_one, mul_one, compute_productivity_real,
      if_pos (scenario_spec_J_pos_of_pos k hk).le]
  unfold update_productivity
  rw [get_cell_sizes_self]
  simp only [bind, Except.bind, pure, Except.pure, scenario_rate_well, scenario_well, List.map,
    List.length_cons,
    List.length_nil, update_productivity_loop, vec_read, List.getElem?_cons_zero,
    cell_productivity, scenario_cell_size, uniform_permeability, hx, hz, Tensor1.norm,
    Nat.zero_add, scenario_productivity]
  rfl

theorem scenario_productivity_pos (k : ℝ) (hk : 0 < k) : 0 < scenario_productivity k := by
  rw [scenario_productivity_eq k hk]
  exact scenario_spec_J_pos_of_pos k hk

theorem scenario_productivity_400 : scenario_productivity 400 = 4 * scenario_productivity 100 := by
  rw [scenario_productivity_eq 100 (by norm_num), scenario_productivity_eq 400 (by norm_num),
    scenario_spec_J_eq 100 (by norm_num), scenario_spec_J_eq 400 (by norm_num)]
  ring

theorem scenario_rate_well_Q :
    get_J_and_Q { scenario_rate_well with
        productivities := [scenario_productivity 100, scenario_productivity 400] } 0
      = .ok (0, 8 / 5) := by
  have hpos := scenario_productivity_pos 100 (by norm_num)
  rw [get_J_and_Q_flow_control_total ({ scenario_rate_well with
        productivities := [scenario_productivity 100, scenario_productivity 400] }) 0 0
    (scenario_productivity 100) rfl
    (by simp [scenario_rate_well, scenario_well]) rfl rfl]
  have hsum : ([scenario_productivity 100, scenario_productivity 400] : List ℝ).sum
      = 5 * scenario_productivity 100 := by
    simp only [List.sum_cons, List.sum_nil, scenario_productivity_400]
    ring
  simp only [hsum]
  rw [if_pos (by positivity)]
  congr 2
  simp only [scenario_rate_well]
  field_simp
  ring

/-- C2 fails on the code: `get_J_and_Q` divides by the sum of all the entries
of `productivities`, and `update_productivity` never clears this vector. For
the well of the scenario under total-rate control 8 (one bound cell), after a
first `update_productivity` with permeability 100 and a second one with
permeability 400 the vector holds two entries for the one bound cell. The sum
`S` over the bound cells is the one productivity index of the cell 0 and is
positive, so that `q * productivity_0 / S` is 8, but the code returns
`Q = 8 / 5`. -/
theorem total_rate_divides_by_stale_sum :
    update_productivity realMath scenario_mesh (uniform_permeability 100) scenario_rate_well
        = .ok { scenario_rate_well with productivities := [scenario_productivity 100] } ∧
      update_productivity realMath scenario_mesh (uniform_permeability 400)
          { scenario_rate_well with productivities := [scenario_productivity 100] }
        = .ok { scenario_rate_well with
                  productivities := [scenario_productivity 100, scenario_productivity 400] } ∧
      scenario_rate_well.cells = [0] ∧
      spec_total_productivity { scenario_rate_well with
          productivities := [scenario_productivity 100, scenario_productivity 400] }
        = scenario_productivity 100 ∧
      0 < scenario_productivity 100 ∧
      8 * scenario_productivity 100 / scenario_productivity 100 = 8 ∧
      get_J_and_Q { scenario_rate_well with
          productivities := [scenario_productivity 100, scenario_productivity 400] } 0
        = .ok (0, 8 / 5) := by
  have hpos := scenario_productivity_pos 100 (by norm_num)
  refine ⟨scenario_rate_update_productivity 100 (by norm_num) [],
    scenario_rate_update_productivity 400 (by norm_num) [scenario_productivity 100], rfl, ?_,
    hpos, ?_, scenario_rate_well_Q⟩
  · simp [spec_total_productivity, scenario_rate_well, scenario_well, List.range, List.range.loop]
  · field_simp

/-- C3 fails on the code, for the same reason: for the rate well of the
scenario, bound to the single cell 0, after `update_productivity` has been
called twice (permeability 100, then 400) the values `Q` that `get_J_and_Q`
returns for the bound cells are the single value `8 / 5`; they do not add up to
the control value 8, and the single bound cell does not receive the whole
rate, although the total productivity is not zero. -/
theorem total_rate_allocation_misses_rate :
    update_productivity realMath scenario_mesh (uniform_permeability 400)
          { scenario_rate_well with productivities := [scenario_productivity 100] }
        = .ok { scenario_rate_well with
                  productivities := [scenario_productivity 100, scenario_productivity 400] } ∧
      spec_total_productivity { scenario_rate_well with
          productivities := [scenario_productivity 100, scenario_productivity 400] } ≠ 0 ∧
      scenario_rate_well.cells.map (get_J_and_Q { scenario_rate_well with
          productivities := [scenario_productivity 100, scenario_productivity 400] })
        = [.ok (0, 8 / 5)] ∧
      ([8 / 5] : List ℝ).sum ≠ 8 := by
  have hpos := scenario_productivity_pos 100 (by norm_num)
  refine ⟨scenario_rate_update_productivity 400 (by norm_num) [scenario_productivity 100], ?_,
    ?_, by norm_num⟩
  · have h : spec_total_productivity { scenario_rate_well with
          productivities := [scenario_productivity 100, scenario_productivity 400] }
        = scenario_productivity 100 := by
      simp [spec_total_productivity, scenario_rate_well, scenario_well, List.range,
        List.range.loop]
    rw [h]
    exact hpos.ne'
  · have hc : scenario_rate_well.cells = [0] := rfl
    rw [hc, List.map_cons, List.map_nil, scenario_rate_well_Q]

end StaleSumTheorems

/-! ## Doubles with their range: overflow and underflow (C11, C12) -/

section DoubleTheorems

open Real

theorem double_bounds :
    (0 : ℝ) < double_underflow_bound ∧ (double_underflow_bound : ℝ) < 1 / 2 ^ 1001 ∧
      (2 : ℝ) ^ 1002 < double_overflow_bound := by
  norm_num [double_underflow_bound, double_overflow_bound]

/-- A result within the range is kept as it is. -/
theorem Double.round_of_in_range (x : ℝ) (h : in_double_range x) :
    Double.round x = .finite x := by
  obtain ⟨hu, -, ho⟩ := double_bounds
  have ho' : (0 : ℝ) < double_overflow_bound := lt_trans (by norm_num) ho
  unfold Double.round
  rcases h with h | ⟨h1, h2⟩
  · subst h
    rw [if_neg (by linarith), if_neg (by linarith), if_pos (by rw [abs_zero]; exact hu.le)]
  · have hx1 := le_abs_self x
    have hx2 := neg_abs_le x
    rw [if_neg (by linarith), if_neg (by linarith), if_neg (by linarith)]

theorem in_double_range_of_moderate (x : ℝ) (hlo : 1 / 2 ^ 1001 ≤ |x|) (hhi : |x| ≤ 2 ^ 1002) :
    in_double_range x := by
  obtain ⟨-, hu, ho⟩ := double_bounds
  exact Or.inr ⟨by linarith, by linarith⟩

theorem in_double_range_of_pos (x : ℝ) (hlo : 1 / 2 ^ 1001 ≤ x) (hhi : x ≤ 2 ^ 1002) :
    in_double_range x := by
  have hpos : (0 : ℝ) < 1 / 2 ^ 1001 := by positivity
  apply in_double_range_of_moderate
  · rw [abs_of_pos (by linarith)]
    exact hlo
  · rw [abs_of_pos (by linarith)]
    exact hhi

theorem in_double_range_zero : in_double_range (0 : ℝ) := Or.inl rfl

theorem Double.add_finite (x y : ℝ) (h : in_double_range (x + y)) :
    (Double.finite x).add (.finite y) = .finite (x + y) := by
  simp only [Double.add, Double.round_of_in_range _ h]

theorem Double.sub_finite (x y : ℝ) (h : in_double_range (x - y)) :
    (Double.finite x).sub (.finite y) = .finite (x - y) := by
  rw [sub_eq_add_neg] at h ⊢
  simp only [Double.sub, Double.neg, Double.add, Double.round_of_in_range _ h]

theorem Double.mul_finite (x y : ℝ) (h : in_double_range (x * y)) :
    (Double.finite x).mul (.finite y) = .finite (x * y) := by
  simp only [Double.mul, Double.round_of_in_range _ h]

theorem Double.sqrt_finite (x : ℝ) (hx : 0 ≤ x) (h : in_double_range (√x)) :
    Double.sqrt realMath (.finite x) = .finite (√x) := by
  have h' : in_double_range (realMath.sqrt x) := h
  simp only [Double.sqrt, if_neg (not_lt.2 hx), Double.round_of_in_range _ h']
  rfl

end DoubleTheorems

section DoubleProductivity

open Real

end DoubleProductivity

section DoubleProductivityClaim

open Real

end DoubleProductivityClaim

section DoubleProductivityClaim2

open Real

end DoubleProductivityClaim2

section DoubleConstructor

open Real

variable {C : Type} [DecidableEq C]

/-- The duplicate check in doubles fails exactly when the computed norm of the
difference of two consecutive points is not greater than zero. -/
theorem check_duplicates_double_cases (M : MathFns ℝ) (locs : List (Tensor1 (Double ℝ))) :
    (check_duplicates_double M locs = .error .duplicate_locations ∧
        ∃ i, ∃ h : i + 1 < locs.length,
          (Double.norm M (Double.point_sub locs[i + 1] locs[i])).gt_zero = false) ∨
      (check_duplicates_double M locs = .ok () ∧
        ¬ ∃ i, ∃ h : i + 1 < locs.length,
          (Double.norm M (Double.point_sub locs[i + 1] locs[i])).gt_zero = false) := by
  induction locs with
  | nil => right; simp [check_duplicates_double]
  | cons x rest ih =>
    cases rest with
    | nil => right; simp [check_duplicates_double]
    | cons y rest =>
      unfold check_duplicates_double
      cases hxy : (Double.norm M (Double.point_sub y x)).gt_zero with
      | false =>
        left
        rw [if_neg (by simp)]
        exact ⟨rfl, 0, by simp, by simpa using hxy⟩
      | true =>
        rw [if_pos rfl]
        rcases ih with ⟨he, i, hi, hii⟩ | ⟨hok, hno⟩
        · left
          exact ⟨he, i + 1, by simpa using hi, by simpa using hii⟩
        · right
          refine ⟨hok, ?_⟩
          rintro ⟨i, hi, he⟩
          cases i with
          | zero =>
            have : (Double.norm M (Double.point_sub y x)).gt_zero = false := by simpa using he
            rw [hxy] at this
            cases this
          | succ j => exact hno ⟨j, by simpa using hi, by simpa using he⟩

/-- The difference of a double and itself is zero or NaN, and so are the
squares and sums built from such values. -/
theorem Double.sub_self_cases (c : Double ℝ) : c.sub c = .finite 0 ∨ c.sub c = .nan := by
  cases c with
  | finite x =>
    left
    simp only [Double.sub, Double.neg, Double.add, add_neg_cancel]
    exact Double.round_of_in_range 0 in_double_range_zero
  | pos_inf => right; rfl
  | neg_inf => right; rfl
  | nan => right; rfl

theorem Double.mul_self_cases (c : Double ℝ) (h : c = .finite 0 ∨ c = .nan) :
    c.mul c = .finite 0 ∨ c.mul c = .nan := by
  rcases h with h | h
  · left
    rw [h]
    simp only [Double.mul, mul_zero]
    exact Double.round_of_in_range 0 in_double_range_zero
  · right
    rw [h]
    rfl

theorem Double.add_cases (a b : Double ℝ) (ha : a = .finite 0 ∨ a = .nan)
    (hb : b = .finite 0 ∨ b = .nan) : a.add b = .finite 0 ∨ a.add b = .nan := by
  rcases ha with ha | ha <;> rcases hb with hb | hb <;> rw [ha, hb]
  · left
    simp only [Double.add, add_zero]
    exact Double.round_of_in_range 0 in_double_range_zero
  · right; rfl
  · right; rfl
  · right; rfl

/-- The computed norm of the difference of a point and itself is never greater
than zero. -/
theorem double_norm_sub_self (p : Tensor1 (Double ℝ)) :
    (Double.norm realMath (Double.point_sub p p)).gt_zero = false := by
  have h := Double.add_cases _ _
    (Double.add_cases _ _ (Double.mul_self_cases _ (Double.sub_self_cases p.c0))
      (Double.mul_self_cases _ (Double.sub_self_cases p.c1)))
    (Double.mul_self_cases _ (Double.sub_self_cases p.c2))
  simp only [Double.norm, Double.point_sub]
  rcases h with h | h
  · rw [h]
    have h0 : Double.sqrt realMath (.finite 0) = .finite 0 := by
      rw [Double.sqrt_finite 0 le_rfl (by rw [Real.sqrt_zero]; exact in_double_range_zero),
        Real.sqrt_zero]
    rw [h0]
    simp [Double.gt_zero]
  · rw [h]
    rfl

theorem square_in_range (d : ℝ) (h : d = 0 ∨ (1 / 2 ^ 500 ≤ |d| ∧ |d| ≤ 2 ^ 500)) :
    in_double_range d ∧ (d * d = 0 ∨ (1 / 2 ^ 1000 ≤ d * d ∧ d * d ≤ 2 ^ 1000)) := by
  rcases h with h | ⟨h1, h2⟩
  · subst h
    exact ⟨in_double_range_zero, Or.inl (by ring)⟩
  · refine ⟨in_double_range_of_moderate d (le_trans (by norm_num) h1)
      (le_trans h2 (by norm_num)), Or.inr ?_⟩
    have habs : d * d = |d| * |d| := (abs_mul_abs_self d).symm
    have hpos : (0 : ℝ) < 1 / 2 ^ 500 := by positivity
    rw [habs]
    constructor
    · calc (1 : ℝ) / 2 ^ 1000 = 1 / 2 ^ 500 * (1 / 2 ^ 500) := by norm_num
        _ ≤ |d| * |d| := mul_le_mul h1 h1 hpos.le (abs_nonneg d)
    · calc |d| * |d| ≤ 2 ^ 500 * 2 ^ 500 := mul_le_mul h2 h2 (abs_nonneg d) (by positivity)
        _ = 2 ^ 1000 := by norm_num

theorem sum_in_range (a b : ℝ) (n : ℝ) (hn : 0 ≤ n) (hn' : n ≤ 2)
    (ha : a = 0 ∨ (1 / 2 ^ 1000 ≤ a ∧ a ≤ n * 2 ^ 1000))
    (hb : b = 0 ∨ (1 / 2 ^ 1000 ≤ b ∧ b ≤ 2 ^ 1000)) :
    in_double_range (a + b) ∧
      (a + b = 0 ∨ (1 / 2 ^ 1000 ≤ a + b ∧ a + b ≤ (n + 1) * 2 ^ 1000)) := by
  have hpos : (0 : ℝ) < 1 / 2 ^ 1000 := by positivity
  have hbig : (0 : ℝ) < 2 ^ 1000 := by positivity
  have key : a + b = 0 ∨ (1 / 2 ^ 1000 ≤ a + b ∧ a + b ≤ (n + 1) * 2 ^ 1000) := by
    rcases ha with ha | ⟨ha1, ha2⟩ <;> rcases hb with hb | ⟨hb1, hb2⟩
    · left; rw [ha, hb]; ring
    · right; rw [ha, zero_add]; exact ⟨hb1, by nlinarith⟩
    · right; rw [hb, add_zero]; exact ⟨ha1, by nlinarith⟩
    · right; exact ⟨by linarith, by nlinarith⟩
  refine ⟨?_, key⟩
  rcases key with h | ⟨h1, h2⟩
  · exact Or.inl h
  · apply in_double_range_of_moderate
    · rw [abs_of_pos (by linarith)]
      exact le_trans (by norm_num) h1
    · rw [abs_of_pos (by linarith)]
      have : (n + 1) * (2 : ℝ) ^ 1000 ≤ 3 * 2 ^ 1000 := by nlinarith
      exact le_trans h2 (le_trans this (by norm_num))

/-- For finite points whose coordinates differ by amounts of moderate size, the
computed norm of the difference is greater than zero exactly when the points
differ. -/
theorem double_norm_sub_pos_iff (p q : Tensor1 ℝ) (h : moderate_differences p q) :
    (Double.norm realMath (Double.point_sub q.to_double p.to_double)).gt_zero = true
      ↔ p ≠ q := by
  obtain ⟨h0, h1, h2⟩ := h
  obtain ⟨r0, s0⟩ := square_in_range _ h0
  obtain ⟨r1, s1⟩ := square_in_range _ h1
  obtain ⟨r2, s2⟩ := square_in_range _ h2
  have s0' : (q.c0 - p.c0) * (q.c0 - p.c0) = 0 ∨
      (1 / 2 ^ 1000 ≤ (q.c0 - p.c0) * (q.c0 - p.c0) ∧
        (q.c0 - p.c0) * (q.c0 - p.c0) ≤ 1 * 2 ^ 1000) := by
    rw [one_mul]
    exact s0
  obtain ⟨r01, s01⟩ := sum_in_range _ _ 1 (by norm_num) (by norm_num) s0' s1
  have s01' : (q.c0 - p.c0) * (q.c0 - p.c0) + (q.c1 - p.c1) * (q.c1 - p.c1) = 0 ∨
      (1 / 2 ^ 1000 ≤ (q.c0 - p.c0) * (q.c0 - p.c0) + (q.c1 - p.c1) * (q.c1 - p.c1) ∧
        (q.c0 - p.c0) * (q.c0 - p.c0) + (q.c1 - p.c1) * (q.c1 - p.c1) ≤ 2 * 2 ^ 1000) := by
    have e : ((1 : ℝ) + 1) = 2 := by norm_num
    rw [e] at s01
    exact s01
  obtain ⟨r012, s012⟩ := sum_in_range _ _ 2 (by norm_num) (by norm_num) s01' s2
  have hin : ∀ d : ℝ, d = 0 ∨ (1 / 2 ^ 1000 ≤ d ∧ d ≤ 2 ^ 1000) → in_double_range d := by
    intro d hd
    rcases hd with hd | ⟨hd1, hd2⟩
    · exact Or.inl hd
    · have hpos : (0 : ℝ) < 1 / 2 ^ 1000 := by positivity
      apply in_double_range_of_moderate
      · rw [abs_of_pos (by linarith)]
        exact le_trans (by norm_num) hd1
      · rw [abs_of_pos (by linarith)]
        exact le_trans hd2 (by norm_num)
  have hnn : 0 ≤ (q.c0 - p.c0) * (q.c0 - p.c0) + (q.c1 - p.c1) * (q.c1 - p.c1)
      + (q.c2 - p.c2) * (q.c2 - p.c2) :=
    add_nonneg (add_nonneg (mul_self_nonneg _) (mul_self_nonneg _)) (mul_self_nonneg _)
  have hsqrt : in_double_range (√((q.c0 - p.c0) * (q.c0 - p.c0) + (q.c1 - p.c1) * (q.c1 - p.c1)
      + (q.c2 - p.c2) * (q.c2 - p.c2))) := by
    rcases s012 with hz | ⟨hl, hu⟩
    · rw [hz, Real.sqrt_zero]
      exact in_double_range_zero
    · have hpos : (0 : ℝ) < 1 / 2 ^ 1000 := by positivity
      have e1 : (1 : ℝ) / 2 ^ 500 = √(1 / 2 ^ 500 * (1 / 2 ^ 500)) :=
        (Real.sqrt_mul_self (by positivity)).symm
      have e2 : (2 : ℝ) ^ 501 = √(2 ^ 501 * 2 ^ 501) :=
        (Real.sqrt_mul_self (by positivity)).symm
      apply in_double_range_of_moderate
      · rw [abs_of_nonneg (Real.sqrt_nonneg _)]
        refine le_trans (by norm_num) (le_trans (le_of_eq e1) (Real.sqrt_le_sqrt ?_))
        exact le_trans (by norm_num) hl
      · rw [abs_of_nonneg (Real.sqrt_nonneg _)]
        refine le_trans (Real.sqrt_le_sqrt ?_) (le_trans (le_of_eq e2.symm) (by norm_num))
        exact le_trans hu (by norm_num)
  simp only [Double.norm, Double.point_sub, Tensor1.to_double]
  rw [Double.sub_finite _ _ r0, Double.sub_finite _ _ r1, Double.sub_finite _ _ r2,
    Double.mul_finite _ _ (hin _ s0), Double.mul_finite _ _ (hin _ s1),
    Double.mul_finite _ _ (hin _ s2), Double.add_finite _ _ r01, Double.add_finite _ _ r012,
    Double.sqrt_finite _ hnn hsqrt]
  simp only [Double.gt_zero, decide_eq_true_eq, gt_iff_lt]
  have hreal := Wellbore.norm_sub_pos_iff p q
  simp only [Tensor1.norm, Tensor1.sub, realMath, gt_iff_lt] at hreal
  exact hreal

end DoubleConstructor

section DoubleConstructorClaim

open Real

variable {C : Type} [DecidableEq C]

/-- C12 as stated fails: the control points `(0, 0, 0)` and `(2^(-600), 0, 0)`
do not coincide, but the square of the difference of their first coordinates,
`2^(-1200)`, underflows to zero; the computed norm of the difference is zero and
the constructor fails with "Duplicates in wellbore locations", though the list
is not empty and the radius `0.1` is positive. -/
theorem new_Wellbore_rejects_close_points :
    (⟨0, 0, 0⟩ : Tensor1 ℝ) ≠ ⟨1 / 2 ^ 600, 0, 0⟩ ∧
      (new_Wellbore_double realMath
        { type := .flow_control_total, value := .finite 0, skin := .finite 0 }
        [(⟨0, 0, 0⟩ : Tensor1 ℝ).to_double, (⟨1 / 2 ^ 600, 0, 0⟩ : Tensor1 ℝ).to_double]
        (.finite 0.1) : Except WellError (Wellbore Nat (Double ℝ)))
        = .error .duplicate_locations := by
  constructor
  · intro h
    have := congrArg Tensor1.c0 h
    norm_num at this
  · have hd : (Double.finite ((1 : ℝ) / 2 ^ 600)).sub (.finite 0) = .finite (1 / 2 ^ 600) := by
      rw [Double.sub_finite _ _ (in_double_range_of_pos _ (by norm_num) (by norm_num)),
        sub_zero]
    have hz : (Double.finite (0 : ℝ)).sub (.finite 0) = .finite 0 := by
      rw [Double.sub_finite _ _ (by rw [sub_zero]; exact in_double_range_zero), sub_zero]
    have hsq : (Double.finite ((1 : ℝ) / 2 ^ 600)).mul (.finite (1 / 2 ^ 600)) = .finite 0 := by
      simp only [Double.mul, Double.round]
      rw [if_neg (by norm_num [double_overflow_bound]),
        if_neg (by norm_num [double_overflow_bound]),
        if_pos (by rw [abs_of_pos (by positivity)]; norm_num [double_underflow_bound])]
    have hzz : (Double.finite (0 : ℝ)).mul (.finite 0) = .finite 0 := by
      rw [Double.mul_finite _ _ (by rw [mul_zero]; exact in_double_range_zero), mul_zero]
    have hadd : (Double.finite (0 : ℝ)).add (.finite 0) = .finite 0 := by
      rw [Double.add_finite _ _ (by rw [add_zero]; exact in_double_range_zero), add_zero]
    have h0 : Double.sqrt realMath (.finite 0) = .finite 0 := by
      rw [Double.sqrt_finite 0 le_rfl (by rw [Real.sqrt_zero]; exact in_double_range_zero),
        Real.sqrt_zero]
    have hnorm : (Double.norm realMath (Double.point_sub
        (⟨1 / 2 ^ 600, 0, 0⟩ : Tensor1 ℝ).to_double (⟨0, 0, 0⟩ : Tensor1 ℝ).to_double)).gt_zero
        = false := by
      simp only [Double.norm, Double.point_sub, Tensor1.to_double, hd, hz, hsq, hzz, hadd, h0]
      simp [Double.gt_zero]
    unfold new_Wellbore_double
    simp only [List.length_cons, List.length_nil, check_duplicates_double, hnorm]
    simp [Double.gt_zero]
    norm_num

/-- C12 amended: the constructor fails if and only if the list is empty, or
the radius is not strictly positive, or the norm computed for the difference of
two consecutive control points is not strictly positive; otherwise it succeeds
and keeps the points and the radius unchanged. The computed norm is not
positive whenever the two points coincide; for finite points whose coordinates
differ by amounts of moderate size (zero, or between `2^(-500)` and `2^500` in
magnitude) it is not positive only when they coincide. -/
theorem new_Wellbore_double_fails_iff (control_default : WellControl (Double ℝ))
    (locs : List (Tensor1 (Double ℝ))) (radius : Double ℝ) :
    ((∃ e, (new_Wellbore_double realMath control_default locs radius
          : Except WellError (Wellbore C (Double ℝ))) = .error e) ↔
        (locs = [] ∨ radius.gt_zero = false ∨
          ∃ i, ∃ h : i + 1 < locs.length,
            (Double.norm realMath (Double.point_sub locs[i + 1] locs[i])).gt_zero = false)) ∧
      (¬ (locs = [] ∨ radius.gt_zero = false ∨
          ∃ i, ∃ h : i + 1 < locs.length,
            (Double.norm realMath (Double.point_sub locs[i + 1] locs[i])).gt_zero = false) →
        ∃ st : Wellbore C (Double ℝ),
          new_Wellbore_double realMath control_default locs radius = .ok st ∧
            st.locations = locs ∧ st.radius = radius) ∧
      (∀ i, ∀ h : i + 1 < locs.length, locs[i] = locs[i + 1] →
        (Double.norm realMath (Double.point_sub locs[i + 1] locs[i])).gt_zero = false) ∧
      (∀ i, ∀ h : i + 1 < locs.length, ∀ p q : Tensor1 ℝ,
        locs[i] = p.to_double → locs[i + 1] = q.to_double → moderate_differences p q →
        ((Double.norm realMath (Double.point_sub locs[i + 1] locs[i])).gt_zero = false
          ↔ p = q)) := by
  refine ⟨?_, ?_, ?_, ?_⟩
  · unfold new_Wellbore_double
    by_cases hl : locs = []
    · subst hl
      simp
    · have hlen : locs.length > 0 := List.length_pos.2 hl
      cases hr : radius.gt_zero with
      | false =>
        simp only [hlen, not_true_eq_false, if_false, Bool.false_eq_true, not_false_eq_true,
          if_true, hl, false_or, true_or, iff_true]
        exact ⟨_, rfl⟩
      | true =>
        rcases check_duplicates_double_cases realMath locs with ⟨he, hd⟩ | ⟨hok, hd⟩
        · simp only [hlen, not_true_eq_false, if_false, he, hl, false_or, hd, or_true,
            iff_true]
          exact ⟨WellError.duplicate_locations, rfl⟩
        · simp only [hlen, not_true_eq_false, if_false, hok, hl, false_or, hd, or_false,
            Bool.true_eq_false, iff_false]
          rintro ⟨e, he⟩
          cases he
  · intro hnot
    unfold new_Wellbore_double
    have hl : locs ≠ [] := fun h => hnot (Or.inl h)
    have hlen : locs.length > 0 := List.length_pos.2 hl
    have hr : radius.gt_zero = true := by
      cases h : radius.gt_zero with
      | false => exact absurd (Or.inr (Or.inl h)) hnot
      | true => rfl
    rcases check_duplicates_double_cases realMath locs with ⟨he, hd⟩ | ⟨hok, hd⟩
    · exact absurd (Or.inr (Or.inr hd)) hnot
    · simp only [hlen, not_true_eq_false, if_false, hr, hok]
      exact ⟨_, rfl, rfl, rfl⟩
  · intro i h heq
    rw [heq]
    exact double_norm_sub_self _
  · intro i h p q hp hq hmod
    rw [hp, hq]
    have := double_norm_sub_pos_iff p q hmod
    constructor
    · intro hf
      by_contra hne
      rw [this.2 hne] at hf
      cases hf
    · intro heq
      cases hg : (Double.norm realMath (Double.point_sub q.to_double p.to_double)).gt_zero with
      | false => rfl
      | true => exact absurd heq (this.1 hg)

/-- The control points `(20, 20, 0)` and `(20, 20, 5)` with the radius `0.1`: the
points differ by a moderate amount and the constructor succeeds. -/
theorem new_Wellbore_double_fails_iff_witness :
    ∃ st : Wellbore Nat (Double ℝ),
      new_Wellbore_double realMath
        { type := .flow_control_total, value := .finite 0, skin := .finite 0 }
        [(⟨20, 20, 0⟩ : Tensor1 ℝ).to_double, (⟨20, 20, 5⟩ : Tensor1 ℝ).to_double]
        (.finite 0.1) = .ok st ∧
      st.locations = [(⟨20, 20, 0⟩ : Tensor1 ℝ).to_double, (⟨20, 20, 5⟩ : Tensor1 ℝ).to_double] ∧
      st.radius = .finite 0.1 := by
  have hthm := new_Wellbore_double_fails_iff (C := Nat)
    { type := .flow_control_total, value := .finite 0, skin := .finite 0 }
    [(⟨20, 20, 0⟩ : Tensor1 ℝ).to_double, (⟨20, 20, 5⟩ : Tensor1 ℝ).to_double] (.finite 0.1)
  obtain ⟨-, hok, -, hmod⟩ := hthm
  apply hok
  rintro (h | h | ⟨i, hi, h⟩)
  · cases h
  · simp [Double.gt_zero] at h
    norm_num at h
  · have hi0 : i = 0 := by
      simp only [List.length_cons, List.length_nil] at hi
      omega
    subst hi0
    have hne := (hmod 0 hi ⟨20, 20, 0⟩ ⟨20, 20, 5⟩ rfl rfl (by
      refine ⟨Or.inl (by norm_num), Or.inl (by norm_num), Or.inr ?_⟩
      norm_num)).1 h
    have := congrArg Tensor1.c2 hne
    norm_num at this

end DoubleConstructorClaim

/-! ## The rounding of the marching points (C29) -/

section RoundingTheorems

open Real

variable {C : Type} [DecidableEq C]

theorem int_log_two_eq (x : ℝ) (e : Int) (hx : 0 < x) (hlo : (2 : ℝ) ^ e ≤ x)
    (hhi : x < (2 : ℝ) ^ (e + 1)) : Int.log 2 x = e := by
  have h1 : e ≤ Int.log 2 x :=
    (Int.zpow_le_iff_le_log (by norm_num : 1 < 2) hx).1 (by exact_mod_cast hlo)
  have h2 : Int.log 2 x < e + 1 :=
    (Int.lt_zpow_iff_log_lt (by norm_num : 1 < 2) hx).1 (by exact_mod_cast hhi)
  omega

/-- The double 5 is not changed by rounding. -/
theorem round_to_double_five : round_to_double (5 : ℝ) = 5 := by
  have hlog : Int.log 2 |(5 : ℝ)| = 2 := by
    rw [abs_of_pos (by norm_num)]
    exact int_log_two_eq 5 2 (by norm_num) (by norm_num) (by norm_num)
  have hfloor : ⌊(5 : ℝ) / 2 ^ ((2 : Int) - 52)⌋ = 5 * 2 ^ 50 := by
    rw [Int.floor_eq_iff]
    constructor <;> norm_num
  unfold round_to_double
  rw [if_neg (by norm_num)]
  simp only [hlog, hfloor]
  rw [if_pos (by norm_num)]
  norm_num

/-- Absorption: at 2000 the doubles are `2^(-42)` apart, and `2000 + 1e-13`
rounds to 2000. -/
theorem round_to_double_absorbs : round_to_double ((2000 : ℝ) + 1 / 10 ^ 13) = 2000 := by
  have hlog : Int.log 2 |(2000 : ℝ) + 1 / 10 ^ 13| = 10 := by
    rw [abs_of_pos (by norm_num)]
    exact int_log_two_eq _ 10 (by norm_num) (by norm_num) (by norm_num)
  have hfloor : ⌊((2000 : ℝ) + 1 / 10 ^ 13) / 2 ^ ((10 : Int) - 52)⌋ = 2000 * 2 ^ 42 := by
    rw [Int.floor_eq_iff]
    constructor <;> norm_num
  unfold round_to_double
  rw [if_neg (by norm_num)]
  simp only [hlog, hfloor]
  rw [if_pos (by norm_num)]
  norm_num

/-- Absorption of every small step: at 2000 the doubles are `2^(-42)` apart, and
`2000 + s` rounds to 2000 for every `s` from 0 to less than `2^(-43)`. -/
theorem round_to_double_absorbs_below (s : ℝ) (h0 : 0 ≤ s) (h1 : s < 1 / 2 ^ 43) :
    round_to_double ((2000 : ℝ) + s) = 2000 := by
  have hs1 : s < 1 := lt_of_lt_of_le h1 (by norm_num)
  have hlog : Int.log 2 |(2000 : ℝ) + s| = 10 := by
    rw [abs_of_pos (by linarith)]
    exact int_log_two_eq _ 10 (by linarith) (by norm_num; linarith) (by norm_num; linarith)
  have hu : (2 : ℝ) ^ ((10 : Int) - 52) = 1 / 2 ^ 42 := by
    norm_num [zpow_neg]
  have hq : ((2000 : ℝ) + s) / (1 / 2 ^ 42) = 2000 * 2 ^ 42 + s * 2 ^ 42 := by
    field_simp
    ring
  have hs2 : s * 2 ^ 42 < 1 / 2 := by
    have : s * 2 ^ 42 < 1 / 2 ^ 43 * 2 ^ 42 := by
      apply mul_lt_mul_of_pos_right h1 (by positivity)
    calc s * 2 ^ 42 < 1 / 2 ^ 43 * 2 ^ 42 := this
      _ = 1 / 2 := by norm_num
  have hs3 : 0 ≤ s * 2 ^ 42 := by positivity
  have hfloor : ⌊((2000 : ℝ) + s) / (1 / 2 ^ 42)⌋ = 2000 * 2 ^ 42 := by
    rw [Int.floor_eq_iff, hq]
    push_cast
    constructor <;> linarith
  unfold round_to_double
  rw [if_neg (by linarith)]
  simp only [hlog, hu, hfloor]
  rw [if_pos (by rw [hq]; push_cast; linarith)]
  push_cast
  field_simp
  norm_num

/-- A marching loop whose point does not move and stays accepted uses up any
amount of fuel. -/
theorem march_stuck (M : MathFns ℝ) (P : DefaultValues ℝ) (dh : DoFHandler C ℝ) (cell : C)
    (start end_point : Tensor1 ℝ) (advance : Tensor1 ℝ → Tensor1 ℝ) (p : Tensor1 ℝ)
    (hin : point_inside_cell P dh cell p = true)
    (hbreak : ¬ (Tensor1.distance M start p > Tensor1.distance M start end_point))
    (hfix : advance p = p) (fuel : Nat) (length : ℝ) (pp : Tensor1 ℝ) :
    march M P dh cell start end_point advance fuel length p pp = .error .out_of_fuel := by
  induction fuel generalizing length pp with
  | zero => rfl
  | succ n ih =>
    unfold march
    rw [if_pos hin, if_neg hbreak, hfix]
    exact ih _ _

end RoundingTheorems

section RoundingClaim

open Real

theorem deep_well_constructed :
    (new_Wellbore realMath { type := .flow_control_total, value := 0, skin := 0 }
      [{ c0 := 5, c1 := 5, c2 := 2000 }, { c0 := 5, c1 := 5, c2 := 2000 + 1 / 10 ^ 7 }] 0.1
        : Except WellError (Wellbore Nat ℝ)) = .ok deep_well := by
  have h : Tensor1.norm realMath
      ((⟨5, 5, 2000 + 1 / 10 ^ 7⟩ : Tensor1 ℝ).sub ⟨5, 5, 2000⟩) > 0 := by
    rw [segment_length_vertical 5 5 2000 (2000 + 1 / 10 ^ 7) (by norm_num)]
    norm_num
  unfold new_Wellbore
  simp only [List.length_cons, List.length_nil, check_duplicates, if_pos h]
  norm_num [deep_well, bind, Except.bind, pure, Except.pure]

/-- The first marching loop of `get_segment_length` on the segment from
`(5, 5, 2000)` up to `(5, 5, 2000 + h)`, started at `(5, 5, 2000)` in the cell
around it: whenever the marching step `h * small_number_geometry` is below
`2^(-43)`, half the distance between neighbouring doubles at 2000, the rounded
sum `p + t*step` is `p` again and the loop uses up every amount of fuel. -/
theorem deep_segment_stuck (h : ℝ) (hh : 0 < h)
    (hstep : h * scenario_defaults.small_number_geometry < 1 / 2 ^ 43) (fuel : Nat) :
    get_segment_length_rounded realMath scenario_defaults fuel deep_cell_dof_handler
      ⟨5, 5, 2000⟩ 0 (segment_tangent realMath ⟨5, 5, 2000⟩ ⟨5, 5, 2000 + h⟩)
      (⟨5, 5, 2000⟩, ⟨5, 5, 2000 + h⟩) = .error .out_of_fuel := by
  have htan := segment_tangent_vertical 5 5 2000 (2000 + h) (by linarith)
  have hlen := segment_length_vertical 5 5 2000 (2000 + h) (by linarith)
  have hsng : 0 < scenario_defaults.small_number_geometry := by norm_num [scenario_defaults]
  have hin : point_inside_cell scenario_defaults deep_cell_dof_handler 0 ⟨5, 5, 2000⟩
      = true := by
    simp only [point_inside_cell, deep_cell_dof_handler, box_contains, Tensor1.add,
      scenario_defaults, Bool.or_eq_true, decide_eq_true_eq]
    left; left; left; left; left
    norm_num
  have hfix : ((⟨5, 5, 2000⟩ : Tensor1 ℝ).add ((⟨0, 0, 1⟩ : Tensor1 ℝ).scale
      ((2000 + h - 2000) * scenario_defaults.small_number_geometry))).rounded
        = ⟨5, 5, 2000⟩ := by
    have e : 2000 + h - 2000 = h := by ring
    simp only [Tensor1.add, Tensor1.scale, Tensor1.rounded, zero_mul, add_zero, one_mul,
      round_to_double_five, e,
      round_to_double_absorbs_below _ (mul_nonneg hh.le hsng.le) hstep]
  have hunit := unit_tangent_unchanged scenario_defaults (⟨0, 0, 1⟩ : Tensor1 ℝ)
    (by simp [Tensor1.norm, realMath])
  unfold get_segment_length_rounded
  simp only [htan]
  rw [hunit]
  simp only [hlen]
  rw [march_stuck realMath scenario_defaults deep_cell_dof_handler 0 ⟨5, 5, 2000⟩
    ⟨5, 5, 2000 + h⟩ _ ⟨5, 5, 2000⟩ hin ?_ hfix fuel 0 ⟨5, 5, 2000⟩]
  · rfl
  · rw [distance_vertical, distance_vertical]
    simp

/-- C29 fails on the code: the constructor accepts the well from
`(5, 5, 2000)` to `(5, 5, 2000 + 1e-7)`; with `small_number_geometry = 1e-6` the
marching step is `1e-13`, less than half the distance `2^(-42)` between
neighbouring doubles at 2000. The start point `(5, 5, 2000)` is in the cell, and
`p + t*step`, rounded to doubles, is `p` again: the first marching loop of
`get_segment_length` never leaves the start point and never reaches its
`break`, so it uses up every amount of fuel. The same holds for every end point
`(5, 5, 2000 + h)` whose marching step `h * 1e-6` is below `2^(-43)`, so that
it does not depend on how the end point or the step are themselves rounded. -/
theorem get_segment_length_never_returns :
    (new_Wellbore realMath { type := .flow_control_total, value := 0, skin := 0 }
      [{ c0 := 5, c1 := 5, c2 := 2000 }, { c0 := 5, c1 := 5, c2 := 2000 + 1 / 10 ^ 7 }] 0.1
        : Except WellError (Wellbore Nat ℝ)) = .ok deep_well ∧
      segment_tangent realMath ⟨5, 5, 2000⟩ ⟨5, 5, 2000 + 1 / 10 ^ 7⟩ = ⟨0, 0, 1⟩ ∧
      marching_step realMath scenario_defaults
        ((⟨5, 5, 2000⟩ : Tensor1 ℝ), (⟨5, 5, 2000 + 1 / 10 ^ 7⟩ : Tensor1 ℝ)) = 1 / 10 ^ 13 ∧
      point_inside_cell scenario_defaults deep_cell_dof_handler 0 ⟨5, 5, 2000⟩ = true ∧
      ((⟨5, 5, 2000⟩ : Tensor1 ℝ).add ((⟨0, 0, 1⟩ : Tensor1 ℝ).scale (1 / 10 ^ 13))).rounded
        = ⟨5, 5, 2000⟩ ∧
      (∀ fuel : Nat,
        get_segment_length_rounded realMath scenario_defaults fuel deep_cell_dof_handler
          ⟨5, 5, 2000⟩ 0 (segment_tangent realMath ⟨5, 5, 2000⟩ ⟨5, 5, 2000 + 1 / 10 ^ 7⟩)
          (⟨5, 5, 2000⟩, ⟨5, 5, 2000 + 1 / 10 ^ 7⟩) = .error .out_of_fuel) ∧
      ∀ h : ℝ, 0 < h → h * scenario_defaults.small_number_geometry < 1 / 2 ^ 43 →
        ∀ fuel : Nat,
          get_segment_length_rounded realMath scenario_defaults fuel deep_cell_dof_handler
            ⟨5, 5, 2000⟩ 0 (segment_tangent realMath ⟨5, 5, 2000⟩ ⟨5, 5, 2000 + h⟩)
            (⟨5, 5, 2000⟩, ⟨5, 5, 2000 + h⟩) = .error .out_of_fuel := by
  have htan := segment_tangent_vertical 5 5 2000 (2000 + 1 / 10 ^ 7) (by norm_num)
  have hlen := segment_length_vertical 5 5 2000 (2000 + 1 / 10 ^ 7) (by norm_num)
  have hstep : marching_step realMath scenario_defaults
      ((⟨5, 5, 2000⟩ : Tensor1 ℝ), (⟨5, 5, 2000 + 1 / 10 ^ 7⟩ : Tensor1 ℝ)) = 1 / 10 ^ 13 := by
    simp only [marching_step, hlen, scenario_defaults]
    norm_num
  have hin : point_inside_cell scenario_defaults deep_cell_dof_handler 0 ⟨5, 5, 2000⟩
      = true := by
    simp only [point_inside_cell, deep_cell_dof_handler, box_contains, Tensor1.add,
      scenario_defaults, Bool.or_eq_true, decide_eq_true_eq]
    left; left; left; left; left
    norm_num
  have hfix : ((⟨5, 5, 2000⟩ : Tensor1 ℝ).add
      ((⟨0, 0, 1⟩ : Tensor1 ℝ).scale (1 / 10 ^ 13))).rounded = ⟨5, 5, 2000⟩ := by
    simp only [Tensor1.add, Tensor1.scale, Tensor1.rounded, zero_mul, add_zero, one_mul,
      round_to_double_five, round_to_double_absorbs]
  exact ⟨deep_well_constructed, htan, hstep, hin, hfix,
    fun fuel => deep_segment_stuck (1 / 10 ^ 7) (by norm_num)
      (by norm_num [scenario_defaults]) fuel,
    fun h hh hs fuel => deep_segment_stuck h hh hs fuel⟩

end RoundingClaim

/-! ## The sum of the bound lengths of the accepted cells (C16) -/

section StretchTheorems

open Real

variable {C : Type} [DecidableEq C]

end StretchTheorems

section CrossedTheorems

open Real

variable {C : Type} [DecidableEq C]

end CrossedTheorems

section CrossedClaim

open Real

variable {C : Type} [DecidableEq C]

end CrossedClaim

section ColumnCrossed

open Real

end ColumnCrossed

section CrossedWitness

open Real

end CrossedWitness

section SlantedWellTheorems

open Real

end SlantedWellTheorems

section SlantedWellTheorems2

open Real

end SlantedWellTheorems2

section SlantedWellClaim

open Real

end SlantedWellClaim

end Wellbore
